import Mathlib

/-!
# Portable IEEE-754 read / write routines (`ieee754.c`, `binaryio.c`)

A shallow embedding of `freadieee754`, `freadieee754f`, `fwriteieee754` and
`fwriteieee754f`, and of the integer readers `fget16be`, `fget16le`, `fget32be`
and `fget32le`.

The C code never looks at the bits of a host `double`: it only uses host
arithmetic (`+`, `-`, `*`, `/`, comparisons, `ldexp`, casts).  The host is taken
to be the usual one: `double` is IEEE-754 binary64, `float` is binary32, every
operation rounds its exact result to nearest, ties to even, in the type of the
operation (`FLT_EVAL_METHOD == 0`), `int` has 32 bits and `long` 64 bits.  A
host value is modelled by `Fl`: NaN, an infinity, negative zero, or a finite
rational (`fin 0` is positive zero).  An operation computes the exact rational
result and rounds it with `Fmt.round`.

Streams are modelled by the list of octets still to be read (`fgetc`) and by a
sink that records the octets accepted and the error indicator (`fputc`,
`ferror`).  The `while` loops take fuel: a routine returns `none` only when the
fuel runs out, and the theorems give a bound on the fuel that is enough.

The integer readers compute in `int`.  They take the width `w` of the host
`int` as a parameter, and each `int` operation is checked (`intOp`): a result
that is not a value of the type is signed overflow, which C leaves undefined,
and the reader then returns `none`.
-/

namespace Ieee754

/-! ## Host floating point -/

/-- A binary floating format: precision (hidden bit included) and the exponent
range of the normal values. -/
structure Fmt where
  prec : Nat
  emin : Int
  emax : Int

/-- The host `double`. -/
def binary64 : Fmt := ⟨53, -1022, 1023⟩

/-- The host `float`. -/
def binary32 : Fmt := ⟨24, -126, 127⟩

/-- A host floating value. `fin 0` is `+0.0`, `nzero` is `-0.0`. -/
inductive Fl where
  | nan
  | inf (neg : Bool)
  | nzero
  | fin (q : ℚ)
  deriving DecidableEq

/-- Halve `n` until it is below 2 and count the passes, `fuel` passes at
most. -/
def log2Fuel : Nat → Nat → Nat
  | 0, _ => 0
  | fuel + 1, n => if 2 ≤ n then log2Fuel fuel (n / 2) + 1 else 0

/-- The natural `k` with `2^k ≤ n < 2^(k+1)`, for `0 < n`. -/
def log2 (n : Nat) : Nat := log2Fuel n n

/-- The integer `k` with `2^k ≤ a < 2^(k+1)`, for `0 < a`. -/
def ilog2 (a : ℚ) : ℤ :=
  let k : ℤ := (log2 a.num.natAbs : ℤ) - (log2 a.den : ℤ)
  if (2 : ℚ) ^ k ≤ a then k else k - 1

/-- Nearest integer, ties to even. -/
def roundHalfEven (x : ℚ) : ℤ :=
  let n : ℤ := ⌊x⌋
  let d : ℚ := x - n
  if d < 1 / 2 then n
  else if 1 / 2 < d then n + 1
  else if n % 2 = 0 then n else n + 1

/-- Round the exact result `q` to the format, to nearest, ties to even.
`negz` is the sign given to an exact zero. -/
def Fmt.round (f : Fmt) (negz : Bool) (q : ℚ) : Fl :=
  if q = 0 then (if negz then Fl.nzero else Fl.fin 0)
  else
    let a : ℚ := |q|
    let e : ℤ := max (ilog2 a) f.emin
    let ulp : ℚ := (2 : ℚ) ^ (e - ((f.prec : ℤ) - 1))
    let r : ℚ := (roundHalfEven (a / ulp) : ℚ) * ulp
    if (2 : ℚ) ^ (f.emax + 1) ≤ r then Fl.inf (decide (q < 0))
    else if r = 0 then (if q < 0 then Fl.nzero else Fl.fin 0)
    else Fl.fin (if q < 0 then -r else r)

namespace Fl

/-- The sign bit. -/
def isNeg : Fl → Bool
  | nan => false
  | inf b => b
  | nzero => true
  | fin q => decide (q < 0)

/-- The value of a finite operand (`0` for the others). -/
def val : Fl → ℚ
  | fin q => q
  | _ => 0

/-- Whether the operand is a zero. -/
def isZero : Fl → Bool
  | nzero => true
  | fin q => decide (q = 0)
  | _ => false

/-- Host `x == y`. -/
def eq : Fl → Fl → Bool
  | nan, _ => false
  | _, nan => false
  | inf a, inf b => a == b
  | inf _, _ => false
  | _, inf _ => false
  | x, y => decide (x.val = y.val)

/-- Host `x != y`. -/
def ne (x y : Fl) : Bool := !(eq x y)

/-- Host `x < y`. -/
def lt : Fl → Fl → Bool
  | nan, _ => false
  | _, nan => false
  | inf a, inf b => a && !b
  | inf a, _ => a
  | _, inf b => !b
  | x, y => decide (x.val < y.val)

/-- Host `x > y`. -/
def gt (x y : Fl) : Bool := lt y x

/-- Host `x >= y`. -/
def ge : Fl → Fl → Bool
  | nan, _ => false
  | _, nan => false
  | inf a, inf b => !a || b
  | inf a, _ => !a
  | _, inf b => b
  | x, y => decide (y.val ≤ x.val)

/-- Host unary minus. -/
def neg : Fl → Fl
  | nan => nan
  | inf b => inf (!b)
  | nzero => fin 0
  | fin q => if q = 0 then nzero else fin (-q)

/-- Host `x + y` in format `f`. -/
def add (f : Fmt) : Fl → Fl → Fl
  | nan, _ => nan
  | _, nan => nan
  | inf a, inf b => if a = b then inf a else nan
  | inf a, _ => inf a
  | _, inf b => inf b
  | x, y => f.round (x.isNeg && y.isNeg) (x.val + y.val)

/-- Host `x - y` in format `f`. -/
def sub (f : Fmt) (x y : Fl) : Fl := add f x (neg y)

/-- Host `x * y` in format `f`. -/
def mul (f : Fmt) : Fl → Fl → Fl
  | nan, _ => nan
  | _, nan => nan
  | inf a, y => if y.isZero then nan else inf (xor a y.isNeg)
  | x, inf b => if x.isZero then nan else inf (xor x.isNeg b)
  | x, y => f.round (xor x.isNeg y.isNeg) (x.val * y.val)

/-- Host `x / y` in format `f`. -/
def div (f : Fmt) : Fl → Fl → Fl
  | nan, _ => nan
  | _, nan => nan
  | inf _, inf _ => nan
  | inf a, y => inf (xor a y.isNeg)
  | x, inf b => if xor x.isNeg b then nzero else fin 0
  | x, y =>
    if y.isZero then (if x.isZero then nan else inf (xor x.isNeg y.isNeg))
    else f.round (xor x.isNeg y.isNeg) (x.val / y.val)

/-- Host `ldexp(x, n)`: `x * 2^n`, rounded once. -/
def ldexp (f : Fmt) : Fl → Int → Fl
  | fin q, n => f.round false (q * (2 : ℚ) ^ n)
  | x, _ => x

/-- Conversion of an integer to the format. -/
def ofInt (f : Fmt) (i : Int) : Fl := f.round false (i : ℚ)

/-- Conversion of a value to the format (a cast, or a widening). -/
def cast (f : Fmt) : Fl → Fl
  | fin q => f.round false q
  | x => x

/-- Conversion to a signed integer: the fractional part is discarded. NaN and
the infinities give the most negative `long`, as the host's conversion
instruction does. -/
def toLong : Fl → Int
  | fin q => if 0 ≤ q then ⌊q⌋ else -⌊-q⌋
  | nzero => 0
  | _ => -(2 ^ 63)

end Fl

/-! ## Host integers -/

/-- Wrap to a 32-bit `int`. -/
def wrapInt (i : Int) : Int := (i + 2 ^ 31) % 2 ^ 32 - 2 ^ 31

/-- Conversion to `unsigned long` (64 bits). -/
def toULong (i : Int) : Nat := (i % 2 ^ 64).toNat

/-- Left shift of an `unsigned long`. -/
def shlUL (x n : Nat) : Nat := (x <<< n) % 2 ^ 64

/-! ## Streams -/

/-- Read one octet: `fgetc`. `EOF` is `-1`. -/
def fgetc : List Nat → Int × List Nat
  | [] => (-1, [])
  | c :: rest => (((c % 256 : Nat) : Int), rest)

/-- An output stream: the octets accepted so far, the error indicator, and for
each of the coming writes whether it fails. -/
structure Sink where
  out : List Nat
  err : Bool
  fails : List Bool
  deriving DecidableEq

/-- Write one octet: `fputc`. A failed write sets the error indicator and
stores nothing. -/
def fputc (c : Nat) (fp : Sink) : Sink :=
  match fp.fails with
  | true :: rest => { out := fp.out, err := true, fails := rest }
  | false :: rest => { out := fp.out ++ [c % 256], err := fp.err, fails := rest }
  | [] => { out := fp.out ++ [c % 256], err := fp.err, fails := [] }

/-- The error indicator: `ferror`. -/
def ferror (fp : Sink) : Int := if fp.err then 1 else 0

/-! ## `freadieee754` -/

/-- The loop `for (i = 0; i < n; i++) buff[i] = fgetc(fp);` into an
`unsigned char` buffer. -/
def readBuff : Nat → List Nat → List Nat
  | 0, _ => []
  | n + 1, fp => ((fgetc fp).1 % 256).toNat :: readBuff n (fgetc fp).2

/-- One pass of the reversal loop: exchange `buff[i]` and `buff[8 - i - 1]`. -/
def swapStep (buff : List Nat) (i : Nat) : List Nat :=
  let temp := buff.getD i 0
  let buff := buff.set i (buff.getD (8 - i - 1) 0)
  buff.set (8 - i - 1) temp

/-- The loop `for (i = 0; i < 4; i++)` of swaps. -/
def reverseBuff (buff : List Nat) : List Nat :=
  [0, 1, 2, 3].foldl swapStep buff

/-- The mantissa loop of `freadieee754`, `n` passes left; the state is
`fnorm`, `bitval`, `maski`, `mask`. -/
def mantLoop (buff : List Nat) : Nat → Fl → Fl → Nat → Nat → Fl
  | 0, fnorm, _, _, _ => fnorm
  | n + 1, fnorm, bitval, maski, mask =>
    let fnorm := if buff.getD maski 0 &&& mask ≠ 0 then Fl.add binary64 fnorm bitval else fnorm
    let bitval := Fl.div binary64 bitval (Fl.fin 2)
    let mask := mask >>> 1
    if mask = 0 then mantLoop buff n fnorm bitval (maski + 1) 0x80
    else mantLoop buff n fnorm bitval maski mask

/-- The loop `while (fnorm < 1.0) { fnorm *= 2; shift--; }`, which the decoders
run on a subnormal fraction and the encoders run to normalise. -/
def doubleLoop : Nat → Fl → Int → Option (Fl × Int)
  | 0, _, _ => none
  | fuel + 1, fnorm, shift =>
    if Fl.lt fnorm (Fl.fin 1) then
      doubleLoop fuel (Fl.mul binary64 fnorm (Fl.fin 2)) (shift - 1)
    else some (fnorm, shift)

/-- The decoder `freadieee754` on the stream `fp`. `none` only when the fuel of
the subnormal loop runs out. -/
def freadieee754 (fuel : Nat) (fp : List Nat) (bigendian : Bool) : Option Fl :=
  let buff := readBuff 8 fp
  let buff := if !bigendian then reverseBuff buff else buff
  let sign : Int := if buff.getD 0 0 &&& 0x80 ≠ 0 then -1 else 1
  let exponent : Int := (((buff.getD 0 0 &&& 0x7F) <<< 4) ||| ((buff.getD 1 0 &&& 0xF0) >>> 4) : Nat)
  let fnorm := mantLoop buff 52 (Fl.fin 0) (Fl.fin (1 / 2)) 1 0x08
  if exponent = 0 ∧ Fl.eq fnorm (Fl.fin 0) then some (Fl.fin 0)
  else
    let shift : Int := exponent - ((1 <<< (11 - 1)) - 1)
    if shift = 1024 ∧ Fl.ne fnorm (Fl.fin 0) then some Fl.nan
    else if shift = 1024 ∧ Fl.eq fnorm (Fl.fin 0) then
      some (if sign = 1 then Fl.inf false else Fl.inf true)
    else if shift > -1023 then
      let answer := Fl.ldexp binary64 (Fl.add binary64 fnorm (Fl.fin 1)) shift
      some (Fl.mul binary64 answer (Fl.ofInt binary64 sign))
    else
      if Fl.eq fnorm (Fl.fin 0) then some (Fl.fin 0)
      else
        match doubleLoop fuel fnorm (-1022) with
        | none => none
        | some (fnorm, shift) =>
          let answer := Fl.ldexp binary64 fnorm shift
          some (Fl.mul binary64 answer (Fl.ofInt binary64 sign))

/-! ## `freadieee754f` -/

/-- The loop `for (i = 0; i < 4; i++) buff = (buff << 8) | fgetc(fp);`. -/
def readWord : Nat → Nat → List Nat → Nat
  | 0, buff, _ => buff
  | n + 1, buff, fp => readWord n (shlUL buff 8 ||| toULong (fgetc fp).1) (fgetc fp).2

/-- The byte reversal loop of `freadieee754f`; the state is `buff`, `buff2`. -/
def reverseWord : Nat → Nat → Nat → Nat
  | 0, _, buff2 => buff2
  | n + 1, buff, buff2 => reverseWord n (buff >>> 8) (shlUL buff2 8 ||| (buff &&& 0xFF))

/-- The mantissa loop of `freadieee754f`, `n` passes left. -/
def mantLoopf (buff : Nat) : Nat → Fl → Fl → Nat → Fl
  | 0, fnorm, _, _ => fnorm
  | n + 1, fnorm, bitval, mask =>
    let fnorm := if buff &&& mask ≠ 0 then Fl.add binary64 fnorm bitval else fnorm
    mantLoopf buff n fnorm (Fl.div binary64 bitval (Fl.fin 2)) (mask >>> 1)

/-- The decoder `freadieee754f` on the stream `fp`. `none` only when the fuel
of the subnormal loop runs out. -/
def freadieee754f (fuel : Nat) (fp : List Nat) (bigendian : Bool) : Option Fl :=
  let buff := readWord 4 0 fp
  let buff := if !bigendian then reverseWord 4 buff 0 else buff
  let sign : Int := if buff &&& 0x80000000 ≠ 0 then -1 else 1
  let exponent : Int := ((buff &&& 0x7F800000) >>> 23 : Nat)
  let fnorm := mantLoopf buff 23 (Fl.fin 0) (Fl.fin (1 / 2)) 0x00400000
  if exponent = 0 ∧ Fl.eq fnorm (Fl.fin 0) then some (Fl.fin 0)
  else
    let shift : Int := exponent - ((1 <<< (8 - 1)) - 1)
    if shift = 128 ∧ Fl.ne fnorm (Fl.fin 0) then some Fl.nan
    else if shift = 128 ∧ Fl.eq fnorm (Fl.fin 0) then
      some (if sign = 1 then Fl.inf false else Fl.inf true)
    else if shift > -127 then
      let answer := Fl.ldexp binary64 (Fl.add binary64 fnorm (Fl.fin 1)) shift
      some (Fl.mul binary32 (Fl.cast binary32 answer) (Fl.ofInt binary32 sign))
    else
      if Fl.eq fnorm (Fl.fin 0) then some (Fl.fin 0)
      else
        match doubleLoop fuel fnorm (-126) with
        | none => none
        | some (fnorm, shift) =>
          let answer := Fl.ldexp binary64 fnorm shift
          some (Fl.mul binary32 (Fl.cast binary32 answer) (Fl.ofInt binary32 sign))

/-! ## `fwriteieee754` -/

/-- The largest finite `double`. -/
def DBL_MAX : ℚ := 2 ^ 1024 - 2 ^ 971

/-- The largest finite `float`. -/
def FLT_MAX : ℚ := 2 ^ 128 - 2 ^ 104

/-- The loop `while (fnorm >= 2.0) { fnorm /= 2.0; shift++; }`. -/
def halveLoop : Nat → Fl → Int → Option (Fl × Int)
  | 0, _, _ => none
  | fuel + 1, fnorm, shift =>
    if Fl.ge fnorm (Fl.fin 2) then
      halveLoop fuel (Fl.div binary64 fnorm (Fl.fin 2)) (shift + 1)
    else some (fnorm, shift)

/-- The loop `while (shift < limit) { fnorm /= 2.0; shift++; }` of the
subnormal branch. -/
def raiseLoop (limit : Int) : Nat → Fl → Int → Option (Fl × Int)
  | 0, _, _ => none
  | fuel + 1, fnorm, shift =>
    if shift < limit then
      raiseLoop limit fuel (Fl.div binary64 fnorm (Fl.fin 2)) (shift + 1)
    else some (fnorm, shift)

/-- The constant `(1LL << significandbits) + 0.5f`: a `float` sum, widened to
`double` where it is used. -/
def scale (significandbits : Nat) : Fl :=
  Fl.cast binary64 (Fl.add binary32 (Fl.ofInt binary32 (1 <<< significandbits)) (Fl.fin (1 / 2)))

/-- The tail of the general case of `fwriteieee754`, from the computation of
`significand` to the label `writedata`: it packs `sign`, `shift` and the
fraction `fnorm` into `hilong` and `lowlong`. -/
def finish64 (sign : Nat) (fnorm : Fl) (shift : Int) : Nat × Nat :=
  let significand := Fl.mul binary64 fnorm (scale 52)
  let exp : Nat := toULong (shift + ((1 <<< (11 - 1)) - 1))
  let hibits : Nat :=
    toULong (Fl.toLong (Fl.div binary64 significand (Fl.ofInt binary64 4294967296)))
  let hilong : Nat := shlUL sign 31 ||| shlUL exp (31 - 11) ||| hibits
  let lowlong : Nat := toULong (Fl.toLong (Fl.sub binary64 significand
    (Fl.ofInt binary64 ((hibits * 4294967296 % 2 ^ 64 : Nat) : Int))))
  (hilong, lowlong)

/-- The part of `fwriteieee754` before the label `writedata`: the two words
`hilong` and `lowlong`. `none` only when the fuel of a loop runs out. -/
def pack64 (fuel : Nat) (x : Fl) : Option (Nat × Nat) :=
  if Fl.eq x (Fl.fin 0) then some (0, 0)
  else if Fl.gt x (Fl.fin DBL_MAX) then
    some (shlUL (toULong (1024 + ((1 <<< (11 - 1)) - 1))) (31 - 11), 0)
  else if Fl.lt x (Fl.fin (-DBL_MAX)) then
    some (shlUL (toULong (1024 + ((1 <<< (11 - 1)) - 1))) (31 - 11)
      ||| toULong (wrapInt (1 <<< 31)), 0)
  else if Fl.ne x x then
    some (shlUL (toULong (1024 + ((1 <<< (11 - 1)) - 1))) (31 - 11), 1234)
  else
    let sign : Nat := if Fl.lt x (Fl.fin 0) then 1 else 0
    let fnorm : Fl := if Fl.lt x (Fl.fin 0) then Fl.neg x else x
    match halveLoop fuel fnorm 0 with
    | none => none
    | some (fnorm, shift) =>
    match doubleLoop fuel fnorm shift with
    | none => none
    | some (fnorm, shift) =>
    if shift < -1022 then
      match raiseLoop (-1022) fuel fnorm shift with
      | none => none
      | some (fnorm, _) => some (finish64 sign fnorm (-1023))
    else if shift > 1023 then
      some (shlUL (toULong (1024 + ((1 <<< (11 - 1)) - 1))) (31 - 11) ||| shlUL sign 31, 0)
    else some (finish64 sign (Fl.sub binary64 fnorm (Fl.fin 1)) shift)

/-- The part of `fwriteieee754` after the label `writedata`. -/
def writedata64 (hilong lowlong : Nat) (fp : Sink) (bigendian : Bool) : Int × Sink :=
  if bigendian then
    let fp := fputc ((hilong >>> 24) &&& 0xFF) fp
    let fp := fputc ((hilong >>> 16) &&& 0xFF) fp
    let fp := fputc ((hilong >>> 8) &&& 0xFF) fp
    let fp := fputc (hilong &&& 0xFF) fp
    let fp := fputc ((lowlong >>> 24) &&& 0xFF) fp
    let fp := fputc ((lowlong >>> 16) &&& 0xFF) fp
    let fp := fputc ((lowlong >>> 8) &&& 0xFF) fp
    let fp := fputc (lowlong &&& 0xFF) fp
    (ferror fp, fp)
  else
    let fp := fputc (lowlong &&& 0xFF) fp
    let fp := fputc ((lowlong >>> 8) &&& 0xFF) fp
    let fp := fputc ((lowlong >>> 16) &&& 0xFF) fp
    let fp := fputc ((lowlong >>> 24) &&& 0xFF) fp
    let fp := fputc (hilong &&& 0xFF) fp
    let fp := fputc ((hilong >>> 8) &&& 0xFF) fp
    let fp := fputc ((hilong >>> 16) &&& 0xFF) fp
    let fp := fputc ((hilong >>> 24) &&& 0xFF) fp
    (ferror fp, fp)

/-- The encoder `fwriteieee754`: the status returned and the sink after the
call. `none` only when the fuel of a loop runs out. -/
def fwriteieee754 (fuel : Nat) (x : Fl) (fp : Sink) (bigendian : Bool) : Option (Int × Sink) :=
  match pack64 fuel x with
  | none => none
  | some (hilong, lowlong) => some (writedata64 hilong lowlong fp bigendian)

/-! ## `fwriteieee754f` -/

/-- The tail of the general case of `fwriteieee754f`, from the computation of
`significand` to the label `writedata`. -/
def finish32 (sign : Nat) (fnorm : Fl) (shift : Int) : Nat :=
  let significand := Fl.mul binary64 fnorm (scale 23)
  let exp : Nat := toULong (shift + ((1 <<< (8 - 1)) - 1))
  let hibits : Nat := toULong (Fl.toLong significand)
  shlUL sign 31 ||| shlUL exp (31 - 8) ||| hibits

/-- The part of `fwriteieee754f` before the label `writedata`: the word `buff`.
`none` only when the fuel of a loop runs out. -/
def pack32 (fuel : Nat) (x : Fl) : Option Nat :=
  if Fl.eq x (Fl.fin 0) then some 0
  else if Fl.gt x (Fl.fin FLT_MAX) then
    some (shlUL (toULong (128 + ((1 <<< (8 - 1)) - 1))) (31 - 8))
  else if Fl.lt x (Fl.fin (-FLT_MAX)) then
    some (shlUL (toULong (128 + ((1 <<< (8 - 1)) - 1))) (31 - 8) ||| toULong (wrapInt (1 <<< 31)))
  else if Fl.ne x x then
    some (shlUL (toULong (128 + ((1 <<< (8 - 1)) - 1))) (31 - 8) ||| 1234)
  else
    let sign : Nat := if Fl.lt x (Fl.fin 0) then 1 else 0
    let fnorm : Fl := Fl.cast binary64 (if Fl.lt x (Fl.fin 0) then Fl.neg x else x)
    match halveLoop fuel fnorm 0 with
    | none => none
    | some (fnorm, shift) =>
    match doubleLoop fuel fnorm shift with
    | none => none
    | some (fnorm, shift) =>
    if shift < -126 then
      match raiseLoop (-126) fuel fnorm shift with
      | none => none
      | some (fnorm, _) => some (finish32 sign fnorm (-1023))
    else if shift > 128 then
      some (shlUL (toULong (128 + ((1 <<< (8 - 1)) - 1))) (31 - 8) ||| shlUL sign 31)
    else some (finish32 sign (Fl.sub binary64 fnorm (Fl.fin 1)) shift)

/-- The part of `fwriteieee754f` after the label `writedata`. -/
def writedata32 (buff : Nat) (fp : Sink) (bigendian : Bool) : Int × Sink :=
  if bigendian then
    let fp := fputc ((buff >>> 24) &&& 0xFF) fp
    let fp := fputc ((buff >>> 16) &&& 0xFF) fp
    let fp := fputc ((buff >>> 8) &&& 0xFF) fp
    let fp := fputc (buff &&& 0xFF) fp
    (ferror fp, fp)
  else
    let fp := fputc (buff &&& 0xFF) fp
    let fp := fputc ((buff >>> 8) &&& 0xFF) fp
    let fp := fputc ((buff >>> 16) &&& 0xFF) fp
    let fp := fputc ((buff >>> 24) &&& 0xFF) fp
    (ferror fp, fp)

/-- The encoder `fwriteieee754f`: the status returned and the sink after the
call. `none` only when the fuel of a loop runs out. -/
def fwriteieee754f (fuel : Nat) (x : Fl) (fp : Sink) (bigendian : Bool) : Option (Int × Sink) :=
  match pack32 fuel x with
  | none => none
  | some buff => some (writedata32 buff fp bigendian)

/-- A sink that has accepted nothing, has no error and never fails. -/
def emptySink : Sink := { out := [], err := false, fails := [] }

/-! ## `binaryio.c` -/

/-- The result of an `int` operation on a host whose `int` has `w` bits, two's
complement: the exact result when it is a value of the type; signed overflow is
undefined (`none`). -/
def intOp (w : Nat) (x : Int) : Option Int :=
  if -(2 ^ (w - 1)) ≤ x ∧ x < 2 ^ (w - 1) then some x else none

/-- The reader `fget16be`: `return ((c2 ^ 128) - 128) * 256 + c1;` evaluated in
`int`. -/
def fget16be (w : Nat) (fp : List Nat) : Option Int :=
  let c2 := (fgetc fp).1
  let fp := (fgetc fp).2
  let c1 := (fgetc fp).1
  (intOp w (Int.xor c2 128)).bind fun t =>
  (intOp w (t - 128)).bind fun t =>
  (intOp w (t * 256)).bind fun t =>
  intOp w (t + c1)

/-- The reader `fget16le`: the low octet is read first. -/
def fget16le (w : Nat) (fp : List Nat) : Option Int :=
  let c1 := (fgetc fp).1
  let fp := (fgetc fp).2
  let c2 := (fgetc fp).1
  (intOp w (Int.xor c2 128)).bind fun t =>
  (intOp w (t - 128)).bind fun t =>
  (intOp w (t * 256)).bind fun t =>
  intOp w (t + c1)

/-- The expression
`((c4 ^ 128) - 128) * 256 * 256 * 256 + c3 * 256 * 256 + c2 * 256 + c1` of the
32-bit readers, evaluated in `int`; the result is widened to `long`. -/
def assemble32 (w : Nat) (c4 c3 c2 c1 : Int) : Option Int :=
  (intOp w (Int.xor c4 128)).bind fun t =>
  (intOp w (t - 128)).bind fun t =>
  (intOp w (t * 256)).bind fun t =>
  (intOp w (t * 256)).bind fun t =>
  (intOp w (t * 256)).bind fun a =>
  (intOp w (c3 * 256)).bind fun t =>
  (intOp w (t * 256)).bind fun b =>
  (intOp w (a + b)).bind fun s =>
  (intOp w (c2 * 256)).bind fun c =>
  (intOp w (s + c)).bind fun s =>
  intOp w (s + c1)

/-- The reader `fget32be`. -/
def fget32be (w : Nat) (fp : List Nat) : Option Int :=
  let c4 := (fgetc fp).1
  let fp := (fgetc fp).2
  let c3 := (fgetc fp).1
  let fp := (fgetc fp).2
  let c2 := (fgetc fp).1
  let fp := (fgetc fp).2
  let c1 := (fgetc fp).1
  assemble32 w c4 c3 c2 c1

/-- The reader `fget32le`. -/
def fget32le (w : Nat) (fp : List Nat) : Option Int :=
  let c1 := (fgetc fp).1
  let fp := (fgetc fp).2
  let c2 := (fgetc fp).1
  let fp := (fgetc fp).2
  let c3 := (fgetc fp).1
  let fp := (fgetc fp).2
  let c4 := (fgetc fp).1
  assemble32 w c4 c3 c2 c1

/-! ## Values and layouts used in the statements -/

/-- The values a format holds exactly: `n * 2^c` with `|n| < 2^prec` and `c`
in the range of the format. -/
def Fmt.Rep (f : Fmt) (q : ℚ) : Prop :=
  ∃ (n : ℕ) (c : ℤ), n < 2 ^ f.prec ∧ f.emin - ((f.prec : ℤ) - 1) ≤ c ∧
    c ≤ f.emax - ((f.prec : ℤ) - 1) ∧ |q| = (n : ℚ) * (2 : ℚ) ^ c

/-- The 8 octets of a 64-bit word, most significant first. -/
def be64 (w : Nat) : List Nat :=
  [w / 2 ^ 56 % 256, w / 2 ^ 48 % 256, w / 2 ^ 40 % 256, w / 2 ^ 32 % 256,
   w / 2 ^ 24 % 256, w / 2 ^ 16 % 256, w / 2 ^ 8 % 256, w % 256]

/-- The 64-bit word with sign bit `s`, exponent field `e` and significand
field `m`. -/
def word64 (s e m : Nat) : Nat := s * 2 ^ 63 + e * 2 ^ 52 + m

/-- The 4 octets of a 32-bit word, most significant first. -/
def be32 (w : Nat) : List Nat :=
  [w / 2 ^ 24 % 256, w / 2 ^ 16 % 256, w / 2 ^ 8 % 256, w % 256]

/-- The 32-bit word with sign bit `s`, exponent field `e` and significand
field `m`. -/
def word32 (s e m : Nat) : Nat := s * 2 ^ 31 + e * 2 ^ 23 + m

/-- The IEEE-754 binary64 value with sign bit `s`, exponent field `e` (not
all-ones) and significand field `m`. -/
def value64 (s e m : Nat) : ℚ :=
  (-1) ^ s * (if e = 0 then (m : ℚ) * (2 : ℚ) ^ (-1074 : ℤ)
    else (1 + (m : ℚ) / 2 ^ 52) * (2 : ℚ) ^ ((e : ℤ) - 1023))

/-- The IEEE-754 binary32 value with sign bit `s`, exponent field `e` (not
all-ones) and significand field `m`. -/
def value32 (s e m : Nat) : ℚ :=
  (-1) ^ s * (if e = 0 then (m : ℚ) * (2 : ℚ) ^ (-149 : ℤ)
    else (1 + (m : ℚ) / 2 ^ 23) * (2 : ℚ) ^ ((e : ℤ) - 127))

/-- The two's-complement value of the `n`-bit word `u`. -/
def twosComp (n : Nat) (u : Int) : Int := if u < 2 ^ (n - 1) then u else u - 2 ^ n

/-- The values of a host `double`: NaN, the infinities, the two zeros and the
finite binary64 values. -/
def IsDouble (x : Fl) : Prop :=
  x = Fl.nan ∨ x = Fl.inf false ∨ x = Fl.inf true ∨ x = Fl.nzero ∨
    ∃ s e m : ℕ, s < 2 ∧ e ≤ 2046 ∧ m < 2 ^ 52 ∧ x = Fl.fin (value64 s e m)

/-- The values of a host `float`: NaN, the infinities, the two zeros and the
finite binary32 values. -/
def IsFloat (x : Fl) : Prop :=
  x = Fl.nan ∨ x = Fl.inf false ∨ x = Fl.inf true ∨ x = Fl.nzero ∨
    ∃ s e m : ℕ, s < 2 ∧ e ≤ 254 ∧ m < 2 ^ 23 ∧ x = Fl.fin (value32 s e m)

theorem log2Fuel_eq : ∀ (fuel n : ℕ), n ≤ fuel → log2Fuel fuel n = Nat.log2 n := by
  intro fuel
  induction fuel with
  | zero =>
    intro n hn
    have : n = 0 := by omega
    subst this
    rw [log2Fuel, Nat.log2]
    simp
  | succ fuel ih =>
    intro n hn
    rw [log2Fuel, Nat.log2]
    by_cases h : 2 ≤ n
    · simp only [h, if_true, ge_iff_le]
      rw [ih (n / 2) (by omega)]
    · simp only [h, if_false, ge_iff_le]

theorem log2_eq (n : ℕ) : log2 n = Nat.log2 n := log2Fuel_eq n n le_rfl

theorem two_zpow_ilog2_le {a : ℚ} (ha : 0 < a) : (2 : ℚ) ^ ilog2 a ≤ a := by
  unfold ilog2
  simp only [log2_eq]
  split_ifs with h
  · exact h
  · have hnum : 0 < a.num := Rat.num_pos.mpr ha
    have hn0 : a.num.natAbs ≠ 0 := by omega
    have h1 : 2 ^ Nat.log2 a.num.natAbs ≤ a.num.natAbs := Nat.log2_self_le hn0
    have h2 : a.den < 2 ^ (Nat.log2 a.den + 1) := Nat.lt_log2_self
    have h1q : (2 : ℚ) ^ (Nat.log2 a.num.natAbs : ℤ) ≤ (a.num.natAbs : ℚ) := by
      rw [zpow_natCast]; exact_mod_cast h1
    have h2q : (a.den : ℚ) ≤ (2 : ℚ) ^ ((Nat.log2 a.den : ℤ) + 1) := by
      have : (a.den : ℚ) ≤ ((2 ^ (Nat.log2 a.den + 1) : ℕ) : ℚ) := by exact_mod_cast h2.le
      rw [show ((Nat.log2 a.den : ℤ) + 1) = ((Nat.log2 a.den + 1 : ℕ) : ℤ) by push_cast; ring,
        zpow_natCast]
      exact_mod_cast this
    have hden : (0 : ℚ) < a.den := by exact_mod_cast a.den_pos
    have hnat : (a.num.natAbs : ℚ) = a.num := by
      rw [← Int.cast_natCast, Int.natAbs_of_nonneg hnum.le]
    have ha' : a = (a.num.natAbs : ℚ) / a.den := by
      rw [hnat]; exact (Rat.num_div_den a).symm
    have key : (2 : ℚ) ^ ((Nat.log2 a.num.natAbs : ℤ) - (Nat.log2 a.den : ℤ) - 1)
        = (2 : ℚ) ^ (Nat.log2 a.num.natAbs : ℤ) / (2 : ℚ) ^ ((Nat.log2 a.den : ℤ) + 1) := by
      rw [← zpow_sub₀ (by norm_num : (2 : ℚ) ≠ 0)]; congr 1; ring
    rw [key]
    conv_rhs => rw [ha']
    exact div_le_div₀ (by positivity) h1q hden h2q

theorem roundHalfEven_intCast (z : ℤ) : roundHalfEven (z : ℚ) = z := by
  unfold roundHalfEven
  simp

theorem round_of_rep (f : Fmt) (b : Bool) {q : ℚ} (h : f.Rep q) (hq : q ≠ 0) :
    f.round b q = Fl.fin q := by
  obtain ⟨n, c, hn, hc1, hc2, hqa⟩ := h
  have h2 : (1 : ℚ) < 2 := by norm_num
  have h20 : (2 : ℚ) ≠ 0 := by norm_num
  have ha : 0 < |q| := abs_pos.mpr hq
  have hL := two_zpow_ilog2_le ha
  have hnq : (n : ℚ) < (2 : ℚ) ^ (f.prec : ℤ) := by
    rw [zpow_natCast]; exact_mod_cast hn
  have hlt : |q| < (2 : ℚ) ^ ((f.prec : ℤ) + c) := by
    rw [hqa, zpow_add₀ h20]
    exact mul_lt_mul_of_pos_right hnq (zpow_pos (by norm_num) c)
  have hLlt : ilog2 |q| < (f.prec : ℤ) + c :=
    (zpow_lt_zpow_iff_right₀ h2).mp (lt_of_le_of_lt hL hlt)
  have he : max (ilog2 |q|) f.emin - ((f.prec : ℤ) - 1) ≤ c := by
    rcases max_cases (ilog2 |q|) f.emin with ⟨h1, _⟩ | ⟨h1, _⟩ <;> rw [h1] <;> omega
  have hr : ((roundHalfEven (|q| / (2 : ℚ) ^ (max (ilog2 |q|) f.emin - ((f.prec : ℤ) - 1))) : ℤ) : ℚ)
      * (2 : ℚ) ^ (max (ilog2 |q|) f.emin - ((f.prec : ℤ) - 1)) = |q| := by
    generalize max (ilog2 |q|) f.emin - ((f.prec : ℤ) - 1) = E at he
    obtain ⟨d, hd⟩ := Int.eq_ofNat_of_zero_le (sub_nonneg.mpr he)
    have hc : c = E + d := by omega
    have hE : (0 : ℚ) < (2 : ℚ) ^ E := zpow_pos (by norm_num) E
    have hdiv : |q| / (2 : ℚ) ^ E = (((n * 2 ^ d : ℕ) : ℤ) : ℚ) := by
      rw [hqa, hc, zpow_add₀ h20, zpow_natCast]
      field_simp
      ring
    rw [hdiv, roundHalfEven_intCast, ← hdiv]
    field_simp
  have hover : ¬ (2 : ℚ) ^ (f.emax + 1) ≤ |q| := by
    rw [not_le]
    refine lt_of_lt_of_le hlt ?_
    exact zpow_le_zpow_right₀ h2.le (by omega)
  unfold Fmt.round
  simp only [hq, if_false, hr, hover, ha.ne']
  congr 1
  split_ifs with hneg
  · rw [abs_of_neg hneg]; ring
  · rw [abs_of_nonneg (not_lt.mp hneg)]

set_option maxRecDepth 100000 in
theorem byte_and_pow_aux : ∀ k < 8, ∀ x < 256, ((x &&& 2 ^ k ≠ 0) ↔ x / 2 ^ k % 2 = 1) := by
  decide

theorem byte_and_pow (x k : Nat) (hx : x < 256) (hk : k < 8) :
    (x &&& 2 ^ k ≠ 0) ↔ x / 2 ^ k % 2 = 1 :=
  byte_and_pow_aux k hk x hx

theorem be64_getD (w j : Nat) (hj : j < 8) :
    (be64 w).getD (7 - j) 0 = w / 2 ^ (8 * j) % 256 := by
  interval_cases j <;> simp [be64]

theorem be64_bit (w n : Nat) (hn : n < 64) :
    ((be64 w).getD (7 - n / 8) 0 &&& 2 ^ (n % 8) ≠ 0) ↔ w / 2 ^ n % 2 = 1 := by
  rw [be64_getD w (n / 8) (by omega),
    byte_and_pow _ _ (Nat.mod_lt _ (by norm_num)) (Nat.mod_lt _ (by norm_num))]
  have h1 : w / 2 ^ (8 * (n / 8)) % 256 / 2 ^ (n % 8) % 2 = w / 2 ^ n % 2 := by
    have e : w / 2 ^ n = w / 2 ^ (8 * (n / 8)) / 2 ^ (n % 8) := by
      rw [Nat.div_div_eq_div_mul, ← pow_add, Nat.div_add_mod]
    rw [e]
    generalize w / 2 ^ (8 * (n / 8)) = y
    have hk : n % 8 < 8 := Nat.mod_lt _ (by norm_num)
    generalize n % 8 = k at hk
    interval_cases k <;> omega
  rw [h1]

theorem rep64 (n : ℕ) (c : ℤ) (hn : n < 2 ^ 53) (h1 : -1074 ≤ c) (h2 : c ≤ 971) (q : ℚ)
    (hq : |q| = (n : ℚ) * (2 : ℚ) ^ c) : binary64.Rep q :=
  ⟨n, c, hn, by simp only [binary64]; omega, by simp only [binary64]; omega, hq⟩

theorem rep32 (n : ℕ) (c : ℤ) (hn : n < 2 ^ 24) (h1 : -149 ≤ c) (h2 : c ≤ 104) (q : ℚ)
    (hq : |q| = (n : ℚ) * (2 : ℚ) ^ c) : binary32.Rep q :=
  ⟨n, c, hn, by simp only [binary32]; omega, by simp only [binary32]; omega, hq⟩

theorem round_rep (f : Fmt) (b : Bool) {q : ℚ} (h : f.Rep q) (hb : q = 0 → b = false) :
    f.round b q = Fl.fin q := by
  by_cases hq : q = 0
  · subst hq
    simp [Fmt.round, hb rfl]
  · exact round_of_rep f b h hq

theorem add_fin (f : Fmt) (p q : ℚ) :
    Fl.add f (Fl.fin p) (Fl.fin q) = f.round (decide (p < 0) && decide (q < 0)) (p + q) := rfl

theorem div_fin_two (f : Fmt) (p : ℚ) :
    Fl.div f (Fl.fin p) (Fl.fin 2) = f.round (decide (p < 0)) (p / 2) := by
  have h : ¬ ((2 : ℚ) < 0) := by norm_num
  simp [Fl.div, Fl.isZero, Fl.isNeg, Fl.val, h]

theorem mul_fin (f : Fmt) (p q : ℚ) :
    Fl.mul f (Fl.fin p) (Fl.fin q) = f.round (xor (decide (p < 0)) (decide (q < 0))) (p * q) := rfl

/-- The mantissa loop adds up the 52 low bits of the word: with `n` passes
left it has seen the bits above bit `n`. -/
theorem mantLoop_spec (w : Nat) : ∀ (n : Nat), n ≤ 52 → ∀ (maski mask : Nat),
    (0 < n → maski = 7 - (n - 1) / 8 ∧ mask = 2 ^ ((n - 1) % 8)) →
    mantLoop (be64 w) n (Fl.fin (((w % 2 ^ 52 / 2 ^ n : ℕ) : ℚ) / 2 ^ (52 - n)))
      (Fl.fin (1 / 2 ^ (52 - n + 1))) maski mask
      = Fl.fin (((w % 2 ^ 52 : ℕ) : ℚ) / 2 ^ 52) := by
  intro n
  induction n with
  | zero => intro _ maski mask _; simp [mantLoop]
  | succ n ih =>
    intro hn maski mask hm
    have hm' := hm (Nat.succ_pos n)
    rw [Nat.add_sub_cancel] at hm'
    obtain ⟨hmi, hmk⟩ := hm'
    subst hmi hmk
    clear hm
    have hbit := be64_bit w n (by omega)
    have hlow : w / 2 ^ n % 2 = w % 2 ^ 52 / 2 ^ n % 2 := by
      have := Nat.testBit_mod_two_pow w 52 n
      rw [Nat.testBit_to_div_mod, Nat.testBit_to_div_mod] at this
      simp only [show n < 52 by omega, decide_True, Bool.true_and, decide_eq_decide] at this
      have h1 := Nat.mod_two_eq_zero_or_one (w / 2 ^ n)
      have h2 := Nat.mod_two_eq_zero_or_one (w % 2 ^ 52 / 2 ^ n)
      omega
    have hhi : w % 2 ^ 52 / 2 ^ n = 2 * (w % 2 ^ 52 / 2 ^ (n + 1)) + w % 2 ^ 52 / 2 ^ n % 2 := by
      have e : 2 ^ (n + 1) = 2 ^ n * 2 := pow_succ 2 n
      rw [e, ← Nat.div_div_eq_div_mul]; omega
    have hlt : w % 2 ^ 52 / 2 ^ n < 2 ^ (52 - n) := by
      rw [Nat.div_lt_iff_lt_mul (by positivity), ← pow_add]
      rw [show 52 - n + n = 52 by omega]
      exact Nat.mod_lt _ (by positivity)
    have hexp : 52 - n = (52 - (n + 1)) + 1 := by omega
    -- the new value of `fnorm`
    have hf : (if (be64 w).getD (7 - n / 8) 0 &&& 2 ^ (n % 8) ≠ 0 then
          Fl.add binary64 (Fl.fin (((w % 2 ^ 52 / 2 ^ (n + 1) : ℕ) : ℚ) / 2 ^ (52 - (n + 1))))
            (Fl.fin (1 / 2 ^ (52 - (n + 1) + 1)))
        else Fl.fin (((w % 2 ^ 52 / 2 ^ (n + 1) : ℕ) : ℚ) / 2 ^ (52 - (n + 1))))
        = Fl.fin (((w % 2 ^ 52 / 2 ^ n : ℕ) : ℚ) / 2 ^ (52 - n)) := by
      have hval : ∀ b : ℕ, w % 2 ^ 52 / 2 ^ n % 2 = b →
          ((w % 2 ^ 52 / 2 ^ (n + 1) : ℕ) : ℚ) / 2 ^ (52 - (n + 1)) + (b : ℚ) / 2 ^ (52 - (n + 1) + 1)
          = ((w % 2 ^ 52 / 2 ^ n : ℕ) : ℚ) / 2 ^ (52 - n) := by
        intro b hb
        rw [hb] at hhi
        conv_rhs => rw [hhi, hexp]
        push_cast
        field_simp
        ring
      split_ifs with hb
      · rw [hbit, hlow] at hb
        have hv := hval 1 hb
        rw [Nat.cast_one] at hv
        rw [add_fin, hv]
        apply round_rep
        · apply rep64 (w % 2 ^ 52 / 2 ^ n) (-((52 - n : ℕ) : ℤ)) (by
            have : 2 ^ (52 - n) ≤ 2 ^ 53 := Nat.pow_le_pow_right (by norm_num) (by omega)
            omega) (by omega) (by omega)
          rw [abs_of_nonneg (by positivity), zpow_neg, zpow_natCast]
          rfl
        · intro h0
          exfalso
          have hpos : 0 < w % 2 ^ 52 / 2 ^ n := by omega
          have : (0 : ℚ) < ((w % 2 ^ 52 / 2 ^ n : ℕ) : ℚ) / 2 ^ (52 - n) := by positivity
          linarith
      · rw [hbit, hlow] at hb
        have hb0 : w % 2 ^ 52 / 2 ^ n % 2 = 0 := by
          have := Nat.mod_two_eq_zero_or_one (w % 2 ^ 52 / 2 ^ n)
          omega
        have hv := hval 0 hb0
        simp only [Nat.cast_zero, zero_div, add_zero] at hv
        rw [hv]
    -- the new value of `bitval`
    have hbv : Fl.div binary64 (Fl.fin (1 / 2 ^ (52 - (n + 1) + 1))) (Fl.fin 2)
        = Fl.fin (1 / 2 ^ (52 - n + 1)) := by
      rw [div_fin_two]
      have e : (1 : ℚ) / 2 ^ (52 - (n + 1) + 1) / 2 = 1 / 2 ^ (52 - n + 1) := by
        rw [← hexp]; field_simp; ring
      rw [e]
      apply round_rep
      · apply rep64 1 (-((52 - n + 1 : ℕ) : ℤ)) (by norm_num) (by omega) (by omega)
        rw [abs_of_nonneg (by positivity), zpow_neg, zpow_natCast]
        simp
      · intro h0
        exfalso
        have : (0 : ℚ) < 1 / 2 ^ (52 - n + 1) := by positivity
        linarith
    rw [mantLoop]
    simp only [hf, hbv]
    have hk : n % 8 < 8 := Nat.mod_lt _ (by norm_num)
    split_ifs with hz
    · apply ih (by omega)
      intro hpos
      have h8 : n % 8 = 0 := by
        by_contra hne
        generalize n % 8 = k at hz hne hk
        interval_cases k
        · exact hne rfl
        all_goals exact absurd hz (by decide)
      have h7 : (n - 1) % 8 = 7 := by omega
      rw [h7]
      constructor
      · omega
      · norm_num
    · apply ih (by omega)
      intro hpos
      have h8 : n % 8 ≠ 0 := by
        intro h0
        rw [h0] at hz
        exact hz (by decide)
      constructor
      · omega
      · rw [Nat.shiftRight_eq_div_pow, pow_one]
        have e : n % 8 = (n - 1) % 8 + 1 := by omega
        rw [e, pow_succ]
        omega

theorem round64_dyadic (b : Bool) (n : ℕ) (c : ℤ) (hn : n < 2 ^ 53) (h1 : -1074 ≤ c)
    (h2 : c ≤ 971) (hb : n = 0 → b = false) :
    binary64.round b ((n : ℚ) * (2 : ℚ) ^ c) = Fl.fin ((n : ℚ) * (2 : ℚ) ^ c) := by
  apply round_rep
  · exact rep64 n c hn h1 h2 _ (abs_of_nonneg (by positivity))
  · intro h0
    apply hb
    have h2 : (2 : ℚ) ^ c ≠ 0 := zpow_ne_zero c (by norm_num)
    rcases mul_eq_zero.mp h0 with h | h
    · exact_mod_cast h
    · exact absurd h h2

theorem eq_fin (p q : ℚ) : Fl.eq (Fl.fin p) (Fl.fin q) = decide (p = q) := rfl

theorem lt_fin (p q : ℚ) : Fl.lt (Fl.fin p) (Fl.fin q) = decide (p < q) := rfl

theorem ge_fin (p q : ℚ) : Fl.ge (Fl.fin p) (Fl.fin q) = decide (q ≤ p) := rfl

theorem ldexp_fin (f : Fmt) (p : ℚ) (n : ℤ) :
    Fl.ldexp f (Fl.fin p) n = f.round false (p * (2 : ℚ) ^ n) := rfl

/-- The doubling loop on `n * 2^(-(L+k))`, where `n` has `L+1` bits, stops
after `k` passes at `n * 2^(-L)`, which lies in `[1, 2)`. -/
theorem doubleLoop_spec (n L : ℕ) (hL1 : 2 ^ L ≤ n) (hL2 : n < 2 ^ (L + 1)) (hL : L ≤ 52) :
    ∀ (k : ℕ), L + k ≤ 1074 → ∀ (fuel : ℕ) (sh : ℤ), k < fuel →
    doubleLoop fuel (Fl.fin ((n : ℚ) * (2 : ℚ) ^ (-((L + k : ℕ) : ℤ)))) sh
      = some (Fl.fin ((n : ℚ) * (2 : ℚ) ^ (-(L : ℤ))), sh - k) := by
  have hn53 : n < 2 ^ 53 :=
    lt_of_lt_of_le hL2 (Nat.pow_le_pow_right (by norm_num) (by omega))
  have h1q : (2 : ℚ) ^ (L : ℤ) ≤ (n : ℚ) := by
    rw [zpow_natCast]; exact_mod_cast hL1
  have h2q : (n : ℚ) < (2 : ℚ) ^ ((L : ℤ) + 1) := by
    rw [show ((L : ℤ) + 1) = ((L + 1 : ℕ) : ℤ) by push_cast; ring, zpow_natCast]
    exact_mod_cast hL2
  intro k
  induction k with
  | zero =>
    intro _ fuel sh hf
    obtain ⟨fuel, rfl⟩ : ∃ f', fuel = f' + 1 := ⟨fuel - 1, by omega⟩
    have hge : ¬ ((n : ℚ) * (2 : ℚ) ^ (-(L : ℤ)) < 1) := by
      rw [not_lt, zpow_neg, ← div_eq_mul_inv, le_div_iff₀ (by positivity), one_mul]
      exact h1q
    simp only [Nat.add_zero, Nat.cast_zero, sub_zero, doubleLoop, lt_fin, hge, decide_False,
      Bool.false_eq_true, if_false]
  | succ k ih =>
    intro hk fuel sh hf
    obtain ⟨fuel, rfl⟩ : ∃ f', fuel = f' + 1 := ⟨fuel - 1, by omega⟩
    have hlt : (n : ℚ) * (2 : ℚ) ^ (-((L + (k + 1) : ℕ) : ℤ)) < 1 := by
      rw [zpow_neg, ← div_eq_mul_inv, div_lt_iff₀ (by positivity), one_mul]
      refine lt_of_lt_of_le h2q ?_
      exact zpow_le_zpow_right₀ (by norm_num) (by push_cast; omega)
    have hmul : (n : ℚ) * (2 : ℚ) ^ (-((L + (k + 1) : ℕ) : ℤ)) * 2
        = (n : ℚ) * (2 : ℚ) ^ (-((L + k : ℕ) : ℤ)) := by
      rw [show (-((L + k : ℕ) : ℤ)) = (-((L + (k + 1) : ℕ) : ℤ)) + 1 by push_cast; ring,
        zpow_add₀ (by norm_num : (2 : ℚ) ≠ 0), zpow_one]
      ring
    rw [doubleLoop, lt_fin]
    simp only [hlt, decide_True, if_true]
    rw [mul_fin, hmul, round64_dyadic _ n _ hn53 (by push_cast; omega) (by push_cast; omega)
      (by intro h0; subst h0; have := Nat.one_le_two_pow (n := L); omega)]
    rw [ih (by omega) fuel (sh - 1) (by omega)]
    congr 2
    push_cast
    ring

theorem readBuff_be64 (w : Nat) (rest : List Nat) : readBuff 8 (be64 w ++ rest) = be64 w := by
  simp only [be64, readBuff, fgetc, List.cons_append, List.nil_append]
  have h : ∀ x : ℕ, (((x % 256 % 256 : ℕ) : ℤ) % 256).toNat = x % 256 := by
    intro x; omega
  simp only [h]

set_option maxRecDepth 100000 in
theorem byte_and_7F_shl : ∀ x < 256, (x &&& 0x7F) <<< 4 = (x % 128) * 16 := by decide

set_option maxRecDepth 100000 in
theorem byte_and_F0_shr : ∀ x < 256, (x &&& 0xF0) >>> 4 = x / 16 := by decide

set_option maxRecDepth 100000 in
theorem byte_and_80 : ∀ x < 256, (x &&& 0x80 ≠ 0 ↔ 128 ≤ x) := by decide

theorem exponent_bytes (b0 b1 : Nat) (h0 : b0 < 256) (h1 : b1 < 256) :
    ((b0 &&& 0x7F) <<< 4) ||| ((b1 &&& 0xF0) >>> 4) = (b0 % 128) * 16 + b1 / 16 := by
  rw [byte_and_7F_shl b0 h0, byte_and_F0_shr b1 h1]
  have := Nat.mul_add_lt_is_or (i := 4) (b := b1 / 16) (by omega) (b0 % 128)
  rw [Nat.mul_comm] at this
  exact this.symm

theorem word64_fields (s e m : Nat) (hs : s < 2) (he : e < 2048) (hm : m < 2 ^ 52) :
    (be64 (word64 s e m)).getD 0 0 = s * 128 + e / 16 ∧
    (be64 (word64 s e m)).getD 1 0 = (e % 16) * 16 + m / 2 ^ 48 ∧
    word64 s e m % 2 ^ 52 = m := by
  simp only [be64, word64, List.getD_cons_zero, List.getD_cons_succ]
  norm_num at hm ⊢
  omega

/-- What `freadieee754` extracts from the octets of `word64 s e m`. -/
theorem freadieee754_fields (s e m : Nat) (hs : s < 2) (he : e < 2048) (hm : m < 2 ^ 52)
    (fuel : Nat) (rest : List Nat) :
    freadieee754 fuel (be64 (word64 s e m) ++ rest) true =
      if e = 0 ∧ m = 0 then some (Fl.fin 0)
      else if e = 2047 ∧ m ≠ 0 then some Fl.nan
      else if e = 2047 ∧ m = 0 then some (if s = 0 then Fl.inf false else Fl.inf true)
      else if 0 < e then
        some (Fl.mul binary64 (Fl.ldexp binary64
          (Fl.add binary64 (Fl.fin ((m : ℚ) / 2 ^ 52)) (Fl.fin 1)) ((e : ℤ) - 1023))
          (Fl.ofInt binary64 (if s = 0 then 1 else -1)))
      else
        match doubleLoop fuel (Fl.fin ((m : ℚ) / 2 ^ 52)) (-1022) with
        | none => none
        | some (fnorm, shift) =>
          some (Fl.mul binary64 (Fl.ldexp binary64 fnorm shift)
            (Fl.ofInt binary64 (if s = 0 then 1 else -1))) := by
  obtain ⟨hb0, hb1, hlow⟩ := word64_fields s e m hs he hm
  have hml := mantLoop_spec (word64 s e m) 52 le_rfl 1 0x08 (by intro _; decide)
  have h0 : word64 s e m % 2 ^ 52 / 2 ^ 52 = 0 := by
    rw [hlow]; exact Nat.div_eq_of_lt hm
  rw [h0, hlow] at hml
  simp only [Nat.sub_self, pow_zero, Nat.cast_zero, zero_div, zero_add, pow_one] at hml
  have hexp : ((be64 (word64 s e m)).getD 0 0 &&& 0x7F) <<< 4
      ||| ((be64 (word64 s e m)).getD 1 0 &&& 0xF0) >>> 4 = e := by
    rw [exponent_bytes _ _ (by rw [hb0]; omega) (by rw [hb1]; omega), hb0, hb1]
    omega
  have hsign : ((be64 (word64 s e m)).getD 0 0 &&& 0x80 ≠ 0) ↔ s = 1 := by
    rw [byte_and_80 _ (by rw [hb0]; omega), hb0]
    omega
  have hmq : ((m : ℚ) / 2 ^ 52 = 0) ↔ m = 0 := by
    rw [div_eq_zero_iff]
    simp
  unfold freadieee754
  simp only [readBuff_be64, Bool.not_true, Bool.false_eq_true, if_false, hml, hexp, hsign,
    eq_fin, Fl.ne, decide_eq_true_eq, hmq, Bool.not_eq_true', decide_eq_false_iff_not]
  have hsh : (((1 <<< (11 - 1) : ℕ) : ℤ) - 1) = 1023 := by decide
  rw [hsh]
  have he0 : ((e : ℤ) = 0) ↔ e = 0 := by omega
  have he1 : ((e : ℤ) - 1023 = 1024) ↔ e = 2047 := by omega
  have he2 : ((e : ℤ) - 1023 > -1023) ↔ 0 < e := by omega
  simp only [he0, he1, he2]
  have hsg : (if s = 1 then (-1 : ℤ) else 1) = if s = 0 then 1 else -1 := by
    rcases (by omega : s = 0 ∨ s = 1) with h | h <;> simp [h]
  rw [hsg]
  have hs1 : ((if s = 0 then (1 : ℤ) else -1) = 1) ↔ s = 0 := by
    rcases (by omega : s = 0 ∨ s = 1) with h | h <;> simp [h]
  simp only [hs1]
  by_cases hm0 : m = 0
  · by_cases hz : e = 0
    · simp [hm0, hz]
    · have : 0 < e := by omega
      simp [hm0, hz, this]
  · simp only [hm0, and_false, and_true, if_false, not_false_eq_true, ne_eq]

theorem round64_exact (b : Bool) (q : ℚ) (n : ℕ) (c : ℤ) (hn : n < 2 ^ 53) (h1 : -1074 ≤ c)
    (h2 : c ≤ 971) (hq : |q| = (n : ℚ) * (2 : ℚ) ^ c) (hb : q = 0 → b = false) :
    binary64.round b q = Fl.fin q :=
  round_rep _ _ (rep64 n c hn h1 h2 q hq) hb

theorem ofInt64_sign (s : ℕ) :
    Fl.ofInt binary64 (if s = 0 then 1 else -1) = Fl.fin (if s = 0 then 1 else -1) := by
  unfold Fl.ofInt
  split_ifs
  · exact round64_exact _ _ 1 0 (by norm_num) (by norm_num) (by norm_num) (by norm_num)
      (by norm_num)
  · exact round64_exact _ _ 1 0 (by norm_num) (by norm_num) (by norm_num) (by norm_num)
      (by norm_num)

theorem sign_eq_pow (s : ℕ) (hs : s < 2) : (if s = 0 then (1 : ℚ) else -1) = (-1) ^ s := by
  rcases (by omega : s = 0 ∨ s = 1) with h | h <;> simp [h]

/-- The value `n * 2^c * (±1)` is computed exactly by the final multiplication
by `sign`. -/
theorem mul_sign_exact (s n : ℕ) (c : ℤ) (hs : s < 2) (hn : n < 2 ^ 53) (hn0 : n ≠ 0)
    (h1 : -1074 ≤ c) (h2 : c ≤ 971) :
    Fl.mul binary64 (Fl.fin ((n : ℚ) * (2 : ℚ) ^ c)) (Fl.ofInt binary64 (if s = 0 then 1 else -1))
      = Fl.fin ((-1) ^ s * ((n : ℚ) * (2 : ℚ) ^ c)) := by
  have hpos : (0 : ℚ) < (n : ℚ) * (2 : ℚ) ^ c := by
    have : (0 : ℚ) < n := by exact_mod_cast Nat.pos_of_ne_zero hn0
    positivity
  rw [ofInt64_sign, mul_fin, sign_eq_pow s hs, mul_comm ((n : ℚ) * (2 : ℚ) ^ c) ((-1) ^ s)]
  apply round64_exact _ _ n c hn h1 h2
  · rw [abs_mul, abs_pow, abs_neg, abs_one, one_pow, one_mul, abs_of_pos hpos]
  · intro h0
    exfalso
    rcases mul_eq_zero.mp h0 with h | h
    · exact absurd h (pow_ne_zero _ (by norm_num))
    · linarith

/-- The normal branch of `freadieee754` is exact. -/
theorem normal_value (s e m : ℕ) (hs : s < 2) (he1 : 0 < e) (he2 : e < 2047) (hm : m < 2 ^ 52) :
    Fl.mul binary64 (Fl.ldexp binary64
        (Fl.add binary64 (Fl.fin ((m : ℚ) / 2 ^ 52)) (Fl.fin 1)) ((e : ℤ) - 1023))
        (Fl.ofInt binary64 (if s = 0 then 1 else -1))
      = Fl.fin ((-1) ^ s * (1 + (m : ℚ) / 2 ^ 52) * (2 : ℚ) ^ ((e : ℤ) - 1023)) := by
  have hn : 2 ^ 52 + m < 2 ^ 53 := by omega
  have hA : (m : ℚ) / 2 ^ 52 + 1 = ((2 ^ 52 + m : ℕ) : ℚ) * (2 : ℚ) ^ (-52 : ℤ) := by
    push_cast
    rw [zpow_neg]
    norm_num
    ring
  have hadd : Fl.add binary64 (Fl.fin ((m : ℚ) / 2 ^ 52)) (Fl.fin 1)
      = Fl.fin (((2 ^ 52 + m : ℕ) : ℚ) * (2 : ℚ) ^ (-52 : ℤ)) := by
    rw [add_fin, hA]
    exact round64_dyadic _ _ _ hn (by norm_num) (by norm_num) (by omega)
  have hld : Fl.ldexp binary64 (Fl.fin (((2 ^ 52 + m : ℕ) : ℚ) * (2 : ℚ) ^ (-52 : ℤ)))
      ((e : ℤ) - 1023) = Fl.fin (((2 ^ 52 + m : ℕ) : ℚ) * (2 : ℚ) ^ ((e : ℤ) - 1075)) := by
    rw [ldexp_fin, mul_assoc, ← zpow_add₀ (by norm_num : (2 : ℚ) ≠ 0),
      show (-52 : ℤ) + ((e : ℤ) - 1023) = (e : ℤ) - 1075 by ring]
    exact round64_dyadic _ _ _ hn (by omega) (by omega) (by omega)
  rw [hadd, hld, mul_sign_exact s _ _ hs hn (by omega) (by omega) (by omega)]
  congr 1
  rw [add_comm 1, hA, show (e : ℤ) - 1075 = (-52 : ℤ) + ((e : ℤ) - 1023) by ring,
    zpow_add₀ (by norm_num : (2 : ℚ) ≠ 0)]
  ring

/-- The subnormal branch of `freadieee754` is exact, given fuel for the at most
52 doublings. -/
theorem subnormal_value (s m fuel : ℕ) (hs : s < 2) (hm0 : m ≠ 0) (hm : m < 2 ^ 52)
    (hfuel : 52 < fuel) :
    (match doubleLoop fuel (Fl.fin ((m : ℚ) / 2 ^ 52)) (-1022) with
      | none => none
      | some (fnorm, shift) =>
        some (Fl.mul binary64 (Fl.ldexp binary64 fnorm shift)
          (Fl.ofInt binary64 (if s = 0 then 1 else -1))))
      = some (Fl.fin ((-1) ^ s * ((m : ℚ) / 2 ^ 52) * (2 : ℚ) ^ (-1022 : ℤ))) := by
  have hL1 : 2 ^ Nat.log2 m ≤ m := Nat.log2_self_le hm0
  have hL2 : m < 2 ^ (Nat.log2 m + 1) := Nat.lt_log2_self
  have hL : Nat.log2 m < 52 := (Nat.log2_lt hm0).mpr hm
  obtain ⟨k, hk⟩ : ∃ k, Nat.log2 m + k = 52 := ⟨52 - Nat.log2 m, by omega⟩
  have hstart : (m : ℚ) / 2 ^ 52 = (m : ℚ) * (2 : ℚ) ^ (-((Nat.log2 m + k : ℕ) : ℤ)) := by
    rw [hk, zpow_neg]
    norm_num
    ring
  have hdl : doubleLoop fuel (Fl.fin ((m : ℚ) / 2 ^ 52)) (-1022)
      = some (Fl.fin ((m : ℚ) * (2 : ℚ) ^ (-(Nat.log2 m : ℤ))), -1022 - (k : ℤ)) := by
    rw [hstart]
    exact doubleLoop_spec m (Nat.log2 m) hL1 hL2 (by omega) k (by omega) fuel (-1022) (by omega)
  rw [hdl]
  simp only
  have hn : m < 2 ^ 53 := by omega
  have hld : Fl.ldexp binary64 (Fl.fin ((m : ℚ) * (2 : ℚ) ^ (-(Nat.log2 m : ℤ)))) (-1022 - (k : ℤ))
      = Fl.fin ((m : ℚ) * (2 : ℚ) ^ (-1074 : ℤ)) := by
    rw [ldexp_fin, mul_assoc, ← zpow_add₀ (by norm_num : (2 : ℚ) ≠ 0),
      show (-(Nat.log2 m : ℤ)) + (-1022 - (k : ℤ)) = -1074 by omega]
    exact round64_dyadic _ _ _ hn (by norm_num) (by norm_num) (by omega)
  rw [hld, mul_sign_exact s _ _ hs hn hm0 (by norm_num) (by norm_num)]
  congr 2
  rw [show (-1074 : ℤ) = (-52 : ℤ) + (-1022) by norm_num, zpow_add₀ (by norm_num : (2 : ℚ) ≠ 0)]
  have h52 : (2 : ℚ) ^ (-52 : ℤ) = 1 / 2 ^ 52 := by
    rw [zpow_neg, one_div, ← zpow_natCast]; rfl
  rw [h52]
  generalize (2 : ℚ) ^ (-1022 : ℤ) = t
  ring

theorem and_two_pow_ne_zero (x k : ℕ) : (x &&& 2 ^ k ≠ 0) ↔ x / 2 ^ k % 2 = 1 := by
  have hb : x.testBit k = decide (x / 2 ^ k % 2 = 1) := Nat.testBit_to_div_mod
  constructor
  · intro h
    by_contra hne
    apply h
    apply Nat.eq_of_testBit_eq
    intro i
    rw [Nat.testBit_and, Nat.testBit_two_pow, Nat.zero_testBit]
    by_cases hik : k = i
    · subst hik; simp [hb, hne]
    · simp [hik]
  · intro h hz
    have := Nat.testBit_and x (2 ^ k) k
    rw [hz, Nat.zero_testBit, Nat.testBit_two_pow_self, hb] at this
    simp [h] at this

theorem shl8_or (x b : ℕ) (hx : x < 2 ^ 56) (hb : b < 256) : shlUL x 8 ||| b = x * 256 + b := by
  unfold shlUL
  rw [Nat.shiftLeft_eq, Nat.mod_eq_of_lt (by omega)]
  have := Nat.mul_add_lt_is_or (i := 8) (b := b) (by omega) x
  rw [Nat.mul_comm x, ← this, Nat.mul_comm]

theorem and_255 (x : ℕ) : x &&& 0xFF = x % 256 := Nat.and_pow_two_sub_one_eq_mod x 8

theorem toULong_natCast (x : ℕ) (hx : x < 2 ^ 64) : toULong (x : ℤ) = x := by
  unfold toULong
  omega

theorem readWord_four (b0 b1 b2 b3 : ℕ) (rest : List ℕ) :
    readWord 4 0 (b0 :: b1 :: b2 :: b3 :: rest)
      = b0 % 256 * 2 ^ 24 + b1 % 256 * 2 ^ 16 + b2 % 256 * 2 ^ 8 + b3 % 256 := by
  have h0 := Nat.mod_lt b0 (by norm_num : 256 > 0)
  have h1 := Nat.mod_lt b1 (by norm_num : 256 > 0)
  have h2 := Nat.mod_lt b2 (by norm_num : 256 > 0)
  have h3 := Nat.mod_lt b3 (by norm_num : 256 > 0)
  simp only [readWord, fgetc]
  rw [toULong_natCast _ (by omega), toULong_natCast _ (by omega), toULong_natCast _ (by omega),
    toULong_natCast _ (by omega)]
  rw [shl8_or 0 _ (by norm_num) h0, shl8_or _ _ (by omega) h1, shl8_or _ _ (by omega) h2,
    shl8_or _ _ (by omega) h3]
  omega

theorem readWord_be32 (w : ℕ) (hw : w < 2 ^ 32) (rest : List ℕ) :
    readWord 4 0 (be32 w ++ rest) = w := by
  simp only [be32, List.cons_append, List.nil_append, readWord_four]
  omega

/-- The mantissa loop of `freadieee754f` adds up the bits of the word below
bit `n`, scaled. -/
theorem mantLoopf_spec (w : Nat) : ∀ (n : Nat), n ≤ 23 → ∀ (mask : Nat),
    (0 < n → mask = 2 ^ (n - 1)) →
    mantLoopf w n (Fl.fin (((w % 2 ^ 23 / 2 ^ n : ℕ) : ℚ) / 2 ^ (23 - n)))
      (Fl.fin (1 / 2 ^ (23 - n + 1))) mask
      = Fl.fin (((w % 2 ^ 23 : ℕ) : ℚ) / 2 ^ 23) := by
  intro n
  induction n with
  | zero => intro _ mask _; simp [mantLoopf]
  | succ n ih =>
    intro hn mask hm
    have hm' := hm (Nat.succ_pos n)
    rw [Nat.add_sub_cancel] at hm'
    subst hm'
    clear hm
    have hbit := and_two_pow_ne_zero w n
    have hlow : w / 2 ^ n % 2 = w % 2 ^ 23 / 2 ^ n % 2 := by
      have := Nat.testBit_mod_two_pow w 23 n
      rw [Nat.testBit_to_div_mod, Nat.testBit_to_div_mod] at this
      simp only [show n < 23 by omega, decide_True, Bool.true_and, decide_eq_decide] at this
      have h1 := Nat.mod_two_eq_zero_or_one (w / 2 ^ n)
      have h2 := Nat.mod_two_eq_zero_or_one (w % 2 ^ 23 / 2 ^ n)
      omega
    have hhi : w % 2 ^ 23 / 2 ^ n = 2 * (w % 2 ^ 23 / 2 ^ (n + 1)) + w % 2 ^ 23 / 2 ^ n % 2 := by
      have e : 2 ^ (n + 1) = 2 ^ n * 2 := pow_succ 2 n
      rw [e, ← Nat.div_div_eq_div_mul]; omega
    have hlt : w % 2 ^ 23 / 2 ^ n < 2 ^ (23 - n) := by
      rw [Nat.div_lt_iff_lt_mul (by positivity), ← pow_add]
      rw [show 23 - n + n = 23 by omega]
      exact Nat.mod_lt _ (by positivity)
    have hexp : 23 - n = (23 - (n + 1)) + 1 := by omega
    have hf : (if w &&& 2 ^ n ≠ 0 then
          Fl.add binary64 (Fl.fin (((w % 2 ^ 23 / 2 ^ (n + 1) : ℕ) : ℚ) / 2 ^ (23 - (n + 1))))
            (Fl.fin (1 / 2 ^ (23 - (n + 1) + 1)))
        else Fl.fin (((w % 2 ^ 23 / 2 ^ (n + 1) : ℕ) : ℚ) / 2 ^ (23 - (n + 1))))
        = Fl.fin (((w % 2 ^ 23 / 2 ^ n : ℕ) : ℚ) / 2 ^ (23 - n)) := by
      have hval : ∀ b : ℕ, w % 2 ^ 23 / 2 ^ n % 2 = b →
          ((w % 2 ^ 23 / 2 ^ (n + 1) : ℕ) : ℚ) / 2 ^ (23 - (n + 1)) + (b : ℚ) / 2 ^ (23 - (n + 1) + 1)
          = ((w % 2 ^ 23 / 2 ^ n : ℕ) : ℚ) / 2 ^ (23 - n) := by
        intro b hb
        rw [hb] at hhi
        conv_rhs => rw [hhi, hexp]
        push_cast
        field_simp
        ring
      split_ifs with hb
      · rw [hbit, hlow] at hb
        have hv := hval 1 hb
        rw [Nat.cast_one] at hv
        rw [add_fin, hv]
        apply round_rep
        · apply rep64 (w % 2 ^ 23 / 2 ^ n) (-((23 - n : ℕ) : ℤ)) (by
            have : 2 ^ (23 - n) ≤ 2 ^ 53 := Nat.pow_le_pow_right (by norm_num) (by omega)
            omega) (by omega) (by omega)
          rw [abs_of_nonneg (by positivity), zpow_neg, zpow_natCast]
          rfl
        · intro h0
          exfalso
          have hpos : 0 < w % 2 ^ 23 / 2 ^ n := by omega
          have : (0 : ℚ) < ((w % 2 ^ 23 / 2 ^ n : ℕ) : ℚ) / 2 ^ (23 - n) := by positivity
          linarith
      · rw [hbit, hlow] at hb
        have hb0 : w % 2 ^ 23 / 2 ^ n % 2 = 0 := by
          have := Nat.mod_two_eq_zero_or_one (w % 2 ^ 23 / 2 ^ n)
          omega
        have hv := hval 0 hb0
        simp only [Nat.cast_zero, zero_div, add_zero] at hv
        rw [hv]
    have hbv : Fl.div binary64 (Fl.fin (1 / 2 ^ (23 - (n + 1) + 1))) (Fl.fin 2)
        = Fl.fin (1 / 2 ^ (23 - n + 1)) := by
      rw [div_fin_two]
      have e : (1 : ℚ) / 2 ^ (23 - (n + 1) + 1) / 2 = 1 / 2 ^ (23 - n + 1) := by
        rw [← hexp]; field_simp; ring
      rw [e]
      apply round_rep
      · apply rep64 1 (-((23 - n + 1 : ℕ) : ℤ)) (by norm_num) (by omega) (by omega)
        rw [abs_of_nonneg (by positivity), zpow_neg, zpow_natCast]
        simp
      · intro h0
        exfalso
        have : (0 : ℚ) < 1 / 2 ^ (23 - n + 1) := by positivity
        linarith
    rw [mantLoopf]
    simp only [hf, hbv]
    apply ih (by omega)
    intro hpos
    rw [Nat.shiftRight_eq_div_pow, pow_one]
    have e : n = (n - 1) + 1 := by omega
    conv_lhs => rw [e, pow_succ]
    omega

theorem and_mask_shr (w : ℕ) : (w &&& 0x7F800000) >>> 23 = w / 2 ^ 23 % 256 := by
  apply Nat.eq_of_testBit_eq
  intro i
  have hM : (0x7F800000 : ℕ) = (2 ^ 8 - 1) <<< 23 := by decide
  have hR : w / 2 ^ 23 % 256 = (w >>> 23) % 2 ^ 8 := by
    rw [Nat.shiftRight_eq_div_pow]; rfl
  rw [hR, Nat.testBit_shiftRight, Nat.testBit_and, hM, Nat.testBit_shiftLeft,
    Nat.testBit_two_pow_sub_one, Nat.testBit_mod_two_pow, Nat.testBit_shiftRight]
  by_cases hi : i < 8 <;> simp [hi]

theorem word32_fields (s e m : Nat) (hs : s < 2) (he : e < 256) (hm : m < 2 ^ 23) :
    word32 s e m < 2 ^ 32 ∧ word32 s e m / 2 ^ 31 % 2 = s ∧
    word32 s e m / 2 ^ 23 % 256 = e ∧ word32 s e m % 2 ^ 23 = m := by
  simp only [word32]
  norm_num at hm ⊢
  omega

/-- What `freadieee754f` extracts from the octets of `word32 s e m`. -/
theorem freadieee754f_fields (s e m : Nat) (hs : s < 2) (he : e < 256) (hm : m < 2 ^ 23)
    (fuel : Nat) (rest : List Nat) :
    freadieee754f fuel (be32 (word32 s e m) ++ rest) true =
      if e = 0 ∧ m = 0 then some (Fl.fin 0)
      else if e = 255 ∧ m ≠ 0 then some Fl.nan
      else if e = 255 ∧ m = 0 then some (if s = 0 then Fl.inf false else Fl.inf true)
      else if 0 < e then
        some (Fl.mul binary32 (Fl.cast binary32 (Fl.ldexp binary64
          (Fl.add binary64 (Fl.fin ((m : ℚ) / 2 ^ 23)) (Fl.fin 1)) ((e : ℤ) - 127)))
          (Fl.ofInt binary32 (if s = 0 then 1 else -1)))
      else
        match doubleLoop fuel (Fl.fin ((m : ℚ) / 2 ^ 23)) (-126) with
        | none => none
        | some (fnorm, shift) =>
          some (Fl.mul binary32 (Fl.cast binary32 (Fl.ldexp binary64 fnorm shift))
            (Fl.ofInt binary32 (if s = 0 then 1 else -1))) := by
  obtain ⟨hw, hsb, heb, hlow⟩ := word32_fields s e m hs he hm
  have hml := mantLoopf_spec (word32 s e m) 23 le_rfl 0x00400000 (by intro _; decide)
  have h0 : word32 s e m % 2 ^ 23 / 2 ^ 23 = 0 := by
    rw [hlow]; exact Nat.div_eq_of_lt hm
  rw [h0, hlow] at hml
  simp only [Nat.sub_self, pow_zero, Nat.cast_zero, zero_div, zero_add, pow_one] at hml
  have hexp : (word32 s e m &&& 0x7F800000) >>> 23 = e := by
    rw [and_mask_shr, heb]
  have hsign : (word32 s e m &&& 0x80000000 ≠ 0) ↔ s = 1 := by
    have := and_two_pow_ne_zero (word32 s e m) 31
    rw [hsb] at this
    rw [show (0x80000000 : ℕ) = 2 ^ 31 by decide, this]
  have hmq : ((m : ℚ) / 2 ^ 23 = 0) ↔ m = 0 := by
    rw [div_eq_zero_iff]
    simp
  unfold freadieee754f
  simp only [readWord_be32 _ hw, Bool.not_true, Bool.false_eq_true, if_false, hml, hexp, hsign,
    eq_fin, Fl.ne, decide_eq_true_eq, hmq, Bool.not_eq_true', decide_eq_false_iff_not]
  have hsh : (((1 <<< (8 - 1) : ℕ) : ℤ) - 1) = 127 := by decide
  rw [hsh]
  have he0 : ((e : ℤ) = 0) ↔ e = 0 := by omega
  have he1 : ((e : ℤ) - 127 = 128) ↔ e = 255 := by omega
  have he2 : ((e : ℤ) - 127 > -127) ↔ 0 < e := by omega
  simp only [he0, he1, he2]
  have hsg : (if s = 1 then (-1 : ℤ) else 1) = if s = 0 then 1 else -1 := by
    rcases (by omega : s = 0 ∨ s = 1) with h | h <;> simp [h]
  rw [hsg]
  have hs1 : ((if s = 0 then (1 : ℤ) else -1) = 1) ↔ s = 0 := by
    rcases (by omega : s = 0 ∨ s = 1) with h | h <;> simp [h]
  simp only [hs1]
  by_cases hm0 : m = 0
  · by_cases hz : e = 0
    · simp [hm0, hz]
    · have : 0 < e := by omega
      simp [hm0, hz, this]
  · simp only [hm0, and_false, and_true, if_false, not_false_eq_true, ne_eq]

theorem round32_exact (b : Bool) (q : ℚ) (n : ℕ) (c : ℤ) (hn : n < 2 ^ 24) (h1 : -149 ≤ c)
    (h2 : c ≤ 104) (hq : |q| = (n : ℚ) * (2 : ℚ) ^ c) (hb : q = 0 → b = false) :
    binary32.round b q = Fl.fin q :=
  round_rep _ _ (rep32 n c hn h1 h2 q hq) hb

theorem ofInt32_sign (s : ℕ) :
    Fl.ofInt binary32 (if s = 0 then 1 else -1) = Fl.fin (if s = 0 then 1 else -1) := by
  unfold Fl.ofInt
  split_ifs
  · exact round32_exact _ _ 1 0 (by norm_num) (by norm_num) (by norm_num) (by norm_num)
      (by norm_num)
  · exact round32_exact _ _ 1 0 (by norm_num) (by norm_num) (by norm_num) (by norm_num)
      (by norm_num)

/-- The cast to `float` and the multiplication by `sign` are exact on
`n * 2^c` when it is a `float` value. -/
theorem cast_mul_sign_exact (s n : ℕ) (c : ℤ) (hs : s < 2) (hn : n < 2 ^ 24) (hn0 : n ≠ 0)
    (h1 : -149 ≤ c) (h2 : c ≤ 104) :
    Fl.mul binary32 (Fl.cast binary32 (Fl.fin ((n : ℚ) * (2 : ℚ) ^ c)))
        (Fl.ofInt binary32 (if s = 0 then 1 else -1))
      = Fl.fin ((-1) ^ s * ((n : ℚ) * (2 : ℚ) ^ c)) := by
  have hpos : (0 : ℚ) < (n : ℚ) * (2 : ℚ) ^ c := by
    have : (0 : ℚ) < n := by exact_mod_cast Nat.pos_of_ne_zero hn0
    positivity
  have hc : Fl.cast binary32 (Fl.fin ((n : ℚ) * (2 : ℚ) ^ c)) = Fl.fin ((n : ℚ) * (2 : ℚ) ^ c) :=
    round32_exact _ _ n c hn h1 h2 (abs_of_pos hpos) (by intro h; linarith)
  rw [hc, ofInt32_sign, mul_fin, sign_eq_pow s hs, mul_comm ((n : ℚ) * (2 : ℚ) ^ c) ((-1) ^ s)]
  apply round32_exact _ _ n c hn h1 h2
  · rw [abs_mul, abs_pow, abs_neg, abs_one, one_pow, one_mul, abs_of_pos hpos]
  · intro h0
    exfalso
    rcases mul_eq_zero.mp h0 with h | h
    · exact absurd h (pow_ne_zero _ (by norm_num))
    · linarith

/-- The normal branch of `freadieee754f` is exact. -/
theorem normal_value32 (s e m : ℕ) (hs : s < 2) (he1 : 0 < e) (he2 : e < 255) (hm : m < 2 ^ 23) :
    Fl.mul binary32 (Fl.cast binary32 (Fl.ldexp binary64
        (Fl.add binary64 (Fl.fin ((m : ℚ) / 2 ^ 23)) (Fl.fin 1)) ((e : ℤ) - 127)))
        (Fl.ofInt binary32 (if s = 0 then 1 else -1))
      = Fl.fin ((-1) ^ s * (1 + (m : ℚ) / 2 ^ 23) * (2 : ℚ) ^ ((e : ℤ) - 127)) := by
  have hn : 2 ^ 23 + m < 2 ^ 24 := by omega
  have hn' : 2 ^ 23 + m < 2 ^ 53 := by omega
  have hA : (m : ℚ) / 2 ^ 23 + 1 = ((2 ^ 23 + m : ℕ) : ℚ) * (2 : ℚ) ^ (-23 : ℤ) := by
    push_cast
    rw [zpow_neg]
    norm_num
    ring
  have hadd : Fl.add binary64 (Fl.fin ((m : ℚ) / 2 ^ 23)) (Fl.fin 1)
      = Fl.fin (((2 ^ 23 + m : ℕ) : ℚ) * (2 : ℚ) ^ (-23 : ℤ)) := by
    rw [add_fin, hA]
    exact round64_dyadic _ _ _ hn' (by norm_num) (by norm_num) (by omega)
  have hld : Fl.ldexp binary64 (Fl.fin (((2 ^ 23 + m : ℕ) : ℚ) * (2 : ℚ) ^ (-23 : ℤ)))
      ((e : ℤ) - 127) = Fl.fin (((2 ^ 23 + m : ℕ) : ℚ) * (2 : ℚ) ^ ((e : ℤ) - 150)) := by
    rw [ldexp_fin, mul_assoc, ← zpow_add₀ (by norm_num : (2 : ℚ) ≠ 0),
      show (-23 : ℤ) + ((e : ℤ) - 127) = (e : ℤ) - 150 by ring]
    exact round64_dyadic _ _ _ hn' (by omega) (by omega) (by omega)
  rw [hadd, hld, cast_mul_sign_exact s _ _ hs hn (by omega) (by omega) (by omega)]
  congr 1
  rw [add_comm 1, hA, show (e : ℤ) - 150 = (-23 : ℤ) + ((e : ℤ) - 127) by ring,
    zpow_add₀ (by norm_num : (2 : ℚ) ≠ 0)]
  ring

/-- The subnormal branch of `freadieee754f` is exact, given fuel for the at
most 23 doublings. -/
theorem subnormal_value32 (s m fuel : ℕ) (hs : s < 2) (hm0 : m ≠ 0) (hm : m < 2 ^ 23)
    (hfuel : 23 < fuel) :
    (match doubleLoop fuel (Fl.fin ((m : ℚ) / 2 ^ 23)) (-126) with
      | none => none
      | some (fnorm, shift) =>
        some (Fl.mul binary32 (Fl.cast binary32 (Fl.ldexp binary64 fnorm shift))
          (Fl.ofInt binary32 (if s = 0 then 1 else -1))))
      = some (Fl.fin ((-1) ^ s * ((m : ℚ) / 2 ^ 23) * (2 : ℚ) ^ (-126 : ℤ))) := by
  have hL1 : 2 ^ Nat.log2 m ≤ m := Nat.log2_self_le hm0
  have hL2 : m < 2 ^ (Nat.log2 m + 1) := Nat.lt_log2_self
  have hL : Nat.log2 m < 23 := (Nat.log2_lt hm0).mpr hm
  obtain ⟨k, hk⟩ : ∃ k, Nat.log2 m + k = 23 := ⟨23 - Nat.log2 m, by omega⟩
  have hstart : (m : ℚ) / 2 ^ 23 = (m : ℚ) * (2 : ℚ) ^ (-((Nat.log2 m + k : ℕ) : ℤ)) := by
    rw [hk, zpow_neg]
    norm_num
    ring
  have hdl : doubleLoop fuel (Fl.fin ((m : ℚ) / 2 ^ 23)) (-126)
      = some (Fl.fin ((m : ℚ) * (2 : ℚ) ^ (-(Nat.log2 m : ℤ))), -126 - (k : ℤ)) := by
    rw [hstart]
    exact doubleLoop_spec m (Nat.log2 m) hL1 hL2 (by omega) k (by omega) fuel (-126) (by omega)
  rw [hdl]
  simp only
  have hn : m < 2 ^ 53 := by omega
  have hld : Fl.ldexp binary64 (Fl.fin ((m : ℚ) * (2 : ℚ) ^ (-(Nat.log2 m : ℤ)))) (-126 - (k : ℤ))
      = Fl.fin ((m : ℚ) * (2 : ℚ) ^ (-149 : ℤ)) := by
    rw [ldexp_fin, mul_assoc, ← zpow_add₀ (by norm_num : (2 : ℚ) ≠ 0),
      show (-(Nat.log2 m : ℤ)) + (-126 - (k : ℤ)) = -149 by omega]
    exact round64_dyadic _ _ _ hn (by norm_num) (by norm_num) (by omega)
  rw [hld, cast_mul_sign_exact s _ _ hs (by omega) hm0 (by norm_num) (by norm_num)]
  congr 2
  rw [show (-149 : ℤ) = (-23 : ℤ) + (-126) by norm_num, zpow_add₀ (by norm_num : (2 : ℚ) ≠ 0)]
  have h23 : (2 : ℚ) ^ (-23 : ℤ) = 1 / 2 ^ 23 := by
    rw [zpow_neg, one_div, ← zpow_natCast]; rfl
  rw [h23]
  generalize (2 : ℚ) ^ (-126 : ℤ) = t
  ring

/-- The halving loop on `n * 2^(k-L)`, where `n` has `L+1` bits, stops after
`k` passes at `n * 2^(-L)`. -/
theorem halveLoop_spec (n L : ℕ) (hL1 : 2 ^ L ≤ n) (hL2 : n < 2 ^ (L + 1)) (hL : L ≤ 52) :
    ∀ (k : ℕ), (k : ℤ) - L ≤ 971 → ∀ (fuel : ℕ) (sh : ℤ), k < fuel →
    halveLoop fuel (Fl.fin ((n : ℚ) * (2 : ℚ) ^ ((k : ℤ) - L))) sh
      = some (Fl.fin ((n : ℚ) * (2 : ℚ) ^ (-(L : ℤ))), sh + k) := by
  have hn53 : n < 2 ^ 53 :=
    lt_of_lt_of_le hL2 (Nat.pow_le_pow_right (by norm_num) (by omega))
  have hn0 : n ≠ 0 := by
    have := Nat.one_le_two_pow (n := L); omega
  have h1q : (2 : ℚ) ^ (L : ℤ) ≤ (n : ℚ) := by
    rw [zpow_natCast]; exact_mod_cast hL1
  have h2q : (n : ℚ) < (2 : ℚ) ^ ((L : ℤ) + 1) := by
    rw [show ((L : ℤ) + 1) = ((L + 1 : ℕ) : ℤ) by push_cast; ring, zpow_natCast]
    exact_mod_cast hL2
  have h20 : (2 : ℚ) ≠ 0 := by norm_num
  intro k
  induction k with
  | zero =>
    intro _ fuel sh hf
    obtain ⟨fuel, rfl⟩ : ∃ f', fuel = f' + 1 := ⟨fuel - 1, by omega⟩
    have hlt : ¬ (2 ≤ (n : ℚ) * (2 : ℚ) ^ (-(L : ℤ))) := by
      rw [not_le, zpow_neg, ← div_eq_mul_inv, div_lt_iff₀ (by positivity)]
      rw [zpow_add₀ h20, zpow_one] at h2q
      linarith
    simp only [Nat.cast_zero, zero_sub, add_zero, halveLoop, ge_fin, hlt, decide_False,
      Bool.false_eq_true, if_false]
  | succ k ih =>
    intro hk fuel sh hf
    obtain ⟨fuel, rfl⟩ : ∃ f', fuel = f' + 1 := ⟨fuel - 1, by omega⟩
    have hge : 2 ≤ (n : ℚ) * (2 : ℚ) ^ (((k + 1 : ℕ) : ℤ) - L) := by
      rw [show (((k + 1 : ℕ) : ℤ) - L) = (-(L : ℤ)) + ((k : ℤ) + 1) by push_cast; ring,
        zpow_add₀ h20, zpow_add₀ h20, zpow_one, zpow_neg]
      have hk1 : (1 : ℚ) ≤ (2 : ℚ) ^ (k : ℤ) := one_le_zpow₀ (by norm_num) (by omega)
      have hLpos : (0 : ℚ) < (2 : ℚ) ^ (L : ℤ) := zpow_pos (by norm_num) _
      have h1 : (1 : ℚ) ≤ (n : ℚ) * ((2 : ℚ) ^ (L : ℤ))⁻¹ := by
        rw [← div_eq_mul_inv, le_div_iff₀ hLpos, one_mul]; exact h1q
      calc (2 : ℚ) = 1 * (1 * 2) := by norm_num
        _ ≤ (n : ℚ) * ((2 : ℚ) ^ (L : ℤ))⁻¹ * ((2 : ℚ) ^ (k : ℤ) * 2) := by
            apply mul_le_mul h1 _ (by norm_num) (by positivity)
            exact mul_le_mul hk1 le_rfl (by norm_num) (by positivity)
        _ = (n : ℚ) * (((2 : ℚ) ^ (L : ℤ))⁻¹ * ((2 : ℚ) ^ (k : ℤ) * 2)) := by ring
    have hdiv : (n : ℚ) * (2 : ℚ) ^ (((k + 1 : ℕ) : ℤ) - L) / 2
        = (n : ℚ) * (2 : ℚ) ^ ((k : ℤ) - L) := by
      rw [show (((k + 1 : ℕ) : ℤ) - L) = ((k : ℤ) - L) + 1 by push_cast; ring,
        zpow_add₀ h20, zpow_one]
      field_simp
      ring
    rw [halveLoop, ge_fin]
    simp only [hge, decide_True, if_true]
    rw [div_fin_two, hdiv, round64_dyadic _ n _ hn53 (by omega) (by push_cast at hk; omega)
      (by intro h0; exact absurd h0 hn0)]
    rw [ih (by push_cast at hk; omega) fuel (sh + 1) (by omega)]
    congr 2
    push_cast
    ring

/-- The loop of the subnormal branch divides by two until `shift` reaches the
limit. -/
theorem raiseLoop_spec (limit : ℤ) (n : ℕ) (hn : n < 2 ^ 53) (hn0 : n ≠ 0) :
    ∀ (k : ℕ) (c : ℤ), -1074 ≤ c - k → c ≤ 971 → ∀ (fuel : ℕ), k < fuel →
    raiseLoop limit fuel (Fl.fin ((n : ℚ) * (2 : ℚ) ^ c)) (limit - k)
      = some (Fl.fin ((n : ℚ) * (2 : ℚ) ^ (c - k)), limit) := by
  have h20 : (2 : ℚ) ≠ 0 := by norm_num
  intro k
  induction k with
  | zero =>
    intro c _ _ fuel hf
    obtain ⟨fuel, rfl⟩ : ∃ f', fuel = f' + 1 := ⟨fuel - 1, by omega⟩
    simp [raiseLoop]
  | succ k ih =>
    intro c h1 h2 fuel hf
    obtain ⟨fuel, rfl⟩ : ∃ f', fuel = f' + 1 := ⟨fuel - 1, by omega⟩
    have hlt : limit - ((k + 1 : ℕ) : ℤ) < limit := by push_cast; omega
    have hdiv : (n : ℚ) * (2 : ℚ) ^ c / 2 = (n : ℚ) * (2 : ℚ) ^ (c - 1) := by
      rw [zpow_sub₀ h20, zpow_one]
      ring
    rw [raiseLoop]
    simp only [hlt, if_true]
    rw [div_fin_two, hdiv, round64_dyadic _ n _ hn (by push_cast at h1; omega) (by omega)
      (by intro h0; exact absurd h0 hn0)]
    have := ih (c - 1) (by push_cast at h1; omega) (by omega) fuel (by omega)
    rw [show limit - ((k + 1 : ℕ) : ℤ) + 1 = limit - k by push_cast; ring, this,
      show c - 1 - (k : ℤ) = c - ((k + 1 : ℕ) : ℤ) by push_cast; ring]

/-- The two normalisation loops of the encoders bring `n * 2^c` to
`n * 2^(-L)`, in `[1, 2)`, and leave `c + L` in `shift`. -/
theorem normalise_spec (n L : ℕ) (c : ℤ) (hL1 : 2 ^ L ≤ n) (hL2 : n < 2 ^ (L + 1)) (hL : L ≤ 52)
    (h1 : -1074 ≤ c) (h2 : c ≤ 971) (fuel : ℕ) (hf : 1074 < fuel) :
    (match halveLoop fuel (Fl.fin ((n : ℚ) * (2 : ℚ) ^ c)) 0 with
      | none => none
      | some (fnorm, shift) => doubleLoop fuel fnorm shift)
      = some (Fl.fin ((n : ℚ) * (2 : ℚ) ^ (-(L : ℤ))), c + L) := by
  by_cases hc : 0 ≤ c + L
  · obtain ⟨k, hk⟩ := Int.eq_ofNat_of_zero_le hc
    have e : c = (k : ℤ) - L := by omega
    rw [e, halveLoop_spec n L hL1 hL2 hL k (by omega) fuel 0 (by omega)]
    simp only
    have := doubleLoop_spec n L hL1 hL2 hL 0 (by omega) fuel (0 + (k : ℤ)) (by omega)
    simp only [Nat.add_zero, Nat.cast_zero, sub_zero] at this
    rw [this]
    congr 2
    omega
  · obtain ⟨k, hk⟩ := Int.eq_ofNat_of_zero_le (by omega : 0 ≤ -(c + L))
    have e : c = -((L + k : ℕ) : ℤ) := by push_cast; omega
    obtain ⟨fuel', rfl⟩ : ∃ f', fuel = f' + 1 := ⟨fuel - 1, by omega⟩
    have hlt : ¬ (2 ≤ (n : ℚ) * (2 : ℚ) ^ c) := by
      rw [not_le]
      have h2q : (n : ℚ) < (2 : ℚ) ^ ((L : ℤ) + 1) := by
        rw [show ((L : ℤ) + 1) = ((L + 1 : ℕ) : ℤ) by push_cast; ring, zpow_natCast]
        exact_mod_cast hL2
      have : (n : ℚ) * (2 : ℚ) ^ c < (2 : ℚ) ^ ((L : ℤ) + 1) * (2 : ℚ) ^ c :=
        mul_lt_mul_of_pos_right h2q (zpow_pos (by norm_num) c)
      rw [← zpow_add₀ (by norm_num : (2 : ℚ) ≠ 0)] at this
      have h3 : (2 : ℚ) ^ ((L : ℤ) + 1 + c) ≤ (2 : ℚ) ^ (0 : ℤ) :=
        zpow_le_zpow_right₀ (by norm_num) (by omega)
      rw [zpow_zero] at h3
      linarith
    rw [halveLoop, ge_fin]
    simp only [hlt, decide_False, Bool.false_eq_true, if_false]
    rw [e, doubleLoop_spec n L hL1 hL2 hL k (by omega) (fuel' + 1) 0 (by omega)]
    congr 2
    push_cast
    omega

theorem scale_52 : scale 52 = Fl.fin (2 ^ 52) := by decide!

theorem scale_23 : scale 23 = Fl.fin (2 ^ 23) := by decide!

theorem ofInt64_two32 : Fl.ofInt binary64 4294967296 = Fl.fin (2 ^ 32) := by decide!

theorem div_fin (f : Fmt) (p q : ℚ) (hq : q ≠ 0) :
    Fl.div f (Fl.fin p) (Fl.fin q) = f.round (xor (decide (p < 0)) (decide (q < 0))) (p / q) := by
  simp [Fl.div, Fl.isZero, Fl.isNeg, Fl.val, hq]

theorem sub_fin_nonneg (f : Fmt) (p q : ℚ) (hp : 0 ≤ p) :
    Fl.sub f (Fl.fin p) (Fl.fin q) = f.round false (p - q) := by
  have hp' : ¬ (p < 0) := not_lt.mpr hp
  unfold Fl.sub Fl.neg
  by_cases hq : q = 0
  · subst hq
    simp [Fl.add, Fl.isNeg, Fl.val, hp']
  · simp only [hq, if_false, add_fin, hp', decide_False, Bool.false_and]
    rw [sub_eq_add_neg]

theorem toLong_natCast (k : ℕ) : Fl.toLong (Fl.fin (k : ℚ)) = k := by
  have h : (0 : ℚ) ≤ (k : ℚ) := by positivity
  simp only [Fl.toLong, h, if_true]
  exact Int.floor_natCast k

theorem toLong_div_pow (m j : ℕ) : Fl.toLong (Fl.fin ((m : ℚ) / 2 ^ j)) = ((m / 2 ^ j : ℕ) : ℤ) := by
  have h : (0 : ℚ) ≤ (m : ℚ) / 2 ^ j := by positivity
  simp only [Fl.toLong, h, if_true]
  have := Rat.floor_intCast_div_natCast (m : ℤ) (2 ^ j)
  push_cast at this ⊢
  exact this

theorem or_fields (s e h : ℕ) (k : ℕ) (hs : s < 2) (hk : k ≤ 31) (he : e < 2 ^ (31 - k))
    (hh : h < 2 ^ k) :
    shlUL s 31 ||| shlUL e k ||| h = s * 2 ^ 31 + e * 2 ^ k + h := by
  have h31 : 2 ^ (31 - k) * 2 ^ k = 2 ^ 31 := by rw [← pow_add]; congr 1; omega
  have hek : e * 2 ^ k < 2 ^ 31 := by
    rw [← h31]; exact Nat.mul_lt_mul_of_pos_right he (by positivity)
  have hs31 : s * 2 ^ 31 < 2 ^ 64 := by norm_num; omega
  unfold shlUL
  rw [Nat.shiftLeft_eq, Nat.shiftLeft_eq, Nat.mod_eq_of_lt hs31, Nat.mod_eq_of_lt (by omega)]
  have h1 := Nat.mul_add_lt_is_or (i := 31) (b := e * 2 ^ k) hek s
  rw [Nat.mul_comm s, ← h1]
  have h2 := Nat.mul_add_lt_is_or (i := k) (b := h) hh (2 ^ (31 - k) * s + e)
  have e3 : 2 ^ 31 * s + e * 2 ^ k = 2 ^ k * (2 ^ (31 - k) * s + e) := by
    rw [Nat.mul_add, ← Nat.mul_assoc, Nat.mul_comm (2 ^ k) (2 ^ (31 - k)), h31, Nat.mul_comm e]
  rw [e3, ← h2]

/-- The tail of `fwriteieee754` packs the fraction `m / 2^52` and the exponent
`e - 1023` into the IEEE-754 fields. -/
theorem finish64_spec (s e m : ℕ) (hs : s < 2) (he : e < 2048) (hm : m < 2 ^ 52) :
    finish64 s (Fl.fin ((m : ℚ) * (2 : ℚ) ^ (-52 : ℤ))) ((e : ℤ) - 1023)
      = (s * 2 ^ 31 + e * 2 ^ 20 + m / 2 ^ 32, m % 2 ^ 32) := by
  have hq0 : (0 : ℚ) ≤ (m : ℚ) * (2 : ℚ) ^ (-52 : ℤ) := by positivity
  have hsig : Fl.mul binary64 (Fl.fin ((m : ℚ) * (2 : ℚ) ^ (-52 : ℤ))) (scale 52)
      = Fl.fin (m : ℚ) := by
    rw [scale_52, mul_fin]
    have e1 : (m : ℚ) * (2 : ℚ) ^ (-52 : ℤ) * 2 ^ 52 = (m : ℚ) := by
      rw [zpow_neg, ← zpow_natCast]
      field_simp
    have e2 : ¬ ((m : ℚ) * (2 : ℚ) ^ (-52 : ℤ) < 0) := not_lt.mpr hq0
    have e3 : ¬ ((2 : ℚ) ^ 52 < 0) := by norm_num
    simp only [e1, e2, e3, decide_False, Bool.xor_false]
    exact round64_exact _ _ m 0 (by omega) (by norm_num) (by norm_num)
      (by rw [abs_of_nonneg (by positivity)]; simp) (by intro _; rfl)
  have hexp : toULong (((e : ℤ) - (1023 : ℤ)) + (((1 <<< (11 - 1) : ℕ) : ℤ) - 1)) = e := by
    have : (((1 <<< (11 - 1) : ℕ) : ℤ) - 1) = 1023 := by decide
    rw [this]
    unfold toULong
    omega
  have hhi : toULong (Fl.toLong (Fl.div binary64 (Fl.fin (m : ℚ)) (Fl.ofInt binary64 4294967296)))
      = m / 2 ^ 32 := by
    rw [ofInt64_two32, div_fin _ _ _ (by norm_num)]
    have e1 : ¬ ((m : ℚ) < 0) := not_lt.mpr (by positivity)
    have e2 : ¬ ((2 : ℚ) ^ 32 < 0) := by norm_num
    simp only [e1, e2, decide_False, Bool.xor_false]
    rw [round64_exact _ _ m (-32) (by omega) (by norm_num) (by norm_num)
      (by rw [abs_of_nonneg (by positivity), zpow_neg, ← zpow_natCast]; rfl) (by intro _; rfl),
      toLong_div_pow, toULong_natCast]
    have : m / 2 ^ 32 ≤ m := Nat.div_le_self _ _
    omega
  have hlo : toULong (Fl.toLong (Fl.sub binary64 (Fl.fin (m : ℚ))
      (Fl.ofInt binary64 ((m / 2 ^ 32 * 4294967296 % 2 ^ 64 : ℕ) : ℤ)))) = m % 2 ^ 32 := by
    have hle : m / 2 ^ 32 * 4294967296 ≤ m := by
      have := Nat.div_mul_le_self m (2 ^ 32)
      norm_num at this ⊢
      exact this
    rw [Nat.mod_eq_of_lt (by omega)]
    have hof : Fl.ofInt binary64 ((m / 2 ^ 32 * 4294967296 : ℕ) : ℤ)
        = Fl.fin ((m / 2 ^ 32 * 4294967296 : ℕ) : ℚ) := by
      unfold Fl.ofInt
      rw [Int.cast_natCast]
      apply round64_exact _ _ (m / 2 ^ 32) 32 (by omega) (by norm_num) (by norm_num) _
        (by intro _; rfl)
      rw [abs_of_nonneg (by positivity)]
      push_cast
      norm_num
    rw [hof, sub_fin_nonneg _ _ _ (by positivity)]
    have hval : (m : ℚ) - ((m / 2 ^ 32 * 4294967296 : ℕ) : ℚ) = ((m % 2 ^ 32 : ℕ) : ℚ) := by
      have h := Nat.div_add_mod m (2 ^ 32)
      have h' : (m : ℚ) = ((2 ^ 32 * (m / 2 ^ 32) + m % 2 ^ 32 : ℕ) : ℚ) := by rw [h]
      conv_lhs => rw [h']
      push_cast
      ring
    rw [hval, round64_exact _ _ (m % 2 ^ 32) 0 (by omega) (by norm_num) (by norm_num)
      (by rw [abs_of_nonneg (by positivity)]; simp) (by intro _; rfl),
      toLong_natCast, toULong_natCast _ (by omega)]
  unfold finish64
  simp only [hsig, hexp, hhi, hlo]
  rw [show 31 - 11 = 20 by rfl, or_fields s e (m / 2 ^ 32) 20 hs (by norm_num) (by norm_num; omega)
    (by rw [Nat.div_lt_iff_lt_mul (by positivity)]; norm_num at hm ⊢; omega)]

theorem dyadic_le_DBL_MAX (n : ℕ) (c : ℤ) (hn : n < 2 ^ 53) (hc : c ≤ 971) :
    (n : ℚ) * (2 : ℚ) ^ c ≤ DBL_MAX := by
  have h1 : (n : ℚ) ≤ 2 ^ 53 - 1 := by
    have h : (n : ℚ) + 1 ≤ 2 ^ 53 := by exact_mod_cast hn
    linarith
  have h2 : (2 : ℚ) ^ c ≤ (2 : ℚ) ^ (971 : ℤ) := zpow_le_zpow_right₀ (by norm_num) hc
  have h3 : ((2 : ℚ) ^ 53 - 1) * (2 : ℚ) ^ (971 : ℤ) = DBL_MAX := by
    unfold DBL_MAX
    rw [show (971 : ℤ) = ((971 : ℕ) : ℤ) by rfl, zpow_natCast]
    ring
  rw [← h3]
  exact mul_le_mul h1 h2 (by positivity) (by norm_num)

/-- The general case of `fwriteieee754` on `±n * 2^c`, where `n` has `L+1`
bits: the special cases are passed and the value is normalised. -/
theorem pack64_general (s n L : ℕ) (c : ℤ) (hs : s < 2) (hL1 : 2 ^ L ≤ n)
    (hL2 : n < 2 ^ (L + 1)) (hL : L ≤ 52) (h1 : -1074 ≤ c) (h2 : c ≤ 971)
    (fuel : ℕ) (hf : 1074 < fuel) :
    pack64 fuel (Fl.fin ((-1) ^ s * ((n : ℚ) * (2 : ℚ) ^ c))) =
      if c + L < -1022 then
        match raiseLoop (-1022) fuel (Fl.fin ((n : ℚ) * (2 : ℚ) ^ (-(L : ℤ)))) (c + L) with
        | none => none
        | some (fnorm, _) => some (finish64 s fnorm (-1023))
      else some (finish64 s
        (Fl.sub binary64 (Fl.fin ((n : ℚ) * (2 : ℚ) ^ (-(L : ℤ)))) (Fl.fin 1)) (c + L)) := by
  have hn53 : n < 2 ^ 53 :=
    lt_of_lt_of_le hL2 (Nat.pow_le_pow_right (by norm_num) (by omega))
  have hn0 : 0 < n := lt_of_lt_of_le (Nat.two_pow_pos L) hL1
  have hv : (0 : ℚ) < (n : ℚ) * (2 : ℚ) ^ c := by
    have : (0 : ℚ) < n := by exact_mod_cast hn0
    positivity
  have hD := dyadic_le_DBL_MAX n c hn53 h2
  have hnorm := normalise_spec n L c hL1 hL2 hL h1 h2 fuel hf
  generalize hvdef : (n : ℚ) * (2 : ℚ) ^ c = v at hv hD hnorm
  have hsh : ¬ (c + (L : ℤ) > 1023) := by omega
  rcases (by omega : s = 0 ∨ s = 1) with rfl | rfl
  · have e0 : ((-1 : ℚ) ^ 0 * v) = v := by norm_num
    rw [e0]
    unfold pack64
    have c1 : ¬ (v = 0) := hv.ne'
    have c2 : ¬ (DBL_MAX < v) := not_lt.mpr hD
    have c3 : ¬ (v < -DBL_MAX) := by intro h; linarith
    have c4 : ¬ (v < 0) := not_lt.mpr hv.le
    simp only [eq_fin, Fl.gt, lt_fin, Fl.ne, c1, c2, c3, c4, decide_False, decide_True,
      Bool.false_eq_true, if_false, Bool.not_true]
    revert hnorm
    rcases halveLoop fuel (Fl.fin v) 0 with _ | ⟨f1, s1⟩
    · intro hnorm; simp at hnorm
    · simp only
      intro hnorm
      rw [hnorm]
      simp only [hsh, if_false]
  · have e0 : ((-1 : ℚ) ^ 1 * v) = -v := by norm_num
    rw [e0]
    unfold pack64
    have c1 : ¬ (-v = 0) := by intro h; linarith
    have c2 : ¬ (DBL_MAX < -v) := by intro h; linarith
    have c3 : ¬ (-v < -DBL_MAX) := by intro h; linarith
    have c4 : (-v < 0) := by linarith
    simp only [eq_fin, Fl.gt, lt_fin, Fl.ne, c1, c2, c3, c4, decide_False, decide_True,
      Bool.false_eq_true, if_false, if_true, Bool.not_true, Fl.neg, neg_neg]
    revert hnorm
    rcases halveLoop fuel (Fl.fin v) 0 with _ | ⟨f1, s1⟩
    · intro hnorm; simp at hnorm
    · simp only
      intro hnorm
      rw [hnorm]
      simp only [hsh, if_false]

/-- The words `fwriteieee754` packs for a finite nonzero binary64 value. -/
theorem pack64_spec (s e m : ℕ) (hs : s < 2) (he : e < 2047) (hm : m < 2 ^ 52)
    (hnz : e ≠ 0 ∨ m ≠ 0) (fuel : ℕ) (hf : 1074 < fuel) :
    pack64 fuel (Fl.fin (value64 s e m))
      = some (s * 2 ^ 31 + e * 2 ^ 20 + m / 2 ^ 32, m % 2 ^ 32) := by
  unfold value64
  by_cases he0 : e = 0
  · have hm0 : m ≠ 0 := by omega
    subst he0
    simp only [if_true]
    have hL1 : 2 ^ Nat.log2 m ≤ m := Nat.log2_self_le hm0
    have hL2 : m < 2 ^ (Nat.log2 m + 1) := Nat.lt_log2_self
    have hL : Nat.log2 m < 52 := (Nat.log2_lt hm0).mpr hm
    rw [pack64_general s m (Nat.log2 m) (-1074) hs hL1 hL2 (by omega) (by norm_num) (by norm_num)
      fuel hf]
    have hlt : (-1074 : ℤ) + (Nat.log2 m : ℤ) < -1022 := by omega
    simp only [hlt, if_true]
    obtain ⟨k, hk⟩ : ∃ k, Nat.log2 m + k = 52 := ⟨52 - Nat.log2 m, by omega⟩
    have hr := raiseLoop_spec (-1022) m (by omega) hm0 k (-(Nat.log2 m : ℤ)) (by omega) (by omega)
      fuel (by omega)
    rw [show (-1022 : ℤ) - (k : ℤ) = -1074 + (Nat.log2 m : ℤ) by omega,
      show (-(Nat.log2 m : ℤ)) - (k : ℤ) = -52 by omega] at hr
    rw [hr]
    simp only
    have := finish64_spec s 0 m hs (by norm_num) hm
    simp only [Nat.cast_zero, zero_sub, zero_mul, add_zero] at this
    rw [this, zero_mul, add_zero]
  · simp only [he0, if_false]
    have hval : (-1 : ℚ) ^ s * ((1 + (m : ℚ) / 2 ^ 52) * (2 : ℚ) ^ ((e : ℤ) - 1023))
        = (-1) ^ s * (((2 ^ 52 + m : ℕ) : ℚ) * (2 : ℚ) ^ ((e : ℤ) - 1075)) := by
      rw [show (e : ℤ) - 1023 = ((e : ℤ) - 1075) + 52 by ring,
        zpow_add₀ (by norm_num : (2 : ℚ) ≠ 0)]
      push_cast
      rw [show (52 : ℤ) = ((52 : ℕ) : ℤ) by rfl, zpow_natCast]
      field_simp
      ring
    rw [hval, pack64_general s (2 ^ 52 + m) 52 ((e : ℤ) - 1075) hs (by omega) (by omega) le_rfl
      (by omega) (by omega) fuel hf]
    have hlt : ¬ ((e : ℤ) - 1075 + ((52 : ℕ) : ℤ) < -1022) := by push_cast; omega
    simp only [hlt, if_false]
    have hsub : Fl.sub binary64 (Fl.fin (((2 ^ 52 + m : ℕ) : ℚ) * (2 : ℚ) ^ (-((52 : ℕ) : ℤ))))
        (Fl.fin 1) = Fl.fin ((m : ℚ) * (2 : ℚ) ^ (-52 : ℤ)) := by
      rw [sub_fin_nonneg _ _ _ (by positivity)]
      have : ((2 ^ 52 + m : ℕ) : ℚ) * (2 : ℚ) ^ (-((52 : ℕ) : ℤ)) - 1
          = (m : ℚ) * (2 : ℚ) ^ (-52 : ℤ) := by
        push_cast
        rw [zpow_neg, show (52 : ℤ) = ((52 : ℕ) : ℤ) by rfl, zpow_natCast]
        field_simp
        norm_num
      rw [this]
      exact round64_dyadic _ m _ (by omega) (by norm_num) (by norm_num) (by intro _; rfl)
    rw [hsub, show (e : ℤ) - 1075 + ((52 : ℕ) : ℤ) = (e : ℤ) - 1023 by push_cast; ring,
      finish64_spec s e m hs (by omega) hm]

theorem fputc_nofail (c : ℕ) (out : List ℕ) (err : Bool) :
    fputc c { out := out, err := err, fails := [] }
      = { out := out ++ [c % 256], err := err, fails := [] } := rfl

/-- With no failing write, `writedata64` appends the 8 octets of the 64-bit
word made of the low halves of `hilong` and `lowlong`, in the order asked for,
and returns the error indicator it found. -/
theorem writedata64_nofail (hilong lowlong : ℕ) (out : List ℕ) (err : Bool) (bigendian : Bool) :
    writedata64 hilong lowlong { out := out, err := err, fails := [] } bigendian
      = (if err then 1 else 0,
          { out := out ++ (if bigendian then be64 (hilong % 2 ^ 32 * 2 ^ 32 + lowlong % 2 ^ 32)
              else (be64 (hilong % 2 ^ 32 * 2 ^ 32 + lowlong % 2 ^ 32)).reverse),
            err := err, fails := [] }) := by
  have b1 : (hilong >>> 24 &&& 0xFF) % 256
      = (hilong % 2 ^ 32 * 2 ^ 32 + lowlong % 2 ^ 32) / 2 ^ 56 % 256 := by
    rw [and_255, Nat.shiftRight_eq_div_pow]; norm_num; omega
  have b2 : (hilong >>> 16 &&& 0xFF) % 256
      = (hilong % 2 ^ 32 * 2 ^ 32 + lowlong % 2 ^ 32) / 2 ^ 48 % 256 := by
    rw [and_255, Nat.shiftRight_eq_div_pow]; norm_num; omega
  have b3 : (hilong >>> 8 &&& 0xFF) % 256
      = (hilong % 2 ^ 32 * 2 ^ 32 + lowlong % 2 ^ 32) / 2 ^ 40 % 256 := by
    rw [and_255, Nat.shiftRight_eq_div_pow]; norm_num; omega
  have b4 : (hilong &&& 0xFF) % 256
      = (hilong % 2 ^ 32 * 2 ^ 32 + lowlong % 2 ^ 32) / 2 ^ 32 % 256 := by
    rw [and_255]; norm_num; omega
  have b5 : (lowlong >>> 24 &&& 0xFF) % 256
      = (hilong % 2 ^ 32 * 2 ^ 32 + lowlong % 2 ^ 32) / 2 ^ 24 % 256 := by
    rw [and_255, Nat.shiftRight_eq_div_pow]; norm_num; omega
  have b6 : (lowlong >>> 16 &&& 0xFF) % 256
      = (hilong % 2 ^ 32 * 2 ^ 32 + lowlong % 2 ^ 32) / 2 ^ 16 % 256 := by
    rw [and_255, Nat.shiftRight_eq_div_pow]; norm_num; omega
  have b7 : (lowlong >>> 8 &&& 0xFF) % 256
      = (hilong % 2 ^ 32 * 2 ^ 32 + lowlong % 2 ^ 32) / 2 ^ 8 % 256 := by
    rw [and_255, Nat.shiftRight_eq_div_pow]; norm_num; omega
  have b8 : (lowlong &&& 0xFF) % 256
      = (hilong % 2 ^ 32 * 2 ^ 32 + lowlong % 2 ^ 32) % 256 := by
    rw [and_255]; norm_num; omega
  cases bigendian
  · simp only [writedata64, fputc_nofail, ferror, Bool.false_eq_true, if_false, be64, b1, b2, b3,
      b4, b5, b6, b7, b8, List.append_assoc, List.singleton_append, List.reverse_cons,
      List.reverse_nil, List.nil_append, List.cons_append]
  · simp only [writedata64, fputc_nofail, ferror, if_true, be64, b1, b2, b3,
      b4, b5, b6, b7, b8, List.append_assoc, List.singleton_append, List.nil_append,
      List.cons_append]

theorem length_eight {b : List ℕ} (h : b.length = 8) :
    ∃ b0 b1 b2 b3 b4 b5 b6 b7, b = [b0, b1, b2, b3, b4, b5, b6, b7] := by
  match b, h with
  | [b0, b1, b2, b3, b4, b5, b6, b7], _ => exact ⟨b0, b1, b2, b3, b4, b5, b6, b7, rfl⟩

theorem length_four {b : List ℕ} (h : b.length = 4) :
    ∃ b0 b1 b2 b3, b = [b0, b1, b2, b3] := by
  match b, h with
  | [b0, b1, b2, b3], _ => exact ⟨b0, b1, b2, b3, rfl⟩

/-- Reading 8 octets in reverse order and running the reversal loop gives the
buffer read in direct order. -/
theorem reverseBuff_readBuff (b : List ℕ) (h : b.length = 8) :
    reverseBuff (readBuff 8 b.reverse) = readBuff 8 b := by
  obtain ⟨b0, b1, b2, b3, b4, b5, b6, b7, rfl⟩ := length_eight h
  simp [reverseBuff, swapStep, readBuff, fgetc]

/-- Byte-order symmetry of `freadieee754`. -/
theorem freadieee754_reverse (fuel : ℕ) (b : List ℕ) (h : b.length = 8) :
    freadieee754 fuel b.reverse false = freadieee754 fuel b true := by
  unfold freadieee754
  simp only [Bool.not_false, Bool.not_true, if_true, Bool.false_eq_true, if_false,
    reverseBuff_readBuff b h]

theorem and_255_shr (x : ℕ) : x >>> 8 = x / 256 := by
  rw [Nat.shiftRight_eq_div_pow]

/-- The reversal loop of `freadieee754f` undoes the reversal of the octets. -/
theorem reverseWord_readWord (b : List ℕ) (h : b.length = 4) :
    reverseWord 4 (readWord 4 0 b.reverse) 0 = readWord 4 0 b := by
  obtain ⟨b0, b1, b2, b3, rfl⟩ := length_four h
  have h0 := Nat.mod_lt b0 (by norm_num : 256 > 0)
  have h1 := Nat.mod_lt b1 (by norm_num : 256 > 0)
  have h2 := Nat.mod_lt b2 (by norm_num : 256 > 0)
  have h3 := Nat.mod_lt b3 (by norm_num : 256 > 0)
  simp only [List.reverse_cons, List.reverse_nil, List.nil_append, List.cons_append,
    readWord_four, reverseWord, and_255, and_255_shr]
  generalize b0 % 256 = x0 at h0 ⊢
  generalize b1 % 256 = x1 at h1 ⊢
  generalize b2 % 256 = x2 at h2 ⊢
  generalize b3 % 256 = x3 at h3 ⊢
  norm_num
  have e0 : (x3 * 16777216 + x2 * 65536 + x1 * 256 + x0) % 256 = x0 := by omega
  have e1 : (x3 * 16777216 + x2 * 65536 + x1 * 256 + x0) / 256 % 256 = x1 := by omega
  have e2 : (x3 * 16777216 + x2 * 65536 + x1 * 256 + x0) / 256 / 256 % 256 = x2 := by omega
  have e3 : (x3 * 16777216 + x2 * 65536 + x1 * 256 + x0) / 256 / 256 / 256 % 256 = x3 := by
    omega
  rw [e0, e1, e2, e3, shl8_or 0 x0 (by norm_num) h0, shl8_or (0 * 256 + x0) x1 (by omega) h1,
    shl8_or ((0 * 256 + x0) * 256 + x1) x2 (by omega) h2,
    shl8_or (((0 * 256 + x0) * 256 + x1) * 256 + x2) x3 (by omega) h3]
  omega

/-- Byte-order symmetry of `freadieee754f`. -/
theorem freadieee754f_reverse (fuel : ℕ) (b : List ℕ) (h : b.length = 4) :
    freadieee754f fuel b.reverse false = freadieee754f fuel b true := by
  unfold freadieee754f
  simp only [Bool.not_false, Bool.not_true, if_true, Bool.false_eq_true, if_false,
    reverseWord_readWord b h]

theorem dyadic_le_FLT_MAX (n : ℕ) (c : ℤ) (hn : n < 2 ^ 24) (hc : c ≤ 104) :
    (n : ℚ) * (2 : ℚ) ^ c ≤ FLT_MAX := by
  have h1 : (n : ℚ) ≤ 2 ^ 24 - 1 := by
    have h : (n : ℚ) + 1 ≤ 2 ^ 24 := by exact_mod_cast hn
    linarith
  have h2 : (2 : ℚ) ^ c ≤ (2 : ℚ) ^ (104 : ℤ) := zpow_le_zpow_right₀ (by norm_num) hc
  have h3 : ((2 : ℚ) ^ 24 - 1) * (2 : ℚ) ^ (104 : ℤ) = FLT_MAX := by
    unfold FLT_MAX
    rw [show (104 : ℤ) = ((104 : ℕ) : ℤ) by rfl, zpow_natCast]
    ring
  rw [← h3]
  exact mul_le_mul h1 h2 (by positivity) (by norm_num)

/-- The general case of `fwriteieee754f` on `±n * 2^c`, where `n` has `L+1`
bits: the special cases are passed and the value is normalised. -/
theorem pack32_general (s n L : ℕ) (c : ℤ) (hs : s < 2) (hL1 : 2 ^ L ≤ n)
    (hL2 : n < 2 ^ (L + 1)) (hL : L ≤ 23) (h1 : -149 ≤ c) (h2 : c ≤ 104)
    (fuel : ℕ) (hf : 1074 < fuel) :
    pack32 fuel (Fl.fin ((-1) ^ s * ((n : ℚ) * (2 : ℚ) ^ c))) =
      if c + L < -126 then
        match raiseLoop (-126) fuel (Fl.fin ((n : ℚ) * (2 : ℚ) ^ (-(L : ℤ)))) (c + L) with
        | none => none
        | some (fnorm, _) => some (finish32 s fnorm (-1023))
      else some (finish32 s
        (Fl.sub binary64 (Fl.fin ((n : ℚ) * (2 : ℚ) ^ (-(L : ℤ)))) (Fl.fin 1)) (c + L)) := by
  have hn24 : n < 2 ^ 24 :=
    lt_of_lt_of_le hL2 (Nat.pow_le_pow_right (by norm_num) (by omega))
  have hn0 : 0 < n := lt_of_lt_of_le (Nat.two_pow_pos L) hL1
  have hv : (0 : ℚ) < (n : ℚ) * (2 : ℚ) ^ c := by
    have : (0 : ℚ) < n := by exact_mod_cast hn0
    positivity
  have hD := dyadic_le_FLT_MAX n c hn24 h2
  have hnorm := normalise_spec n L c hL1 hL2 (by omega) (by omega) (by omega) fuel hf
  have hcast : Fl.cast binary64 (Fl.fin ((n : ℚ) * (2 : ℚ) ^ c)) = Fl.fin ((n : ℚ) * (2 : ℚ) ^ c) :=
    round64_dyadic _ n c (by omega) (by omega) (by omega) (by intro _; rfl)
  generalize hvdef : (n : ℚ) * (2 : ℚ) ^ c = v at hv hD hnorm hcast
  have hsh : ¬ (c + (L : ℤ) > 128) := by omega
  rcases (by omega : s = 0 ∨ s = 1) with rfl | rfl
  · have e0 : ((-1 : ℚ) ^ 0 * v) = v := by norm_num
    rw [e0]
    unfold pack32
    have c1 : ¬ (v = 0) := hv.ne'
    have c2 : ¬ (FLT_MAX < v) := not_lt.mpr hD
    have c3 : ¬ (v < -FLT_MAX) := by intro h; linarith
    have c4 : ¬ (v < 0) := not_lt.mpr hv.le
    simp only [eq_fin, Fl.gt, lt_fin, Fl.ne, c1, c2, c3, c4, decide_False, decide_True,
      Bool.false_eq_true, if_false, Bool.not_true, hcast]
    revert hnorm
    rcases halveLoop fuel (Fl.fin v) 0 with _ | ⟨f1, s1⟩
    · intro hnorm; simp at hnorm
    · simp only
      intro hnorm
      rw [hnorm]
      simp only [hsh, if_false]
  · have e0 : ((-1 : ℚ) ^ 1 * v) = -v := by norm_num
    rw [e0]
    unfold pack32
    have c1 : ¬ (-v = 0) := by intro h; linarith
    have c2 : ¬ (FLT_MAX < -v) := by intro h; linarith
    have c3 : ¬ (-v < -FLT_MAX) := by intro h; linarith
    have c4 : (-v < 0) := by linarith
    simp only [eq_fin, Fl.gt, lt_fin, Fl.ne, c1, c2, c3, c4, decide_False, decide_True,
      Bool.false_eq_true, if_false, if_true, Bool.not_true, Fl.neg, neg_neg, hcast]
    revert hnorm
    rcases halveLoop fuel (Fl.fin v) 0 with _ | ⟨f1, s1⟩
    · intro hnorm; simp at hnorm
    · simp only
      intro hnorm
      rw [hnorm]
      simp only [hsh, if_false]

/-- The tail of `fwriteieee754f` packs the fraction `m / 2^23` and the exponent
`e - 127` into the IEEE-754 fields. -/
theorem finish32_spec (s e m : ℕ) (hs : s < 2) (he : e < 256) (hm : m < 2 ^ 23) :
    finish32 s (Fl.fin ((m : ℚ) * (2 : ℚ) ^ (-23 : ℤ))) ((e : ℤ) - 127)
      = s * 2 ^ 31 + e * 2 ^ 23 + m := by
  have hq0 : (0 : ℚ) ≤ (m : ℚ) * (2 : ℚ) ^ (-23 : ℤ) := by positivity
  have hsig : Fl.mul binary64 (Fl.fin ((m : ℚ) * (2 : ℚ) ^ (-23 : ℤ))) (scale 23)
      = Fl.fin (m : ℚ) := by
    rw [scale_23, mul_fin]
    have e1 : (m : ℚ) * (2 : ℚ) ^ (-23 : ℤ) * 2 ^ 23 = (m : ℚ) := by
      rw [zpow_neg, ← zpow_natCast]
      field_simp
    have e2 : ¬ ((m : ℚ) * (2 : ℚ) ^ (-23 : ℤ) < 0) := not_lt.mpr hq0
    have e3 : ¬ ((2 : ℚ) ^ 23 < 0) := by norm_num
    simp only [e1, e2, e3, decide_False, Bool.xor_false]
    exact round64_exact _ _ m 0 (by omega) (by norm_num) (by norm_num)
      (by rw [abs_of_nonneg (by positivity)]; simp) (by intro _; rfl)
  have hexp : toULong (((e : ℤ) - (127 : ℤ)) + (((1 <<< (8 - 1) : ℕ) : ℤ) - 1)) = e := by
    have : (((1 <<< (8 - 1) : ℕ) : ℤ) - 1) = 127 := by decide
    rw [this]
    unfold toULong
    omega
  unfold finish32
  simp only [hsig, hexp, toLong_natCast]
  rw [toULong_natCast _ (by omega), show 31 - 8 = 23 by rfl,
    or_fields s e m 23 hs (by norm_num) (by norm_num; omega) hm]

/-- The word `fwriteieee754f` packs for a normal binary32 value. -/
theorem pack32_normal (s e m : ℕ) (hs : s < 2) (he1 : 1 ≤ e) (he2 : e ≤ 254) (hm : m < 2 ^ 23)
    (fuel : ℕ) (hf : 1074 < fuel) :
    pack32 fuel (Fl.fin (value32 s e m)) = some (word32 s e m) := by
  unfold value32 word32
  have he0 : e ≠ 0 := by omega
  simp only [he0, if_false]
  have hval : (-1 : ℚ) ^ s * ((1 + (m : ℚ) / 2 ^ 23) * (2 : ℚ) ^ ((e : ℤ) - 127))
      = (-1) ^ s * (((2 ^ 23 + m : ℕ) : ℚ) * (2 : ℚ) ^ ((e : ℤ) - 150)) := by
    rw [show (e : ℤ) - 127 = ((e : ℤ) - 150) + 23 by ring,
      zpow_add₀ (by norm_num : (2 : ℚ) ≠ 0)]
    push_cast
    rw [show (23 : ℤ) = ((23 : ℕ) : ℤ) by rfl, zpow_natCast]
    field_simp
    ring
  rw [hval, pack32_general s (2 ^ 23 + m) 23 ((e : ℤ) - 150) hs (by omega) (by omega) le_rfl
    (by omega) (by omega) fuel hf]
  have hlt : ¬ ((e : ℤ) - 150 + ((23 : ℕ) : ℤ) < -126) := by push_cast; omega
  simp only [hlt, if_false]
  have hsub : Fl.sub binary64 (Fl.fin (((2 ^ 23 + m : ℕ) : ℚ) * (2 : ℚ) ^ (-((23 : ℕ) : ℤ))))
      (Fl.fin 1) = Fl.fin ((m : ℚ) * (2 : ℚ) ^ (-23 : ℤ)) := by
    rw [sub_fin_nonneg _ _ _ (by positivity)]
    have : ((2 ^ 23 + m : ℕ) : ℚ) * (2 : ℚ) ^ (-((23 : ℕ) : ℤ)) - 1
        = (m : ℚ) * (2 : ℚ) ^ (-23 : ℤ) := by
      push_cast
      rw [zpow_neg, show (23 : ℤ) = ((23 : ℕ) : ℤ) by rfl, zpow_natCast]
      field_simp
      norm_num
    rw [this]
    exact round64_dyadic _ m _ (by omega) (by norm_num) (by norm_num) (by intro _; rfl)
  rw [hsub, show (e : ℤ) - 150 + ((23 : ℕ) : ℤ) = (e : ℤ) - 127 by push_cast; ring,
    finish32_spec s e m hs (by omega) hm]

/-- With no failing write, `writedata32` appends the 4 octets of the low half
of `buff`, in the order asked for. -/
theorem writedata32_nofail (buff : ℕ) (out : List ℕ) (err : Bool) (bigendian : Bool) :
    writedata32 buff { out := out, err := err, fails := [] } bigendian
      = (if err then 1 else 0,
          { out := out ++ (if bigendian then be32 (buff % 2 ^ 32)
              else (be32 (buff % 2 ^ 32)).reverse),
            err := err, fails := [] }) := by
  have b1 : (buff >>> 24 &&& 0xFF) % 256 = buff % 2 ^ 32 / 2 ^ 24 % 256 := by
    rw [and_255, Nat.shiftRight_eq_div_pow]; norm_num; omega
  have b2 : (buff >>> 16 &&& 0xFF) % 256 = buff % 2 ^ 32 / 2 ^ 16 % 256 := by
    rw [and_255, Nat.shiftRight_eq_div_pow]; norm_num; omega
  have b3 : (buff >>> 8 &&& 0xFF) % 256 = buff % 2 ^ 32 / 2 ^ 8 % 256 := by
    rw [and_255, Nat.shiftRight_eq_div_pow]; norm_num; omega
  have b4 : (buff &&& 0xFF) % 256 = buff % 2 ^ 32 % 256 := by
    rw [and_255]; norm_num
  cases bigendian
  · simp only [writedata32, fputc_nofail, ferror, Bool.false_eq_true, if_false, be32, b1, b2, b3,
      b4, List.append_assoc, List.singleton_append, List.reverse_cons,
      List.reverse_nil, List.nil_append, List.cons_append]
  · simp only [writedata32, fputc_nofail, ferror, if_true, be32, b1, b2, b3,
      b4, List.append_assoc, List.singleton_append, List.nil_append,
      List.cons_append]

theorem freadieee754_congr (fuel : ℕ) (b b' : List ℕ) (o : Bool)
    (h : readBuff 8 b = readBuff 8 b') : freadieee754 fuel b o = freadieee754 fuel b' o := by
  unfold freadieee754
  simp only [h]

theorem freadieee754f_congr (fuel : ℕ) (b b' : List ℕ) (o : Bool)
    (h : readWord 4 0 b = readWord 4 0 b') : freadieee754f fuel b o = freadieee754f fuel b' o := by
  unfold freadieee754f
  simp only [h]

/-- Every 8 octets are the octets of a 64-bit word split into the three
IEEE-754 fields. -/
theorem octets_eq_be64 (b0 b1 b2 b3 b4 b5 b6 b7 : ℕ) (h0 : b0 < 256) (h1 : b1 < 256)
    (h2 : b2 < 256) (h3 : b3 < 256) (h4 : b4 < 256) (h5 : b5 < 256) (h6 : b6 < 256)
    (h7 : b7 < 256) :
    ∃ s e m, s < 2 ∧ e < 2048 ∧ m < 2 ^ 52 ∧
      [b0, b1, b2, b3, b4, b5, b6, b7] = be64 (word64 s e m) := by
  refine ⟨b0 / 128, b0 % 128 * 16 + b1 / 16,
    b1 % 16 * 2 ^ 48 + b2 * 2 ^ 40 + b3 * 2 ^ 32 + b4 * 2 ^ 24 + b5 * 2 ^ 16 + b6 * 2 ^ 8 + b7,
    by omega, by omega, by norm_num; omega, ?_⟩
  simp only [be64, word64]
  norm_num
  refine ⟨?_, ?_, ?_, ?_, ?_, ?_, ?_, ?_⟩ <;> omega

/-- Every 4 octets are the octets of a 32-bit word split into the three
IEEE-754 fields. -/
theorem octets_eq_be32 (b0 b1 b2 b3 : ℕ) (h0 : b0 < 256) (h1 : b1 < 256)
    (h2 : b2 < 256) (h3 : b3 < 256) :
    ∃ s e m, s < 2 ∧ e < 256 ∧ m < 2 ^ 23 ∧ [b0, b1, b2, b3] = be32 (word32 s e m) := by
  refine ⟨b0 / 128, b0 % 128 * 2 + b1 / 128, b1 % 128 * 2 ^ 16 + b2 * 2 ^ 8 + b3,
    by omega, by omega, by norm_num; omega, ?_⟩
  simp only [be32, word32]
  norm_num
  refine ⟨?_, ?_, ?_, ?_⟩ <;> omega

/-- The full case analysis of `freadieee754` on the octets of
`word64 s e m`, given fuel for the subnormal loop. -/
theorem freadieee754_cases (s e m fuel : ℕ) (hs : s < 2) (he : e < 2048) (hm : m < 2 ^ 52)
    (hf : 52 < fuel) (rest : List ℕ) :
    freadieee754 fuel (be64 (word64 s e m) ++ rest) true =
      if e = 2047 then (if m ≠ 0 then some Fl.nan else some (Fl.inf (decide (s = 1))))
      else if e = 0 then
        (if m = 0 then some (Fl.fin 0)
          else some (Fl.fin ((-1) ^ s * ((m : ℚ) / 2 ^ 52) * (2 : ℚ) ^ (-1022 : ℤ))))
      else some (Fl.fin ((-1) ^ s * (1 + (m : ℚ) / 2 ^ 52) * (2 : ℚ) ^ ((e : ℤ) - 1023))) := by
  rw [freadieee754_fields s e m hs he hm]
  by_cases h1 : e = 2047
  · by_cases hm0 : m = 0
    · rcases (by omega : s = 0 ∨ s = 1) with h | h <;> simp [h1, hm0, h]
    · simp [h1, hm0]
  · by_cases h0 : e = 0
    · by_cases hm0 : m = 0
      · simp [h0, hm0]
      · simp only [h0, hm0, h1, and_false, false_and, if_false, lt_irrefl, if_true,
          show ¬ (0 = 2047) by decide]
        exact subnormal_value s m fuel hs hm0 hm hf
    · have hpos : 0 < e := by omega
      simp only [h0, h1, false_and, if_false, hpos, if_true]
      rw [normal_value s e m hs hpos (by omega) hm]

/-- The full case analysis of `freadieee754f` on the octets of
`word32 s e m`, given fuel for the subnormal loop. -/
theorem freadieee754f_cases (s e m fuel : ℕ) (hs : s < 2) (he : e < 256) (hm : m < 2 ^ 23)
    (hf : 23 < fuel) (rest : List ℕ) :
    freadieee754f fuel (be32 (word32 s e m) ++ rest) true =
      if e = 255 then (if m ≠ 0 then some Fl.nan else some (Fl.inf (decide (s = 1))))
      else if e = 0 then
        (if m = 0 then some (Fl.fin 0)
          else some (Fl.fin ((-1) ^ s * ((m : ℚ) / 2 ^ 23) * (2 : ℚ) ^ (-126 : ℤ))))
      else some (Fl.fin ((-1) ^ s * (1 + (m : ℚ) / 2 ^ 23) * (2 : ℚ) ^ ((e : ℤ) - 127))) := by
  rw [freadieee754f_fields s e m hs he hm]
  by_cases h1 : e = 255
  · by_cases hm0 : m = 0
    · rcases (by omega : s = 0 ∨ s = 1) with h | h <;> simp [h1, hm0, h]
    · simp [h1, hm0]
  · by_cases h0 : e = 0
    · by_cases hm0 : m = 0
      · simp [h0, hm0]
      · simp only [h0, hm0, h1, and_false, false_and, if_false, lt_irrefl, if_true,
          show ¬ (0 = 255) by decide]
        exact subnormal_value32 s m fuel hs hm0 hm hf
    · have hpos : 0 < e := by omega
      simp only [h0, h1, false_and, if_false, hpos, if_true]
      rw [normal_value32 s e m hs hpos (by omega) hm]

theorem readBuff_lt (b0 b1 b2 b3 b4 b5 b6 b7 : ℕ) :
    readBuff 8 [b0, b1, b2, b3, b4, b5, b6, b7]
      = [b0 % 256, b1 % 256, b2 % 256, b3 % 256, b4 % 256, b5 % 256, b6 % 256, b7 % 256] := by
  simp only [readBuff, fgetc]
  have h : ∀ x : ℕ, (((x % 256 : ℕ) : ℤ) % 256).toNat = x % 256 := by
    intro x; omega
  simp only [h]

/-- The decoder returns a value on every 8 octets, given fuel for the
subnormal loop. -/
theorem freadieee754_total (fuel : ℕ) (hf : 52 < fuel) (b : List ℕ) (h : b.length = 8) :
    ∃ v, freadieee754 fuel b true = some v := by
  obtain ⟨b0, b1, b2, b3, b4, b5, b6, b7, rfl⟩ := length_eight h
  have hlt : ∀ x : ℕ, x % 256 < 256 := fun x => Nat.mod_lt x (by norm_num)
  obtain ⟨s, e, m, hs, he, hm, hb⟩ := octets_eq_be64 _ _ _ _ _ _ _ _ (hlt b0) (hlt b1) (hlt b2)
    (hlt b3) (hlt b4) (hlt b5) (hlt b6) (hlt b7)
  have hc := freadieee754_congr fuel [b0, b1, b2, b3, b4, b5, b6, b7] (be64 (word64 s e m)) true
    (by
      have := readBuff_be64 (word64 s e m) []
      rw [List.append_nil] at this
      rw [readBuff_lt, this, hb])
  rw [hc]
  have := freadieee754_cases s e m fuel hs he hm hf []
  rw [List.append_nil] at this
  rw [this]
  split_ifs <;> exact ⟨_, rfl⟩

/-- The decoder returns a value on every 4 octets, given fuel for the
subnormal loop. -/
theorem freadieee754f_total (fuel : ℕ) (hf : 23 < fuel) (b : List ℕ) (h : b.length = 4) :
    ∃ v, freadieee754f fuel b true = some v := by
  obtain ⟨b0, b1, b2, b3, rfl⟩ := length_four h
  have hlt : ∀ x : ℕ, x % 256 < 256 := fun x => Nat.mod_lt x (by norm_num)
  obtain ⟨s, e, m, hs, he, hm, hb⟩ := octets_eq_be32 _ _ _ _ (hlt b0) (hlt b1) (hlt b2) (hlt b3)
  obtain ⟨hw, -, -, -⟩ := word32_fields s e m hs he hm
  have hc := freadieee754f_congr fuel [b0, b1, b2, b3] (be32 (word32 s e m)) true
    (by
      have h1 := readWord_be32 (word32 s e m) hw []
      rw [List.append_nil] at h1
      rw [h1, readWord_four]
      have h2 := congrArg (fun l => readWord 4 0 l) hb
      simp only [readWord_four, Nat.mod_mod] at h2
      have h3 := readWord_be32 (word32 s e m) hw []
      rw [List.append_nil] at h3
      rw [h3] at h2
      exact h2)
  rw [hc]
  have := freadieee754f_cases s e m fuel hs he hm hf []
  rw [List.append_nil] at this
  rw [this]
  split_ifs <;> exact ⟨_, rfl⟩

theorem value64_zero (s : ℕ) : value64 s 0 0 = 0 := by
  simp [value64]

theorem value32_zero (s : ℕ) : value32 s 0 0 = 0 := by
  simp [value32]

/-- On the octets of a word whose exponent field is not all-ones,
`freadieee754` returns the IEEE-754 value of the fields. -/
theorem freadieee754_value64 (s e m fuel : ℕ) (hs : s < 2) (he : e < 2047) (hm : m < 2 ^ 52)
    (hf : 52 < fuel) :
    freadieee754 fuel (be64 (word64 s e m)) true = some (Fl.fin (value64 s e m)) := by
  have := freadieee754_cases s e m fuel hs (by omega) hm hf []
  rw [List.append_nil] at this
  rw [this]
  have h1 : e ≠ 2047 := by omega
  simp only [h1, if_false]
  unfold value64
  by_cases h0 : e = 0
  · by_cases hm0 : m = 0
    · simp [h0, hm0]
    · simp only [h0, hm0, if_true, if_false]
      congr 2
      rw [show (-1074 : ℤ) = (-52 : ℤ) + (-1022) by norm_num,
        zpow_add₀ (by norm_num : (2 : ℚ) ≠ 0)]
      have h52 : (2 : ℚ) ^ (-52 : ℤ) = 1 / 2 ^ 52 := by
        rw [zpow_neg, one_div, ← zpow_natCast]; rfl
      rw [h52]
      generalize (2 : ℚ) ^ (-1022 : ℤ) = t
      ring
  · simp only [h0, if_false]
    congr 2
    ring

/-- On the octets of a word whose exponent field is not all-ones,
`freadieee754f` returns the IEEE-754 value of the fields. -/
theorem freadieee754f_value32 (s e m fuel : ℕ) (hs : s < 2) (he : e < 255) (hm : m < 2 ^ 23)
    (hf : 23 < fuel) :
    freadieee754f fuel (be32 (word32 s e m)) true = some (Fl.fin (value32 s e m)) := by
  have := freadieee754f_cases s e m fuel hs (by omega) hm hf []
  rw [List.append_nil] at this
  rw [this]
  have h1 : e ≠ 255 := by omega
  simp only [h1, if_false]
  unfold value32
  by_cases h0 : e = 0
  · by_cases hm0 : m = 0
    · simp [h0, hm0]
    · simp only [h0, hm0, if_true, if_false]
      congr 2
      rw [show (-149 : ℤ) = (-23 : ℤ) + (-126) by norm_num,
        zpow_add₀ (by norm_num : (2 : ℚ) ≠ 0)]
      have h23 : (2 : ℚ) ^ (-23 : ℤ) = 1 / 2 ^ 23 := by
        rw [zpow_neg, one_div, ← zpow_natCast]; rfl
      rw [h23]
      generalize (2 : ℚ) ^ (-126 : ℤ) = t
      ring
  · simp only [h0, if_false]
    congr 2
    ring

/-- What `fwriteieee754` emits for a finite nonzero binary64 value, with no
failing write. -/
theorem fwriteieee754_value64 (s e m fuel : ℕ) (bigendian : Bool) (hs : s < 2) (he : e < 2047)
    (hm : m < 2 ^ 52) (hnz : e ≠ 0 ∨ m ≠ 0) (hf : 1074 < fuel) :
    fwriteieee754 fuel (Fl.fin (value64 s e m)) emptySink bigendian
      = some (0, { out := if bigendian then be64 (word64 s e m)
                     else (be64 (word64 s e m)).reverse,
                   err := false, fails := [] }) := by
  unfold fwriteieee754
  rw [pack64_spec s e m hs he hm hnz fuel hf]
  simp only [emptySink, writedata64_nofail, Bool.false_eq_true, if_false, List.nil_append]
  have hw : (s * 2 ^ 31 + e * 2 ^ 20 + m / 2 ^ 32) % 2 ^ 32 * 2 ^ 32 + m % 2 ^ 32 % 2 ^ 32
      = word64 s e m := by
    unfold word64
    norm_num at hm ⊢
    omega
  rw [hw]

/-- What `fwriteieee754` emits for a zero of either sign. -/
theorem fwriteieee754_zero (x : Fl) (hx : x = Fl.fin 0 ∨ x = Fl.nzero) (fuel : ℕ)
    (bigendian : Bool) :
    fwriteieee754 fuel x emptySink bigendian
      = some (0, { out := be64 (word64 0 0 0), err := false, fails := [] }) := by
  have hp : pack64 fuel x = some (0, 0) := by
    rcases hx with rfl | rfl <;> simp [pack64, Fl.eq, Fl.val]
  unfold fwriteieee754
  rw [hp]
  simp only [emptySink, writedata64_nofail, Bool.false_eq_true, if_false, List.nil_append]
  cases bigendian <;> simp [be64, word64]

/-- What `fwriteieee754f` emits for a normal binary32 value, with no failing
write. -/
theorem fwriteieee754f_value32 (s e m fuel : ℕ) (bigendian : Bool) (hs : s < 2) (he1 : 1 ≤ e)
    (he2 : e ≤ 254) (hm : m < 2 ^ 23) (hf : 1074 < fuel) :
    fwriteieee754f fuel (Fl.fin (value32 s e m)) emptySink bigendian
      = some (0, { out := if bigendian then be32 (word32 s e m)
                     else (be32 (word32 s e m)).reverse,
                   err := false, fails := [] }) := by
  unfold fwriteieee754f
  rw [pack32_normal s e m hs he1 he2 hm fuel hf]
  obtain ⟨hw, -, -, -⟩ := word32_fields s e m hs (by omega) hm
  simp only [emptySink, writedata32_nofail, Bool.false_eq_true, if_false, List.nil_append,
    Nat.mod_eq_of_lt hw]

/-- What `fwriteieee754f` emits for a zero of either sign. -/
theorem fwriteieee754f_zero (x : Fl) (hx : x = Fl.fin 0 ∨ x = Fl.nzero) (fuel : ℕ)
    (bigendian : Bool) :
    fwriteieee754f fuel x emptySink bigendian
      = some (0, { out := be32 (word32 0 0 0), err := false, fails := [] }) := by
  have hp : pack32 fuel x = some 0 := by
    rcases hx with rfl | rfl <;> simp [pack32, Fl.eq, Fl.val]
  unfold fwriteieee754f
  rw [hp]
  simp only [emptySink, writedata32_nofail, Bool.false_eq_true, if_false, List.nil_append]
  cases bigendian <;> simp [be32, word32]

theorem be64_length (w : ℕ) : (be64 w).length = 8 := rfl

theorem be32_length (w : ℕ) : (be32 w).length = 4 := rfl

/-- Decoding, in either byte order, the octets of a word laid out in that
order. -/
theorem freadieee754_order (fuel w : ℕ) (bigendian : Bool) :
    freadieee754 fuel (if bigendian then be64 w else (be64 w).reverse) bigendian
      = freadieee754 fuel (be64 w) true := by
  cases bigendian
  · simp only [Bool.false_eq_true, if_false]
    exact freadieee754_reverse fuel (be64 w) (be64_length w)
  · simp only [if_true]

/-- Decoding, in either byte order, the octets of a word laid out in that
order. -/
theorem freadieee754f_order (fuel w : ℕ) (bigendian : Bool) :
    freadieee754f fuel (if bigendian then be32 w else (be32 w).reverse) bigendian
      = freadieee754f fuel (be32 w) true := by
  cases bigendian
  · simp only [Bool.false_eq_true, if_false]
    exact freadieee754f_reverse fuel (be32 w) (be32_length w)
  · simp only [if_true]

/-! ## The claims -/

/-- C1 (round trip, 64-bit). For every finite binary64 value `x`, given by its
sign bit `s`, exponent field `e ≤ 2046` and significand field `m < 2^52` (zero,
subnormal or normal, up to `±DBL_MAX`), and for both byte orders,
`fwriteieee754` succeeds and emits 8 octets, and `freadieee754` on those octets
in the same byte order returns exactly `x`. For `x = -0.0` the octets read back
as `+0.0`, which the host comparison `==` finds equal to `x`. -/
theorem roundtrip64 (s e m fuel : ℕ) (bigendian : Bool) (hs : s < 2) (he : e ≤ 2046)
    (hm : m < 2 ^ 52) (hf : 1074 < fuel) :
    (∃ snk, fwriteieee754 fuel (Fl.fin (value64 s e m)) emptySink bigendian = some (0, snk) ∧
      snk.out.length = 8 ∧
      freadieee754 fuel snk.out bigendian = some (Fl.fin (value64 s e m))) ∧
    (∃ snk, fwriteieee754 fuel Fl.nzero emptySink bigendian = some (0, snk) ∧
      snk.out.length = 8 ∧
      freadieee754 fuel snk.out bigendian = some (Fl.fin 0) ∧
      Fl.eq Fl.nzero (Fl.fin 0) = true) := by
  have hzero : ∀ x : Fl, x = Fl.fin 0 ∨ x = Fl.nzero →
      ∃ snk, fwriteieee754 fuel x emptySink bigendian = some (0, snk) ∧
        snk.out.length = 8 ∧ freadieee754 fuel snk.out bigendian = some (Fl.fin 0) := by
    intro x hx
    refine ⟨_, fwriteieee754_zero x hx fuel bigendian, rfl, ?_⟩
    have h1 : be64 (word64 0 0 0) = if bigendian then be64 (word64 0 0 0)
        else (be64 (word64 0 0 0)).reverse := by
      cases bigendian <;> simp [be64, word64]
    show freadieee754 fuel (be64 (word64 0 0 0)) bigendian = _
    rw [h1, freadieee754_order,
      freadieee754_value64 0 0 0 fuel (by norm_num) (by norm_num) (by norm_num) (by omega),
      value64_zero]
  constructor
  · by_cases hnz : e ≠ 0 ∨ m ≠ 0
    · refine ⟨_, fwriteieee754_value64 s e m fuel bigendian hs (by omega) hm hnz hf, ?_, ?_⟩
      · cases bigendian <;> simp [be64]
      · show freadieee754 fuel (if bigendian then be64 (word64 s e m)
          else (be64 (word64 s e m)).reverse) bigendian = _
        rw [freadieee754_order, freadieee754_value64 s e m fuel hs (by omega) hm (by omega)]
    · have he0 : e = 0 := by omega
      have hm0 : m = 0 := by omega
      subst he0 hm0
      rw [value64_zero]
      exact hzero (Fl.fin 0) (Or.inl rfl)
  · obtain ⟨snk, h1, h2, h3⟩ := hzero Fl.nzero (Or.inr rfl)
    exact ⟨snk, h1, h2, h3, by decide⟩

/-- Witness of C1: the value `-(1 + 5/2^52) * 2`, little-endian. -/
theorem roundtrip64_witness :
    (1 < 2 ∧ 1024 ≤ 2046 ∧ 5 < 2 ^ 52 ∧ 1074 < 2000) ∧
    (∃ snk, fwriteieee754 2000 (Fl.fin (value64 1 1024 5)) emptySink false = some (0, snk) ∧
      snk.out.length = 8 ∧
      freadieee754 2000 snk.out false = some (Fl.fin (value64 1 1024 5))) ∧
    (∃ snk, fwriteieee754 2000 Fl.nzero emptySink false = some (0, snk) ∧
      snk.out.length = 8 ∧
      freadieee754 2000 snk.out false = some (Fl.fin 0) ∧
      Fl.eq Fl.nzero (Fl.fin 0) = true) :=
  ⟨by decide, roundtrip64 1 1024 5 2000 false (by decide) (by decide) (by decide) (by decide)⟩

/-- C2 (wire format, 64-bit encoder). For a normal value
`(-1)^s * (1 + m/2^52) * 2^(e-1023)` with `1 ≤ e ≤ 2046`, and for a subnormal
value `(-1)^s * m * 2^(-1074)` with `1 ≤ m` (exponent field 0), big-endian
`fwriteieee754` succeeds and emits exactly the 8 octets of the word
`s*2^63 + e*2^52 + m`, most significant first. -/
theorem fwriteieee754_wire_format (s e m fuel : ℕ) (hs : s < 2) (he : e ≤ 2046)
    (hm : m < 2 ^ 52) (hf : 1074 < fuel) :
    (1 ≤ e →
      fwriteieee754 fuel
        (Fl.fin ((-1) ^ s * (1 + (m : ℚ) / 2 ^ 52) * (2 : ℚ) ^ ((e : ℤ) - 1023))) emptySink true
        = some (0, { out := be64 (s * 2 ^ 63 + e * 2 ^ 52 + m), err := false, fails := [] })) ∧
    (1 ≤ m →
      fwriteieee754 fuel (Fl.fin ((-1) ^ s * (m : ℚ) * (2 : ℚ) ^ (-1074 : ℤ))) emptySink true
        = some (0, { out := be64 (s * 2 ^ 63 + 0 * 2 ^ 52 + m), err := false, fails := [] })) := by
  constructor
  · intro he1
    have h := fwriteieee754_value64 s e m fuel true hs (by omega) hm (Or.inl (by omega)) hf
    have hv : value64 s e m = (-1) ^ s * (1 + (m : ℚ) / 2 ^ 52) * (2 : ℚ) ^ ((e : ℤ) - 1023) := by
      unfold value64
      simp only [show e ≠ 0 by omega, if_false]
      ring
    rw [hv] at h
    exact h
  · intro hm1
    have h := fwriteieee754_value64 s 0 m fuel true hs (by norm_num) hm (Or.inr (by omega)) hf
    have hv : value64 s 0 m = (-1) ^ s * (m : ℚ) * (2 : ℚ) ^ (-1074 : ℤ) := by
      unfold value64
      simp only [if_true]
      ring
    rw [hv] at h
    exact h

/-- Witness of C2: `-DBL_MAX` (`s = 1`, `e = 2046`, `m = 2^52 - 1`) and the
largest negative subnormal. -/
theorem fwriteieee754_wire_format_witness :
    (1 < 2 ∧ 2046 ≤ 2046 ∧ 2 ^ 52 - 1 < 2 ^ 52 ∧ 1074 < 1075 ∧ 1 ≤ 2046 ∧ 1 ≤ 2 ^ 52 - 1) ∧
    fwriteieee754 1075
        (Fl.fin ((-1) ^ 1 * (1 + ((2 ^ 52 - 1 : ℕ) : ℚ) / 2 ^ 52) * (2 : ℚ) ^ (((2046 : ℕ) : ℤ) - 1023)))
        emptySink true
      = some (0, { out := be64 (1 * 2 ^ 63 + 2046 * 2 ^ 52 + (2 ^ 52 - 1)), err := false,
                   fails := [] }) ∧
    fwriteieee754 1075 (Fl.fin ((-1) ^ 1 * ((2 ^ 52 - 1 : ℕ) : ℚ) * (2 : ℚ) ^ (-1074 : ℤ)))
        emptySink true
      = some (0, { out := be64 (1 * 2 ^ 63 + 0 * 2 ^ 52 + (2 ^ 52 - 1)), err := false,
                   fails := [] }) :=
  ⟨by decide,
    (fwriteieee754_wire_format 1 2046 (2 ^ 52 - 1) 1075 (by decide) (by decide) (by decide)
      (by decide)).1 (by decide),
    (fwriteieee754_wire_format 1 2046 (2 ^ 52 - 1) 1075 (by decide) (by decide) (by decide)
      (by decide)).2 (by decide)⟩

/-- C3 (normalized decode, 64-bit). On the 8 big-endian octets of the word with
sign bit `s`, exponent field `1 ≤ e ≤ 2046` and significand field `m`,
`freadieee754` returns exactly `(-1)^s * (1 + m/2^52) * 2^(e-1023)`. The octets
`40 09 21 FB 54 44 2D 18` decode to a value within `1e-9` of
`3.14159265358979`. -/
theorem freadieee754_normal (s e m fuel : ℕ) (hs : s < 2) (he1 : 1 ≤ e) (he2 : e ≤ 2046)
    (hm : m < 2 ^ 52) :
    freadieee754 fuel (be64 (s * 2 ^ 63 + e * 2 ^ 52 + m)) true
      = some (Fl.fin ((-1) ^ s * (1 + (m : ℚ) / 2 ^ 52) * (2 : ℚ) ^ ((e : ℤ) - 1023))) ∧
    ∃ q : ℚ, freadieee754 fuel [0x40, 0x09, 0x21, 0xFB, 0x54, 0x44, 0x2D, 0x18] true
      = some (Fl.fin q) ∧ |q - 3.14159265358979| < 1e-9 := by
  have key : ∀ s e m : ℕ, s < 2 → 1 ≤ e → e ≤ 2046 → m < 2 ^ 52 →
      freadieee754 fuel (be64 (s * 2 ^ 63 + e * 2 ^ 52 + m)) true
        = some (Fl.fin ((-1) ^ s * (1 + (m : ℚ) / 2 ^ 52) * (2 : ℚ) ^ ((e : ℤ) - 1023))) := by
    intro s e m hs he1 he2 hm
    have h := freadieee754_fields s e m hs (by omega) hm fuel []
    rw [List.append_nil] at h
    have h0 : ¬ (e = 0 ∧ m = 0) := by omega
    have h1 : ¬ (e = 2047 ∧ m ≠ 0) := by omega
    have h2 : ¬ (e = 2047 ∧ m = 0) := by omega
    simp only [h0, h1, h2, if_false, show 0 < e by omega, if_true] at h
    rw [normal_value s e m hs (by omega) (by omega) hm] at h
    exact h
  refine ⟨key s e m hs he1 he2 hm,
    (-1) ^ 0 * (1 + ((0x921FB54442D18 : ℕ) : ℚ) / 2 ^ 52) * (2 : ℚ) ^ (((1024 : ℕ) : ℤ) - 1023),
    ?_, ?_⟩
  · have hb : [0x40, 0x09, 0x21, 0xFB, 0x54, 0x44, 0x2D, 0x18]
        = be64 (0 * 2 ^ 63 + 1024 * 2 ^ 52 + 0x921FB54442D18) := by decide
    rw [hb]
    exact key 0 1024 0x921FB54442D18 (by decide) (by decide) (by decide) (by decide)
  · norm_num [abs_lt]

/-- Witness of C3: the smallest normal exponent field, `e = 1`. -/
theorem freadieee754_normal_witness :
    (1 < 2 ∧ 1 ≤ 1 ∧ 1 ≤ 2046 ∧ 7 < 2 ^ 52) ∧
    freadieee754 0 (be64 (1 * 2 ^ 63 + 1 * 2 ^ 52 + 7)) true
      = some (Fl.fin ((-1) ^ 1 * (1 + ((7 : ℕ) : ℚ) / 2 ^ 52) * (2 : ℚ) ^ (((1 : ℕ) : ℤ) - 1023))) ∧
    ∃ q : ℚ, freadieee754 0 [0x40, 0x09, 0x21, 0xFB, 0x54, 0x44, 0x2D, 0x18] true
      = some (Fl.fin q) ∧ |q - 3.14159265358979| < 1e-9 :=
  ⟨by decide, freadieee754_normal 1 1 7 0 (by decide) (by decide) (by decide) (by decide)⟩

set_option maxRecDepth 1000000 in
/-- C4 (subnormal encode, 32-bit), evaluated at the smallest positive binary32
subnormal `x = 2^(-149)`: big-endian `fwriteieee754f` emits `40 00 00 01`
(exponent field 128, from `shift = -1023`), which `freadieee754f` reads back as
`2 * (1 + 2^(-23))`; the octets `00 00 00 01` are the ones that read back as
`x`. -/
theorem fwriteieee754f_subnormal_exponent :
    fwriteieee754f 200 (Fl.fin ((2 : ℚ) ^ (-149 : ℤ))) emptySink true
      = some (0, { out := [0x40, 0x00, 0x00, 0x01], err := false, fails := [] }) ∧
    freadieee754f 200 [0x40, 0x00, 0x00, 0x01] true = some (Fl.fin (8388609 / 4194304)) ∧
    freadieee754f 200 [0x00, 0x00, 0x00, 0x01] true = some (Fl.fin ((2 : ℚ) ^ (-149 : ℤ))) := by
  decide!

/-- C5 (round trip, 32-bit). For every binary32 value `x` that is zero or
normal, given by its sign bit `s`, exponent field `e ≤ 254` and significand
field `m < 2^23` (with `m = 0` when `e = 0`), and for both byte orders,
`fwriteieee754f` succeeds and emits 4 octets, and `freadieee754f` on those
octets in the same byte order returns exactly `x`. For `x = -0.0` the octets
read back as `+0.0`, which the host comparison `==` finds equal to `x`. -/
theorem roundtrip32 (s e m fuel : ℕ) (bigendian : Bool) (hs : s < 2) (he : e ≤ 254)
    (hm : m < 2 ^ 23) (hnorm : 1 ≤ e ∨ m = 0) (hf : 1074 < fuel) :
    (∃ snk, fwriteieee754f fuel (Fl.fin (value32 s e m)) emptySink bigendian = some (0, snk) ∧
      snk.out.length = 4 ∧
      freadieee754f fuel snk.out bigendian = some (Fl.fin (value32 s e m))) ∧
    (∃ snk, fwriteieee754f fuel Fl.nzero emptySink bigendian = some (0, snk) ∧
      snk.out.length = 4 ∧
      freadieee754f fuel snk.out bigendian = some (Fl.fin 0) ∧
      Fl.eq Fl.nzero (Fl.fin 0) = true) := by
  have hzero : ∀ x : Fl, x = Fl.fin 0 ∨ x = Fl.nzero →
      ∃ snk, fwriteieee754f fuel x emptySink bigendian = some (0, snk) ∧
        snk.out.length = 4 ∧ freadieee754f fuel snk.out bigendian = some (Fl.fin 0) := by
    intro x hx
    refine ⟨_, fwriteieee754f_zero x hx fuel bigendian, rfl, ?_⟩
    have h1 : be32 (word32 0 0 0) = if bigendian then be32 (word32 0 0 0)
        else (be32 (word32 0 0 0)).reverse := by
      cases bigendian <;> simp [be32, word32]
    show freadieee754f fuel (be32 (word32 0 0 0)) bigendian = _
    rw [h1, freadieee754f_order,
      freadieee754f_value32 0 0 0 fuel (by norm_num) (by norm_num) (by norm_num) (by omega),
      value32_zero]
  constructor
  · by_cases he1 : 1 ≤ e
    · refine ⟨_, fwriteieee754f_value32 s e m fuel bigendian hs he1 he hm hf, ?_, ?_⟩
      · cases bigendian <;> simp [be32]
      · show freadieee754f fuel (if bigendian then be32 (word32 s e m)
          else (be32 (word32 s e m)).reverse) bigendian = _
        rw [freadieee754f_order, freadieee754f_value32 s e m fuel hs (by omega) hm (by omega)]
    · have he0 : e = 0 := by omega
      have hm0 : m = 0 := by omega
      subst he0 hm0
      rw [value32_zero]
      exact hzero (Fl.fin 0) (Or.inl rfl)
  · obtain ⟨snk, h1, h2, h3⟩ := hzero Fl.nzero (Or.inr rfl)
    exact ⟨snk, h1, h2, h3, by decide⟩

/-- Witness of C5: `-FLT_MAX` (`s = 1`, `e = 254`, `m = 2^23 - 1`),
little-endian. -/
theorem roundtrip32_witness :
    (1 < 2 ∧ 254 ≤ 254 ∧ 2 ^ 23 - 1 < 2 ^ 23 ∧ 1 ≤ 254 ∧ 1074 < 1075) ∧
    (∃ snk, fwriteieee754f 1075 (Fl.fin (value32 1 254 (2 ^ 23 - 1))) emptySink false
        = some (0, snk) ∧
      snk.out.length = 4 ∧
      freadieee754f 1075 snk.out false = some (Fl.fin (value32 1 254 (2 ^ 23 - 1)))) ∧
    (∃ snk, fwriteieee754f 1075 Fl.nzero emptySink false = some (0, snk) ∧
      snk.out.length = 4 ∧
      freadieee754f 1075 snk.out false = some (Fl.fin 0) ∧
      Fl.eq Fl.nzero (Fl.fin 0) = true) :=
  ⟨by decide, roundtrip32 1 254 (2 ^ 23 - 1) 1075 false (by decide) (by decide) (by decide)
    (Or.inl (by decide)) (by decide)⟩

/-- C6 (subnormal decode, 64-bit). On the 8 big-endian octets of the word with
sign bit `s`, exponent field 0 and significand field `m ≠ 0`, `freadieee754`
returns exactly `(-1)^s * (m/2^52) * 2^(-1022)`, which is `(-1)^s * m *
2^(-1074)`: the doubling loop, seeded at exponent `-1022`, stops after
`k ≤ 52` passes with a fraction `f` in `[1, 2)` and `f * 2^(-1022-k)` equal to
`(m/2^52) * 2^(-1022)`. -/
theorem freadieee754_subnormal (s m fuel : ℕ) (hs : s < 2) (hm0 : 1 ≤ m) (hm : m < 2 ^ 52)
    (hf : 52 < fuel) :
    freadieee754 fuel (be64 (s * 2 ^ 63 + 0 * 2 ^ 52 + m)) true
      = some (Fl.fin ((-1) ^ s * ((m : ℚ) / 2 ^ 52) * (2 : ℚ) ^ (-1022 : ℤ))) ∧
    (-1 : ℚ) ^ s * ((m : ℚ) / 2 ^ 52) * (2 : ℚ) ^ (-1022 : ℤ)
      = (-1) ^ s * (m : ℚ) * (2 : ℚ) ^ (-1074 : ℤ) ∧
    ∃ (k : ℕ) (f : ℚ), k ≤ 52 ∧ 1 ≤ f ∧ f < 2 ∧
      doubleLoop fuel (Fl.fin ((m : ℚ) / 2 ^ 52)) (-1022) = some (Fl.fin f, -1022 - (k : ℤ)) ∧
      f * (2 : ℚ) ^ (-1022 - (k : ℤ)) = (m : ℚ) / 2 ^ 52 * (2 : ℚ) ^ (-1022 : ℤ) := by
  have h20 : (2 : ℚ) ≠ 0 := by norm_num
  have h52 : (2 : ℚ) ^ (-52 : ℤ) = 1 / 2 ^ 52 := by
    rw [zpow_neg, one_div, ← zpow_natCast]; rfl
  refine ⟨?_, ?_, ?_⟩
  · have := freadieee754_cases s 0 m fuel hs (by norm_num) hm hf []
    rw [List.append_nil] at this
    simp only [show ¬ (0 = 2047) by decide, if_false, if_true, show m ≠ 0 by omega] at this
    exact this
  · rw [show (-1074 : ℤ) = (-52 : ℤ) + (-1022) by norm_num, zpow_add₀ h20, h52]
    generalize (2 : ℚ) ^ (-1022 : ℤ) = t
    ring
  · have hm0' : m ≠ 0 := by omega
    have hL1 : 2 ^ Nat.log2 m ≤ m := Nat.log2_self_le hm0'
    have hL2 : m < 2 ^ (Nat.log2 m + 1) := Nat.lt_log2_self
    have hL : Nat.log2 m < 52 := (Nat.log2_lt hm0').mpr hm
    obtain ⟨k, hk⟩ : ∃ k, Nat.log2 m + k = 52 := ⟨52 - Nat.log2 m, by omega⟩
    have hLpos : (0 : ℚ) < (2 : ℚ) ^ (Nat.log2 m : ℤ) := zpow_pos (by norm_num) _
    refine ⟨k, (m : ℚ) * (2 : ℚ) ^ (-(Nat.log2 m : ℤ)), by omega, ?_, ?_, ?_, ?_⟩
    · rw [zpow_neg, ← div_eq_mul_inv, le_div_iff₀ hLpos, one_mul, zpow_natCast]
      exact_mod_cast hL1
    · rw [zpow_neg, ← div_eq_mul_inv, div_lt_iff₀ hLpos, zpow_natCast]
      have : (m : ℚ) < 2 ^ (Nat.log2 m + 1) := by exact_mod_cast hL2
      rw [pow_succ] at this
      linarith
    · have hstart : (m : ℚ) / 2 ^ 52 = (m : ℚ) * (2 : ℚ) ^ (-((Nat.log2 m + k : ℕ) : ℤ)) := by
        rw [hk, div_eq_mul_inv, zpow_neg, ← zpow_natCast]
      rw [hstart]
      exact doubleLoop_spec m (Nat.log2 m) hL1 hL2 (by omega) k (by omega) fuel (-1022) (by omega)
    · rw [mul_assoc, ← zpow_add₀ h20, show (-(Nat.log2 m : ℤ)) + (-1022 - (k : ℤ)) = -52 + -1022
        by omega, zpow_add₀ h20, h52]
      ring

/-- Witness of C6: the largest negative subnormal, `m = 2^52 - 1`. -/
theorem freadieee754_subnormal_witness :
    (1 < 2 ∧ 1 ≤ 2 ^ 52 - 1 ∧ 2 ^ 52 - 1 < 2 ^ 52 ∧ 52 < 53) ∧
    freadieee754 53 (be64 (1 * 2 ^ 63 + 0 * 2 ^ 52 + (2 ^ 52 - 1))) true
      = some (Fl.fin ((-1) ^ 1 * (((2 ^ 52 - 1 : ℕ) : ℚ) / 2 ^ 52) * (2 : ℚ) ^ (-1022 : ℤ))) ∧
    (-1 : ℚ) ^ 1 * (((2 ^ 52 - 1 : ℕ) : ℚ) / 2 ^ 52) * (2 : ℚ) ^ (-1022 : ℤ)
      = (-1) ^ 1 * ((2 ^ 52 - 1 : ℕ) : ℚ) * (2 : ℚ) ^ (-1074 : ℤ) ∧
    ∃ (k : ℕ) (f : ℚ), k ≤ 52 ∧ 1 ≤ f ∧ f < 2 ∧
      doubleLoop 53 (Fl.fin (((2 ^ 52 - 1 : ℕ) : ℚ) / 2 ^ 52)) (-1022)
        = some (Fl.fin f, -1022 - (k : ℤ)) ∧
      f * (2 : ℚ) ^ (-1022 - (k : ℤ)) = ((2 ^ 52 - 1 : ℕ) : ℚ) / 2 ^ 52 * (2 : ℚ) ^ (-1022 : ℤ) :=
  ⟨by decide,
    freadieee754_subnormal 1 (2 ^ 52 - 1) 53 (by decide) (by decide) (by decide) (by decide)⟩

/-- C7 (finite decode, 32-bit). On the 4 big-endian octets of the word with
sign bit `s`, exponent field `e ≠ 255` and significand field `m`,
`freadieee754f` returns exactly the IEEE-754 binary32 value:
`(-1)^s * (1 + m/2^23) * 2^(e-127)` when `1 ≤ e`, `(-1)^s * m * 2^(-149)` when
`e = 0` and `m ≠ 0`, and zero when `e = 0` and `m = 0`. -/
theorem freadieee754f_finite (s e m fuel : ℕ) (hs : s < 2) (he : e ≤ 254) (hm : m < 2 ^ 23)
    (hf : 23 < fuel) :
    (1 ≤ e → freadieee754f fuel (be32 (s * 2 ^ 31 + e * 2 ^ 23 + m)) true
      = some (Fl.fin ((-1) ^ s * (1 + (m : ℚ) / 2 ^ 23) * (2 : ℚ) ^ ((e : ℤ) - 127)))) ∧
    (e = 0 → m ≠ 0 → freadieee754f fuel (be32 (s * 2 ^ 31 + e * 2 ^ 23 + m)) true
      = some (Fl.fin ((-1) ^ s * (m : ℚ) * (2 : ℚ) ^ (-149 : ℤ)))) ∧
    (e = 0 → m = 0 → freadieee754f fuel (be32 (s * 2 ^ 31 + e * 2 ^ 23 + m)) true
      = some (Fl.fin 0)) := by
  have h := freadieee754f_value32 s e m fuel hs (by omega) hm hf
  unfold value32 word32 at h
  refine ⟨?_, ?_, ?_⟩
  · intro he1
    rw [h]
    simp only [show e ≠ 0 by omega, if_false]
    congr 2
    ring
  · intro he0 hm0
    rw [h]
    simp only [he0, if_true]
    congr 2
    ring
  · intro he0 hm0
    rw [h]
    simp [he0, hm0]

/-- Witness of C7: the largest exponent field of a finite value (`e = 254`),
the smallest negative subnormal, and negative zero. -/
theorem freadieee754f_finite_witness :
    (1 < 2 ∧ 254 ≤ 254 ∧ 3 < 2 ^ 23 ∧ 23 < 24 ∧ 1 ≤ 254) ∧
    freadieee754f 24 (be32 (1 * 2 ^ 31 + 254 * 2 ^ 23 + 3)) true
      = some (Fl.fin ((-1) ^ 1 * (1 + ((3 : ℕ) : ℚ) / 2 ^ 23) * (2 : ℚ) ^ (((254 : ℕ) : ℤ) - 127))) ∧
    freadieee754f 24 (be32 (1 * 2 ^ 31 + 0 * 2 ^ 23 + 1)) true
      = some (Fl.fin ((-1) ^ 1 * ((1 : ℕ) : ℚ) * (2 : ℚ) ^ (-149 : ℤ))) ∧
    freadieee754f 24 (be32 (1 * 2 ^ 31 + 0 * 2 ^ 23 + 0)) true = some (Fl.fin 0) :=
  ⟨by decide,
    (freadieee754f_finite 1 254 3 24 (by decide) (by decide) (by decide) (by decide)).1
      (by decide),
    (freadieee754f_finite 1 0 1 24 (by decide) (by decide) (by decide) (by decide)).2.1 rfl
      (by decide),
    (freadieee754f_finite 1 0 0 24 (by decide) (by decide) (by decide) (by decide)).2.2 rfl rfl⟩

/-- C8 (special-value classification on decode). For both decoders, both byte
orders and every input (every 8 octets are the octets of some `word64 s e m`,
every 4 octets those of some `word32 s e m`): exponent field 0 with zero
significand gives zero whatever the sign bit; exponent field all-ones with
nonzero significand gives NaN whatever the sign bit; exponent field all-ones
with zero significand gives `+∞` when the sign bit is clear and `-∞` when it is
set; every other input gives a finite value. -/
theorem decode_classification (fuel : ℕ) (bigendian : Bool) (hf : 52 < fuel) :
    (∀ s e m : ℕ, s < 2 → e < 2048 → m < 2 ^ 52 →
      (e = 0 ∧ m = 0 → freadieee754 fuel
        (if bigendian then be64 (word64 s e m) else (be64 (word64 s e m)).reverse) bigendian
          = some (Fl.fin 0)) ∧
      (e = 2047 ∧ m ≠ 0 → freadieee754 fuel
        (if bigendian then be64 (word64 s e m) else (be64 (word64 s e m)).reverse) bigendian
          = some Fl.nan) ∧
      (e = 2047 ∧ m = 0 ∧ s = 0 → freadieee754 fuel
        (if bigendian then be64 (word64 s e m) else (be64 (word64 s e m)).reverse) bigendian
          = some (Fl.inf false)) ∧
      (e = 2047 ∧ m = 0 ∧ s = 1 → freadieee754 fuel
        (if bigendian then be64 (word64 s e m) else (be64 (word64 s e m)).reverse) bigendian
          = some (Fl.inf true)) ∧
      (e ≠ 2047 → ∃ q : ℚ, freadieee754 fuel
        (if bigendian then be64 (word64 s e m) else (be64 (word64 s e m)).reverse) bigendian
          = some (Fl.fin q))) ∧
    (∀ s e m : ℕ, s < 2 → e < 256 → m < 2 ^ 23 →
      (e = 0 ∧ m = 0 → freadieee754f fuel
        (if bigendian then be32 (word32 s e m) else (be32 (word32 s e m)).reverse) bigendian
          = some (Fl.fin 0)) ∧
      (e = 255 ∧ m ≠ 0 → freadieee754f fuel
        (if bigendian then be32 (word32 s e m) else (be32 (word32 s e m)).reverse) bigendian
          = some Fl.nan) ∧
      (e = 255 ∧ m = 0 ∧ s = 0 → freadieee754f fuel
        (if bigendian then be32 (word32 s e m) else (be32 (word32 s e m)).reverse) bigendian
          = some (Fl.inf false)) ∧
      (e = 255 ∧ m = 0 ∧ s = 1 → freadieee754f fuel
        (if bigendian then be32 (word32 s e m) else (be32 (word32 s e m)).reverse) bigendian
          = some (Fl.inf true)) ∧
      (e ≠ 255 → ∃ q : ℚ, freadieee754f fuel
        (if bigendian then be32 (word32 s e m) else (be32 (word32 s e m)).reverse) bigendian
          = some (Fl.fin q))) ∧
    (∀ b0 b1 b2 b3 b4 b5 b6 b7 : ℕ, b0 < 256 → b1 < 256 → b2 < 256 → b3 < 256 → b4 < 256 →
      b5 < 256 → b6 < 256 → b7 < 256 → ∃ s e m, s < 2 ∧ e < 2048 ∧ m < 2 ^ 52 ∧
        [b0, b1, b2, b3, b4, b5, b6, b7] = be64 (word64 s e m)) ∧
    (∀ b0 b1 b2 b3 : ℕ, b0 < 256 → b1 < 256 → b2 < 256 → b3 < 256 →
      ∃ s e m, s < 2 ∧ e < 256 ∧ m < 2 ^ 23 ∧ [b0, b1, b2, b3] = be32 (word32 s e m)) := by
  refine ⟨?_, ?_, octets_eq_be64, octets_eq_be32⟩
  · intro s e m hs he hm
    rw [freadieee754_order]
    have h := freadieee754_cases s e m fuel hs he hm hf []
    rw [List.append_nil] at h
    rw [h]
    refine ⟨?_, ?_, ?_, ?_, ?_⟩
    · rintro ⟨h0, hm0⟩
      simp [h0, hm0]
    · rintro ⟨h1, hm0⟩
      simp [h1, hm0]
    · rintro ⟨h1, hm0, hs0⟩
      simp [h1, hm0, hs0]
    · rintro ⟨h1, hm0, hs1⟩
      simp [h1, hm0, hs1]
    · intro h1
      simp only [h1, if_false]
      split_ifs <;> exact ⟨_, rfl⟩
  · intro s e m hs he hm
    rw [freadieee754f_order]
    have h := freadieee754f_cases s e m fuel hs he hm (by omega) []
    rw [List.append_nil] at h
    rw [h]
    refine ⟨?_, ?_, ?_, ?_, ?_⟩
    · rintro ⟨h0, hm0⟩
      simp [h0, hm0]
    · rintro ⟨h1, hm0⟩
      simp [h1, hm0]
    · rintro ⟨h1, hm0, hs0⟩
      simp [h1, hm0, hs0]
    · rintro ⟨h1, hm0, hs1⟩
      simp [h1, hm0, hs1]
    · intro h1
      simp only [h1, if_false]
      split_ifs <;> exact ⟨_, rfl⟩

/-- Witness of C8: a negative infinity and a NaN with the sign bit set, read
little-endian by `freadieee754`, and a negative zero read by `freadieee754f`. -/
theorem decode_classification_witness :
    52 < 53 ∧
    freadieee754 53 (be64 (word64 1 2047 0)).reverse false = some (Fl.inf true) ∧
    freadieee754 53 (be64 (word64 1 2047 9)).reverse false = some Fl.nan ∧
    freadieee754f 53 (be32 (word32 1 0 0)).reverse false = some (Fl.fin 0) :=
  ⟨by decide,
    ((decode_classification 53 false (by decide)).1 1 2047 0 (by decide) (by decide)
      (by decide)).2.2.2.1 ⟨rfl, rfl, rfl⟩,
    ((decode_classification 53 false (by decide)).1 1 2047 9 (by decide) (by decide)
      (by decide)).2.1 ⟨rfl, by decide⟩,
    ((decode_classification 53 false (by decide)).2.1 1 0 0 (by decide) (by decide)
      (by decide)).1 ⟨rfl, rfl⟩⟩

/-- C9 (byte-order symmetry of decoding). For every 8-octet sequence `b`,
`freadieee754` on `b` big-endian and on the reversed sequence little-endian
return the same result, and for every 4-octet sequence so does
`freadieee754f`; with fuel for the subnormal loop that result is a value. -/
theorem decode_byte_order_symmetry (fuel : ℕ) (b : List ℕ) :
    (b.length = 8 → freadieee754 fuel b true = freadieee754 fuel b.reverse false ∧
      (52 < fuel → ∃ v, freadieee754 fuel b true = some v)) ∧
    (b.length = 4 → freadieee754f fuel b true = freadieee754f fuel b.reverse false ∧
      (23 < fuel → ∃ v, freadieee754f fuel b true = some v)) := by
  constructor
  · intro h
    exact ⟨(freadieee754_reverse fuel b h).symm, fun hf => freadieee754_total fuel hf b h⟩
  · intro h
    exact ⟨(freadieee754f_reverse fuel b h).symm, fun hf => freadieee754f_total fuel hf b h⟩

/-- Witness of C9: the octets of pi, and four arbitrary octets. -/
theorem decode_byte_order_symmetry_witness :
    ([0x40, 0x09, 0x21, 0xFB, 0x54, 0x44, 0x2D, 0x18].length = 8 ∧
      [0x12, 0x34, 0x56, 0x78].length = 4) ∧
    freadieee754 53 [0x40, 0x09, 0x21, 0xFB, 0x54, 0x44, 0x2D, 0x18] true
      = freadieee754 53 [0x40, 0x09, 0x21, 0xFB, 0x54, 0x44, 0x2D, 0x18].reverse false ∧
    freadieee754f 53 [0x12, 0x34, 0x56, 0x78] true
      = freadieee754f 53 [0x12, 0x34, 0x56, 0x78].reverse false :=
  ⟨by decide,
    ((decode_byte_order_symmetry 53 [0x40, 0x09, 0x21, 0xFB, 0x54, 0x44, 0x2D, 0x18]).1 rfl).1,
    ((decode_byte_order_symmetry 53 [0x12, 0x34, 0x56, 0x78]).2 rfl).1⟩

theorem DBL_MAX_pos : (0 : ℚ) < DBL_MAX := by
  unfold DBL_MAX
  norm_num

theorem FLT_MAX_pos : (0 : ℚ) < FLT_MAX := by
  unfold FLT_MAX
  norm_num

/-- C10 (infinity saturation on encode). For every input above `DBL_MAX`
big-endian `fwriteieee754` emits `7F F0 00 00 00 00 00 00`, which
`freadieee754` decodes to `+∞`; for every input below `-DBL_MAX` it emits
`FF F0 00 00 00 00 00 00`, which decodes to `-∞`. Likewise `fwriteieee754f`
emits `7F 80 00 00` above `FLT_MAX` and `FF 80 00 00` below `-FLT_MAX`, which
`freadieee754f` decodes to `+∞` and `-∞`. -/
theorem infinity_saturation (x : Fl) (fuel : ℕ) :
    (Fl.gt x (Fl.fin DBL_MAX) = true →
      fwriteieee754 fuel x emptySink true
        = some (0, { out := [0x7F, 0xF0, 0, 0, 0, 0, 0, 0], err := false, fails := [] })) ∧
    (Fl.lt x (Fl.fin (-DBL_MAX)) = true →
      fwriteieee754 fuel x emptySink true
        = some (0, { out := [0xFF, 0xF0, 0, 0, 0, 0, 0, 0], err := false, fails := [] })) ∧
    freadieee754 fuel [0x7F, 0xF0, 0, 0, 0, 0, 0, 0] true = some (Fl.inf false) ∧
    freadieee754 fuel [0xFF, 0xF0, 0, 0, 0, 0, 0, 0] true = some (Fl.inf true) ∧
    (Fl.gt x (Fl.fin FLT_MAX) = true →
      fwriteieee754f fuel x emptySink true
        = some (0, { out := [0x7F, 0x80, 0, 0], err := false, fails := [] })) ∧
    (Fl.lt x (Fl.fin (-FLT_MAX)) = true →
      fwriteieee754f fuel x emptySink true
        = some (0, { out := [0xFF, 0x80, 0, 0], err := false, fails := [] })) ∧
    freadieee754f fuel [0x7F, 0x80, 0, 0] true = some (Fl.inf false) ∧
    freadieee754f fuel [0xFF, 0x80, 0, 0] true = some (Fl.inf true) := by
  have hD := DBL_MAX_pos
  have hF := FLT_MAX_pos
  refine ⟨?_, ?_, ?_, ?_, ?_, ?_, ?_, ?_⟩
  · intro h
    have hp : pack64 fuel x = some (0x7FF00000, 0) := by
      unfold pack64
      have h0 : Fl.eq x (Fl.fin 0) = false := by
        rcases x with _ | b | _ | q
        · rfl
        · rfl
        · simp [Fl.gt, Fl.lt, Fl.val] at h; linarith
        · simp only [Fl.gt, lt_fin, decide_eq_true_eq] at h
          simp only [eq_fin, decide_eq_false_iff_not]
          intro hq; linarith
      simp only [h0, h, Bool.false_eq_true, if_false, if_true]
      decide
    unfold fwriteieee754
    rw [hp]
    decide
  · intro h
    have hp : pack64 fuel x = some (0xFFFFFFFFFFF00000, 0) := by
      unfold pack64
      have h0 : Fl.eq x (Fl.fin 0) = false := by
        rcases x with _ | b | _ | q
        · rfl
        · rfl
        · simp [Fl.lt, Fl.val] at h; linarith
        · simp only [lt_fin, decide_eq_true_eq] at h
          simp only [eq_fin, decide_eq_false_iff_not]
          intro hq; linarith
      have h1 : Fl.gt x (Fl.fin DBL_MAX) = false := by
        rcases x with _ | b | _ | q
        · rfl
        · cases b
          · simp [Fl.lt] at h
          · rfl
        · simp [Fl.lt, Fl.val] at h; linarith
        · simp only [lt_fin, decide_eq_true_eq] at h
          simp only [Fl.gt, lt_fin, decide_eq_false_iff_not]
          intro hq; linarith
      simp only [h0, h1, h, Bool.false_eq_true, if_false, if_true]
      decide
    unfold fwriteieee754
    rw [hp]
    decide
  · have hb : [0x7F, 0xF0, 0, 0, 0, 0, 0, 0] = be64 (word64 0 2047 0) ++ [] := by decide
    rw [hb, freadieee754_fields 0 2047 0 (by decide) (by decide) (by decide)]
    simp
  · have hb : [0xFF, 0xF0, 0, 0, 0, 0, 0, 0] = be64 (word64 1 2047 0) ++ [] := by decide
    rw [hb, freadieee754_fields 1 2047 0 (by decide) (by decide) (by decide)]
    simp
  · intro h
    have hp : pack32 fuel x = some 0x7F800000 := by
      unfold pack32
      have h0 : Fl.eq x (Fl.fin 0) = false := by
        rcases x with _ | b | _ | q
        · rfl
        · rfl
        · simp [Fl.gt, Fl.lt, Fl.val] at h; linarith
        · simp only [Fl.gt, lt_fin, decide_eq_true_eq] at h
          simp only [eq_fin, decide_eq_false_iff_not]
          intro hq; linarith
      simp only [h0, h, Bool.false_eq_true, if_false, if_true]
      decide
    unfold fwriteieee754f
    rw [hp]
    decide
  · intro h
    have hp : pack32 fuel x = some 0xFFFFFFFFFF800000 := by
      unfold pack32
      have h0 : Fl.eq x (Fl.fin 0) = false := by
        rcases x with _ | b | _ | q
        · rfl
        · rfl
        · simp [Fl.lt, Fl.val] at h; linarith
        · simp only [lt_fin, decide_eq_true_eq] at h
          simp only [eq_fin, decide_eq_false_iff_not]
          intro hq; linarith
      have h1 : Fl.gt x (Fl.fin FLT_MAX) = false := by
        rcases x with _ | b | _ | q
        · rfl
        · cases b
          · simp [Fl.lt] at h
          · rfl
        · simp [Fl.lt, Fl.val] at h; linarith
        · simp only [lt_fin, decide_eq_true_eq] at h
          simp only [Fl.gt, lt_fin, decide_eq_false_iff_not]
          intro hq; linarith
      simp only [h0, h1, h, Bool.false_eq_true, if_false, if_true]
      decide
    unfold fwriteieee754f
    rw [hp]
    decide
  · have hb : [0x7F, 0x80, 0, 0] = be32 (word32 0 255 0) ++ [] := by decide
    rw [hb, freadieee754f_fields 0 255 0 (by decide) (by decide) (by decide)]
    simp
  · have hb : [0xFF, 0x80, 0, 0] = be32 (word32 1 255 0) ++ [] := by decide
    rw [hb, freadieee754f_fields 1 255 0 (by decide) (by decide) (by decide)]
    simp

/-- Witness of C10: the two infinities, the only `double` and `float` values
beyond the largest finite ones. -/
theorem infinity_saturation_witness :
    (Fl.gt (Fl.inf false) (Fl.fin DBL_MAX) = true ∧
      Fl.lt (Fl.inf true) (Fl.fin (-DBL_MAX)) = true ∧
      Fl.gt (Fl.inf false) (Fl.fin FLT_MAX) = true ∧
      Fl.lt (Fl.inf true) (Fl.fin (-FLT_MAX)) = true) ∧
    fwriteieee754 0 (Fl.inf false) emptySink true
      = some (0, { out := [0x7F, 0xF0, 0, 0, 0, 0, 0, 0], err := false, fails := [] }) ∧
    fwriteieee754 0 (Fl.inf true) emptySink true
      = some (0, { out := [0xFF, 0xF0, 0, 0, 0, 0, 0, 0], err := false, fails := [] }) ∧
    fwriteieee754f 0 (Fl.inf false) emptySink true
      = some (0, { out := [0x7F, 0x80, 0, 0], err := false, fails := [] }) ∧
    fwriteieee754f 0 (Fl.inf true) emptySink true
      = some (0, { out := [0xFF, 0x80, 0, 0], err := false, fails := [] }) :=
  ⟨⟨rfl, rfl, rfl, rfl⟩,
    (infinity_saturation (Fl.inf false) 0).1 rfl,
    (infinity_saturation (Fl.inf true) 0).2.1 rfl,
    (infinity_saturation (Fl.inf false) 0).2.2.2.2.1 rfl,
    (infinity_saturation (Fl.inf true) 0).2.2.2.2.2.1 rfl⟩

/-! ## The integer readers -/

theorem intOp_of_bounds (w k : ℕ) (x : ℤ) (hk : k ≤ w) (h1 : -(2 ^ (k - 1)) ≤ x)
    (h2 : x < 2 ^ (k - 1)) : intOp w x = some x := by
  have hp : (2 : ℤ) ^ (k - 1) ≤ 2 ^ (w - 1) :=
    pow_le_pow_right₀ (by norm_num) (by omega)
  unfold intOp
  rw [if_pos ⟨by linarith, by linarith⟩]

theorem fgetc_cons (c : ℕ) (rest : List ℕ) : fgetc (c :: rest) = (((c % 256 : ℕ) : ℤ), rest) := rfl

set_option maxRecDepth 100000 in
theorem byte_xor_128 : ∀ c < 256, c ^^^ 128 = (c + 128) % 256 := by decide

theorem xor_octet (c : ℕ) (hc : c < 256) : Int.xor (c : ℤ) 128 = (((c + 128) % 256 : ℕ) : ℤ) := by
  have h : Int.xor (c : ℤ) 128 = ((c ^^^ 128 : ℕ) : ℤ) := rfl
  rw [h, byte_xor_128 c hc]

/-- The common tail of the 16-bit readers on a top octet `t` and a low octet
or `EOF` `c1`, on a host whose `int` has at least 16 bits. -/
theorem assemble16_octet (w t : ℕ) (c1 : ℤ) (hw : 16 ≤ w) (ht : t < 256) (h1 : -1 ≤ c1)
    (h2 : c1 < 256) (h3 : t < 128 ∨ 0 ≤ c1) :
    ((intOp w (Int.xor (t : ℤ) 128)).bind fun a =>
      (intOp w (a - 128)).bind fun a =>
      (intOp w (a * 256)).bind fun a => intOp w (a + c1))
      = some (((((t + 128) % 256 : ℕ) : ℤ) - 128) * 256 + c1) := by
  have hx : (t + 128) % 256 < 256 := Nat.mod_lt _ (by norm_num)
  have hx' : t < 128 → (t + 128) % 256 = t + 128 := by intro h; omega
  have hx'' : ¬ t < 128 → (t + 128) % 256 = t - 128 := by intro h; omega
  rw [xor_octet t ht, intOp_of_bounds w 16 _ hw (by norm_num; omega) (by norm_num; omega)]
  simp only [Option.some_bind]
  rw [intOp_of_bounds w 16 _ hw (by norm_num; omega) (by norm_num; omega)]
  simp only [Option.some_bind]
  rw [intOp_of_bounds w 16 _ hw (by norm_num; omega) (by norm_num; omega)]
  simp only [Option.some_bind]
  rw [intOp_of_bounds w 16 _ hw (by
    norm_num
    by_cases h : t < 128
    · have := hx' h; omega
    · have := hx'' h; omega) (by norm_num; omega)]

/-- The expression of the 32-bit readers on a top octet `t` and three further
octets or `EOF`s, on a host whose `int` has at least 32 bits: it is defined and
has its exact value as soon as that value is not below `INT_MIN`. -/
theorem assemble32_octet (w t : ℕ) (c3 c2 c1 : ℤ) (hw : 32 ≤ w) (ht : t < 256)
    (h3 : -1 ≤ c3 ∧ c3 < 256) (h2 : -1 ≤ c2 ∧ c2 < 256) (h1 : -1 ≤ c1 ∧ c1 < 256)
    (hv : -(2 ^ 31) ≤ ((((t + 128) % 256 : ℕ) : ℤ) - 128) * 256 * 256 * 256
      + c3 * 256 * 256 + c2 * 256 + c1) :
    assemble32 w (t : ℤ) c3 c2 c1
      = some (((((t + 128) % 256 : ℕ) : ℤ) - 128) * 256 * 256 * 256
          + c3 * 256 * 256 + c2 * 256 + c1) := by
  have hx : (t + 128) % 256 < 256 := Nat.mod_lt _ (by norm_num)
  generalize hX : (((t + 128) % 256 : ℕ) : ℤ) = X at hv ⊢
  have hX0 : 0 ≤ X := by rw [← hX]; positivity
  have hX1 : X < 256 := by rw [← hX]; exact_mod_cast hx
  norm_num at hv
  unfold assemble32
  rw [xor_octet t ht, hX]
  rw [intOp_of_bounds w 32 _ hw (by norm_num; omega) (by norm_num; omega)]
  simp only [Option.some_bind]
  rw [intOp_of_bounds w 32 _ hw (by norm_num; omega) (by norm_num; omega)]
  simp only [Option.some_bind]
  rw [intOp_of_bounds w 32 _ hw (by norm_num; omega) (by norm_num; omega)]
  simp only [Option.some_bind]
  rw [intOp_of_bounds w 32 _ hw (by norm_num; omega) (by norm_num; omega)]
  simp only [Option.some_bind]
  rw [intOp_of_bounds w 32 _ hw (by norm_num; omega) (by norm_num; omega)]
  simp only [Option.some_bind]
  rw [intOp_of_bounds w 32 _ hw (by norm_num; omega) (by norm_num; omega)]
  simp only [Option.some_bind]
  rw [intOp_of_bounds w 32 _ hw (by norm_num; omega) (by norm_num; omega)]
  simp only [Option.some_bind]
  rw [intOp_of_bounds w 32 _ hw (by norm_num; omega) (by norm_num; omega)]
  simp only [Option.some_bind]
  rw [intOp_of_bounds w 32 _ hw (by norm_num; omega) (by norm_num; omega)]
  simp only [Option.some_bind]
  rw [intOp_of_bounds w 32 _ hw (by norm_num; omega) (by norm_num; omega)]
  simp only [Option.some_bind]
  rw [intOp_of_bounds w 32 _ hw (by norm_num; omega) (by norm_num; omega)]

theorem twosComp16_eq (b0 b1 : ℕ) (h0 : b0 < 256) (h1 : b1 < 256) :
    ((((b0 + 128) % 256 : ℕ) : ℤ) - 128) * 256 + (b1 : ℤ)
      = twosComp 16 (256 * (b0 : ℤ) + (b1 : ℤ)) := by
  unfold twosComp
  norm_num
  split_ifs <;> omega

theorem twosComp32_eq (b0 b1 b2 b3 : ℕ) (h0 : b0 < 256) (h1 : b1 < 256) (h2 : b2 < 256)
    (h3 : b3 < 256) :
    ((((b0 + 128) % 256 : ℕ) : ℤ) - 128) * 256 * 256 * 256 + (b1 : ℤ) * 256 * 256
        + (b2 : ℤ) * 256 + (b3 : ℤ)
      = twosComp 32 ((b0 : ℤ) * 2 ^ 24 + (b1 : ℤ) * 2 ^ 16 + (b2 : ℤ) * 2 ^ 8 + (b3 : ℤ)) := by
  unfold twosComp
  norm_num
  split_ifs <;> omega

theorem fget16be_full (w b0 b1 : ℕ) (hw : 16 ≤ w) (h0 : b0 < 256) (h1 : b1 < 256) :
    fget16be w [b0, b1] = some (twosComp 16 (256 * (b0 : ℤ) + (b1 : ℤ))) := by
  unfold fget16be
  simp only [fgetc_cons, Nat.mod_eq_of_lt h0, Nat.mod_eq_of_lt h1]
  rw [assemble16_octet w b0 b1 hw h0 (by omega) (by omega) (Or.inr (by omega)),
    twosComp16_eq b0 b1 h0 h1]

theorem fget16le_full (w b0 b1 : ℕ) (hw : 16 ≤ w) (h0 : b0 < 256) (h1 : b1 < 256) :
    fget16le w [b0, b1] = some (twosComp 16 (256 * (b1 : ℤ) + (b0 : ℤ))) := by
  unfold fget16le
  simp only [fgetc_cons, Nat.mod_eq_of_lt h0, Nat.mod_eq_of_lt h1]
  rw [assemble16_octet w b1 b0 hw h1 (by omega) (by omega) (Or.inr (by omega)),
    twosComp16_eq b1 b0 h1 h0]

theorem fget32be_full (w b0 b1 b2 b3 : ℕ) (hw : 32 ≤ w) (h0 : b0 < 256) (h1 : b1 < 256)
    (h2 : b2 < 256) (h3 : b3 < 256) :
    fget32be w [b0, b1, b2, b3] = some (twosComp 32
      ((b0 : ℤ) * 2 ^ 24 + (b1 : ℤ) * 2 ^ 16 + (b2 : ℤ) * 2 ^ 8 + (b3 : ℤ))) := by
  unfold fget32be
  simp only [fgetc_cons, Nat.mod_eq_of_lt h0, Nat.mod_eq_of_lt h1, Nat.mod_eq_of_lt h2,
    Nat.mod_eq_of_lt h3]
  rw [assemble32_octet w b0 b1 b2 b3 hw h0 ⟨by omega, by omega⟩ ⟨by omega, by omega⟩
    ⟨by omega, by omega⟩ (by norm_num; omega), twosComp32_eq b0 b1 b2 b3 h0 h1 h2 h3]

theorem fget32le_full (w b0 b1 b2 b3 : ℕ) (hw : 32 ≤ w) (h0 : b0 < 256) (h1 : b1 < 256)
    (h2 : b2 < 256) (h3 : b3 < 256) :
    fget32le w [b0, b1, b2, b3] = some (twosComp 32
      ((b3 : ℤ) * 2 ^ 24 + (b2 : ℤ) * 2 ^ 16 + (b1 : ℤ) * 2 ^ 8 + (b0 : ℤ))) := by
  unfold fget32le
  simp only [fgetc_cons, Nat.mod_eq_of_lt h0, Nat.mod_eq_of_lt h1, Nat.mod_eq_of_lt h2,
    Nat.mod_eq_of_lt h3]
  rw [assemble32_octet w b3 b2 b1 b0 hw h3 ⟨by omega, by omega⟩ ⟨by omega, by omega⟩
    ⟨by omega, by omega⟩ (by norm_num; omega), twosComp32_eq b3 b2 b1 b0 h3 h2 h1 h0]

theorem pack64_nan (fuel : ℕ) : pack64 fuel Fl.nan = some (0x7FF00000, 1234) := by
  simp [pack64, Fl.eq, Fl.gt, Fl.lt, Fl.ne]
  decide

theorem pack32_nan (fuel : ℕ) : pack32 fuel Fl.nan = some 0x7F8004D2 := by
  simp [pack32, Fl.eq, Fl.gt, Fl.lt, Fl.ne]
  decide

theorem pack64_inf (fuel : ℕ) :
    pack64 fuel (Fl.inf false) = some (0x7FF00000, 0) ∧
    pack64 fuel (Fl.inf true) = some (0xFFFFFFFFFFF00000, 0) := by
  constructor
  · simp [pack64, Fl.eq, Fl.gt, Fl.lt]
    decide
  · simp [pack64, Fl.eq, Fl.gt, Fl.lt]
    decide

theorem pack32_inf (fuel : ℕ) :
    pack32 fuel (Fl.inf false) = some 0x7F800000 ∧
    pack32 fuel (Fl.inf true) = some 0xFFFFFFFFFF800000 := by
  constructor
  · simp [pack32, Fl.eq, Fl.gt, Fl.lt]
    decide
  · simp [pack32, Fl.eq, Fl.gt, Fl.lt]
    decide

theorem pack64_zero (fuel : ℕ) :
    pack64 fuel (Fl.fin 0) = some (0, 0) ∧ pack64 fuel Fl.nzero = some (0, 0) := by
  constructor <;> simp [pack64, Fl.eq, Fl.val]

theorem pack32_zero (fuel : ℕ) :
    pack32 fuel (Fl.fin 0) = some 0 ∧ pack32 fuel Fl.nzero = some 0 := by
  constructor <;> simp [pack32, Fl.eq, Fl.val]

/-- The subnormal branch of `fwriteieee754f` returns a word: the one packed
from the fraction `m / 2^23` with `shift = -1023`. -/
theorem pack32_subnormal (s m : ℕ) (hs : s < 2) (hm0 : m ≠ 0) (hm : m < 2 ^ 23)
    (fuel : ℕ) (hf : 1074 < fuel) :
    pack32 fuel (Fl.fin (value32 s 0 m))
      = some (finish32 s (Fl.fin ((m : ℚ) * (2 : ℚ) ^ (-23 : ℤ))) (-1023)) := by
  unfold value32
  simp only [if_true]
  have hL1 : 2 ^ Nat.log2 m ≤ m := Nat.log2_self_le hm0
  have hL2 : m < 2 ^ (Nat.log2 m + 1) := Nat.lt_log2_self
  have hL : Nat.log2 m < 23 := (Nat.log2_lt hm0).mpr hm
  rw [pack32_general s m (Nat.log2 m) (-149) hs hL1 hL2 (by omega) (by norm_num) (by norm_num)
    fuel hf]
  have hlt : (-149 : ℤ) + (Nat.log2 m : ℤ) < -126 := by omega
  simp only [hlt, if_true]
  obtain ⟨k, hk⟩ : ∃ k, Nat.log2 m + k = 23 := ⟨23 - Nat.log2 m, by omega⟩
  have hr := raiseLoop_spec (-126) m (by omega) hm0 k (-(Nat.log2 m : ℤ)) (by omega) (by omega)
    fuel (by omega)
  rw [show (-126 : ℤ) - (k : ℤ) = -149 + (Nat.log2 m : ℤ) by omega,
    show (-(Nat.log2 m : ℤ)) - (k : ℤ) = -23 by omega] at hr
  rw [hr]

/-- The part of `fwriteieee754` before `writedata` returns on every `double`,
given fuel for the normalisation loops. -/
theorem pack64_total (x : Fl) (hx : IsDouble x) (fuel : ℕ) (hf : 1074 < fuel) :
    ∃ hl, pack64 fuel x = some hl := by
  rcases hx with rfl | rfl | rfl | rfl | ⟨s, e, m, hs, he, hm, rfl⟩
  · exact ⟨_, pack64_nan fuel⟩
  · exact ⟨_, (pack64_inf fuel).1⟩
  · exact ⟨_, (pack64_inf fuel).2⟩
  · exact ⟨_, (pack64_zero fuel).2⟩
  · by_cases hnz : e ≠ 0 ∨ m ≠ 0
    · exact ⟨_, pack64_spec s e m hs (by omega) hm hnz fuel hf⟩
    · have he0 : e = 0 := by omega
      have hm0 : m = 0 := by omega
      subst he0 hm0
      rw [value64_zero]
      exact ⟨_, (pack64_zero fuel).1⟩

/-- The part of `fwriteieee754f` before `writedata` returns on every `float`,
given fuel for the normalisation loops. -/
theorem pack32_total (x : Fl) (hx : IsFloat x) (fuel : ℕ) (hf : 1074 < fuel) :
    ∃ buff, pack32 fuel x = some buff := by
  rcases hx with rfl | rfl | rfl | rfl | ⟨s, e, m, hs, he, hm, rfl⟩
  · exact ⟨_, pack32_nan fuel⟩
  · exact ⟨_, (pack32_inf fuel).1⟩
  · exact ⟨_, (pack32_inf fuel).2⟩
  · exact ⟨_, (pack32_zero fuel).2⟩
  · by_cases he1 : 1 ≤ e
    · exact ⟨_, pack32_normal s e m hs he1 he hm fuel hf⟩
    · have he0 : e = 0 := by omega
      subst he0
      by_cases hm0 : m = 0
      · subst hm0
        rw [value32_zero]
        exact ⟨_, (pack32_zero fuel).1⟩
      · exact ⟨_, pack32_subnormal s m hs hm0 hm fuel hf⟩

theorem value64_dyadic (s e m : ℕ) (he : e ≤ 2046) (hm : m < 2 ^ 52) (hnz : e ≠ 0 ∨ m ≠ 0) :
    ∃ (n L : ℕ) (c : ℤ), 2 ^ L ≤ n ∧ n < 2 ^ (L + 1) ∧ L ≤ 52 ∧ -1074 ≤ c ∧ c ≤ 971 ∧
      value64 s e m = (-1) ^ s * ((n : ℚ) * (2 : ℚ) ^ c) := by
  unfold value64
  by_cases he0 : e = 0
  · have hm0 : m ≠ 0 := by omega
    have hL : Nat.log2 m < 52 := (Nat.log2_lt hm0).mpr hm
    exact ⟨m, Nat.log2 m, -1074, Nat.log2_self_le hm0, Nat.lt_log2_self, by omega, by norm_num,
      by norm_num, by simp [he0]⟩
  · refine ⟨2 ^ 52 + m, 52, (e : ℤ) - 1075, by omega, by omega, le_rfl, by omega, by omega, ?_⟩
    simp only [he0, if_false]
    rw [show (e : ℤ) - 1023 = ((e : ℤ) - 1075) + 52 by ring,
      zpow_add₀ (by norm_num : (2 : ℚ) ≠ 0)]
    push_cast
    rw [show (52 : ℤ) = ((52 : ℕ) : ℤ) by rfl, zpow_natCast]
    field_simp
    ring

theorem value32_dyadic (s e m : ℕ) (he : e ≤ 254) (hm : m < 2 ^ 23) (hnz : e ≠ 0 ∨ m ≠ 0) :
    ∃ (n L : ℕ) (c : ℤ), 2 ^ L ≤ n ∧ n < 2 ^ (L + 1) ∧ L ≤ 23 ∧ -149 ≤ c ∧ c ≤ 104 ∧
      value32 s e m = (-1) ^ s * ((n : ℚ) * (2 : ℚ) ^ c) := by
  unfold value32
  by_cases he0 : e = 0
  · have hm0 : m ≠ 0 := by omega
    have hL : Nat.log2 m < 23 := (Nat.log2_lt hm0).mpr hm
    exact ⟨m, Nat.log2 m, -149, Nat.log2_self_le hm0, Nat.lt_log2_self, by omega, by norm_num,
      by norm_num, by simp [he0]⟩
  · refine ⟨2 ^ 23 + m, 23, (e : ℤ) - 150, by omega, by omega, le_rfl, by omega, by omega, ?_⟩
    simp only [he0, if_false]
    rw [show (e : ℤ) - 127 = ((e : ℤ) - 150) + 23 by ring,
      zpow_add₀ (by norm_num : (2 : ℚ) ≠ 0)]
    push_cast
    rw [show (23 : ℤ) = ((23 : ℕ) : ℤ) by rfl, zpow_natCast]
    field_simp
    ring

/-- The normalisation loops of the encoders on the magnitude `n * 2^c` stop
with a fraction in `[1, 2)` whose product with `2^shift` is the magnitude. -/
theorem normalise_result (n L : ℕ) (c : ℤ) (hL1 : 2 ^ L ≤ n) (hL2 : n < 2 ^ (L + 1))
    (hL : L ≤ 52) (h1 : -1074 ≤ c) (h2 : c ≤ 971) (fuel : ℕ) (hf : 1074 < fuel) :
    ∃ (f : ℚ) (sh : ℤ),
      (match halveLoop fuel (Fl.fin ((n : ℚ) * (2 : ℚ) ^ c)) 0 with
        | none => none
        | some (fnorm, shift) => doubleLoop fuel fnorm shift) = some (Fl.fin f, sh) ∧
      1 ≤ f ∧ f < 2 ∧ f * (2 : ℚ) ^ sh = (n : ℚ) * (2 : ℚ) ^ c := by
  have hLpos : (0 : ℚ) < (2 : ℚ) ^ (L : ℤ) := zpow_pos (by norm_num) _
  refine ⟨(n : ℚ) * (2 : ℚ) ^ (-(L : ℤ)), c + L,
    normalise_spec n L c hL1 hL2 hL h1 h2 fuel hf, ?_, ?_, ?_⟩
  · rw [zpow_neg, ← div_eq_mul_inv, le_div_iff₀ hLpos, one_mul, zpow_natCast]
    exact_mod_cast hL1
  · rw [zpow_neg, ← div_eq_mul_inv, div_lt_iff₀ hLpos, zpow_natCast]
    have : (n : ℚ) < 2 ^ (L + 1) := by exact_mod_cast hL2
    rw [pow_succ] at this
    linarith
  · rw [mul_assoc, ← zpow_add₀ (by norm_num : (2 : ℚ) ≠ 0)]
    congr 2
    ring

theorem abs_signed (s : ℕ) (v : ℚ) (hv : 0 ≤ v) : |(-1 : ℚ) ^ s * v| = v := by
  rw [abs_mul, abs_pow, abs_neg, abs_one, one_pow, one_mul, abs_of_nonneg hv]

/-- The decoder on octets in either byte order returns a value, given fuel
for the subnormal loop. -/
theorem freadieee754_total_order (fuel : ℕ) (hf : 52 < fuel) (b : List ℕ) (o : Bool)
    (h : b.length = 8) : ∃ v, freadieee754 fuel b o = some v := by
  cases o
  · have h' : b.reverse.length = 8 := by rw [List.length_reverse]; exact h
    have := freadieee754_reverse fuel b.reverse h'
    rw [List.reverse_reverse] at this
    rw [this]
    exact freadieee754_total fuel hf b.reverse h'
  · exact freadieee754_total fuel hf b h

theorem freadieee754f_total_order (fuel : ℕ) (hf : 23 < fuel) (b : List ℕ) (o : Bool)
    (h : b.length = 4) : ∃ v, freadieee754f fuel b o = some v := by
  cases o
  · have h' : b.reverse.length = 4 := by rw [List.length_reverse]; exact h
    have := freadieee754f_reverse fuel b.reverse h'
    rw [List.reverse_reverse] at this
    rw [this]
    exact freadieee754f_total fuel hf b.reverse h'
  · exact freadieee754f_total fuel hf b h

/-- The decoders need no fuel unless the exponent field is 0 and the
significand field is not: only then is the doubling loop entered. -/
theorem freadieee754_no_loop (s e m : ℕ) (hs : s < 2) (he : e < 2048) (hm : m < 2 ^ 52)
    (h : ¬ (e = 0 ∧ m ≠ 0)) : ∃ v, freadieee754 0 (be64 (word64 s e m)) true = some v := by
  have hf := freadieee754_fields s e m hs he hm 0 []
  rw [List.append_nil] at hf
  rw [hf]
  clear hf
  split_ifs <;> first | exact ⟨_, rfl⟩ | (exfalso; omega)

theorem freadieee754f_no_loop (s e m : ℕ) (hs : s < 2) (he : e < 256) (hm : m < 2 ^ 23)
    (h : ¬ (e = 0 ∧ m ≠ 0)) : ∃ v, freadieee754f 0 (be32 (word32 s e m)) true = some v := by
  have hf := freadieee754f_fields s e m hs he hm 0 []
  rw [List.append_nil] at hf
  rw [hf]
  clear hf
  split_ifs <;> first | exact ⟨_, rfl⟩ | (exfalso; omega)

/-- The doubling loop on a nonzero fraction `m / 2^p`, `p ≤ 52`, stops after at
most `p` passes. -/
theorem doubleLoop_fraction (m p : ℕ) (sh : ℤ) (hp : p ≤ 52) (hm0 : 1 ≤ m) (hm : m < 2 ^ p) :
    ∃ (k : ℕ) (f : ℚ), k ≤ p ∧
      doubleLoop (k + 1) (Fl.fin ((m : ℚ) / 2 ^ p)) sh = some (Fl.fin f, sh - (k : ℤ)) := by
  have hm0' : m ≠ 0 := by omega
  have hL1 : 2 ^ Nat.log2 m ≤ m := Nat.log2_self_le hm0'
  have hL2 : m < 2 ^ (Nat.log2 m + 1) := Nat.lt_log2_self
  have hL : Nat.log2 m < p := (Nat.log2_lt hm0').mpr hm
  obtain ⟨k, hk⟩ : ∃ k, Nat.log2 m + k = p := ⟨p - Nat.log2 m, by omega⟩
  refine ⟨k, (m : ℚ) * (2 : ℚ) ^ (-(Nat.log2 m : ℤ)), by omega, ?_⟩
  have hstart : (m : ℚ) / 2 ^ p = (m : ℚ) * (2 : ℚ) ^ (-((Nat.log2 m + k : ℕ) : ℤ)) := by
    rw [hk, div_eq_mul_inv, zpow_neg, ← zpow_natCast]
  rw [hstart]
  exact doubleLoop_spec m (Nat.log2 m) hL1 hL2 (by omega) k (by omega) (k + 1) sh (by omega)

/-- The two normalisation loops of the encoders, run one after the other on
the magnitude `n * 2^c`: both return, and leave a fraction in `[1, 2)` whose
product with `2^shift` is the magnitude. -/
theorem normalise_loops (n L : ℕ) (c : ℤ) (hL1 : 2 ^ L ≤ n) (hL2 : n < 2 ^ (L + 1))
    (hL : L ≤ 52) (h1 : -1074 ≤ c) (h2 : c ≤ 971) (fuel : ℕ) (hf : 1074 < fuel) :
    ∃ (f1 : Fl) (sh1 : ℤ) (f : ℚ) (sh : ℤ),
      halveLoop fuel (Fl.fin ((n : ℚ) * (2 : ℚ) ^ c)) 0 = some (f1, sh1) ∧
      doubleLoop fuel f1 sh1 = some (Fl.fin f, sh) ∧
      1 ≤ f ∧ f < 2 ∧ f * (2 : ℚ) ^ sh = (n : ℚ) * (2 : ℚ) ^ c := by
  obtain ⟨f, sh, h, hf1, hf2, hv⟩ := normalise_result n L c hL1 hL2 hL h1 h2 fuel hf
  revert h
  rcases halveLoop fuel (Fl.fin ((n : ℚ) * (2 : ℚ) ^ c)) 0 with _ | ⟨f1, sh1⟩
  · intro h; simp at h
  · intro h
    exact ⟨f1, sh1, f, sh, rfl, h, hf1, hf2, hv⟩

theorem dyadic_pos (n L : ℕ) (c : ℤ) (hL1 : 2 ^ L ≤ n) : (0 : ℚ) < (n : ℚ) * (2 : ℚ) ^ c := by
  have hn0 : 0 < n := lt_of_lt_of_le (Nat.two_pow_pos L) hL1
  have : (0 : ℚ) < n := by exact_mod_cast hn0
  positivity

theorem fwriteieee754_nan (fuel : ℕ) (bigendian : Bool) :
    fwriteieee754 fuel Fl.nan emptySink bigendian
      = some (0, { out := if bigendian then be64 (word64 0 2047 1234)
                     else (be64 (word64 0 2047 1234)).reverse,
                   err := false, fails := [] }) := by
  unfold fwriteieee754
  rw [pack64_nan]
  cases bigendian <;> decide

theorem fwriteieee754f_nan (fuel : ℕ) (bigendian : Bool) :
    fwriteieee754f fuel Fl.nan emptySink bigendian
      = some (0, { out := if bigendian then be32 (word32 0 255 1234)
                     else (be32 (word32 0 255 1234)).reverse,
                   err := false, fails := [] }) := by
  unfold fwriteieee754f
  rw [pack32_nan]
  cases bigendian <;> decide

/-- The encoders return without fuel, that is before any loop, on the zeros,
the infinities and NaN. -/
theorem pack_special (x : Fl)
    (hx : x = Fl.fin 0 ∨ x = Fl.nzero ∨ x = Fl.inf false ∨ x = Fl.inf true ∨ x = Fl.nan) :
    (∃ r, pack64 0 x = some r) ∧ (∃ r, pack32 0 x = some r) := by
  rcases hx with rfl | rfl | rfl | rfl | rfl
  · exact ⟨⟨_, (pack64_zero 0).1⟩, ⟨_, (pack32_zero 0).1⟩⟩
  · exact ⟨⟨_, (pack64_zero 0).2⟩, ⟨_, (pack32_zero 0).2⟩⟩
  · exact ⟨⟨_, (pack64_inf 0).1⟩, ⟨_, (pack32_inf 0).1⟩⟩
  · exact ⟨⟨_, (pack64_inf 0).2⟩, ⟨_, (pack32_inf 0).2⟩⟩
  · exact ⟨⟨_, pack64_nan 0⟩, ⟨_, pack32_nan 0⟩⟩

/-! ## The claims on NaN, the integer readers, failing writes and termination -/

/-- C11 (NaN on encode). The host NaN (the model has one NaN: the encoders only
compare their argument, and every comparison with a NaN is false whatever its
payload and sign) is emitted by big-endian `fwriteieee754` as
`7F F0 00 00 00 00 04 D2` and by big-endian `fwriteieee754f` as `7F 80 04 D2`,
with any fuel; in both byte orders the encoders succeed and the octets they
emit decode, with the matching reader in the same byte order, to NaN. -/
theorem nan_encode (fuel : ℕ) (bigendian : Bool) :
    fwriteieee754 fuel Fl.nan emptySink true
      = some (0, { out := [0x7F, 0xF0, 0x00, 0x00, 0x00, 0x00, 0x04, 0xD2],
                   err := false, fails := [] }) ∧
    fwriteieee754f fuel Fl.nan emptySink true
      = some (0, { out := [0x7F, 0x80, 0x04, 0xD2], err := false, fails := [] }) ∧
    (∃ snk, fwriteieee754 fuel Fl.nan emptySink bigendian = some (0, snk) ∧
      snk.out.length = 8 ∧ freadieee754 fuel snk.out bigendian = some Fl.nan) ∧
    (∃ snk, fwriteieee754f fuel Fl.nan emptySink bigendian = some (0, snk) ∧
      snk.out.length = 4 ∧ freadieee754f fuel snk.out bigendian = some Fl.nan) := by
  refine ⟨?_, ?_, ⟨_, fwriteieee754_nan fuel bigendian, ?_, ?_⟩,
    ⟨_, fwriteieee754f_nan fuel bigendian, ?_, ?_⟩⟩
  · rw [fwriteieee754_nan]; decide
  · rw [fwriteieee754f_nan]; decide
  · cases bigendian <;> rfl
  · simp only
    rw [freadieee754_order]
    have := freadieee754_fields 0 2047 1234 (by decide) (by decide) (by decide) fuel []
    rw [List.append_nil] at this
    rw [this]
    simp
  · cases bigendian <;> rfl
  · simp only
    rw [freadieee754f_order]
    have := freadieee754f_fields 0 255 1234 (by decide) (by decide) (by decide) fuel []
    rw [List.append_nil] at this
    rw [this]
    simp

/-- C12 (16-bit integer read). On a host whose `int` has at least 16 bits, for
all octets `b0`, `b1` read in that order, `fget16be` returns the
two's-complement value of the 16-bit word `256*b0 + b1` and `fget16le` that of
`256*b1 + b0`; the value lies in `[-32768, 32767]`. `[00,01]` big-endian and
`[01,00]` little-endian read 1, `[FF,FF]` reads -1 in either order, `[80,00]`
big-endian reads -32768. -/
theorem fget16_value (w b0 b1 : ℕ) (hw : 16 ≤ w) (h0 : b0 < 256) (h1 : b1 < 256) :
    fget16be w [b0, b1] = some (twosComp 16 (256 * (b0 : ℤ) + (b1 : ℤ))) ∧
    fget16le w [b0, b1] = some (twosComp 16 (256 * (b1 : ℤ) + (b0 : ℤ))) ∧
    -32768 ≤ twosComp 16 (256 * (b0 : ℤ) + (b1 : ℤ)) ∧
    twosComp 16 (256 * (b0 : ℤ) + (b1 : ℤ)) ≤ 32767 ∧
    fget16be w [0x00, 0x01] = some 1 ∧ fget16le w [0x01, 0x00] = some 1 ∧
    fget16be w [0xFF, 0xFF] = some (-1) ∧ fget16le w [0xFF, 0xFF] = some (-1) ∧
    fget16be w [0x80, 0x00] = some (-32768) := by
  refine ⟨fget16be_full w b0 b1 hw h0 h1, fget16le_full w b0 b1 hw h0 h1, ?_, ?_, ?_, ?_, ?_,
    ?_, ?_⟩
  · unfold twosComp; norm_num; split_ifs <;> omega
  · unfold twosComp; norm_num; split_ifs <;> omega
  · rw [fget16be_full w 0x00 0x01 hw (by decide) (by decide)]; decide
  · rw [fget16le_full w 0x01 0x00 hw (by decide) (by decide)]; decide
  · rw [fget16be_full w 0xFF 0xFF hw (by decide) (by decide)]; decide
  · rw [fget16le_full w 0xFF 0xFF hw (by decide) (by decide)]; decide
  · rw [fget16be_full w 0x80 0x00 hw (by decide) (by decide)]; decide

/-- Witness of C12: a 16-bit `int`, the octets `12 E4`. -/
theorem fget16_value_witness :
    (16 ≤ 16 ∧ 0x12 < 256 ∧ 0xE4 < 256) ∧
    fget16be 16 [0x12, 0xE4] = some (twosComp 16 (256 * ((0x12 : ℕ) : ℤ) + ((0xE4 : ℕ) : ℤ))) ∧
    fget16le 16 [0x12, 0xE4] = some (twosComp 16 (256 * ((0xE4 : ℕ) : ℤ) + ((0x12 : ℕ) : ℤ))) :=
  ⟨by decide, (fget16_value 16 0x12 0xE4 (by decide) (by decide) (by decide)).1,
    (fget16_value 16 0x12 0xE4 (by decide) (by decide) (by decide)).2.1⟩

/-- C13 (32-bit integer read). On a host whose `int` has at least 32 bits, for
all octets `b0 .. b3` read in that order, `fget32be` returns the
two's-complement value of `b0*2^24 + b1*2^16 + b2*2^8 + b3` and `fget32le` that
of `b3*2^24 + b2*2^16 + b1*2^8 + b0`; the value lies in `[-2^31, 2^31 - 1]`,
and `fget32le` on a sequence equals `fget32be` on the reversed sequence. -/
theorem fget32_value (w b0 b1 b2 b3 : ℕ) (hw : 32 ≤ w) (h0 : b0 < 256) (h1 : b1 < 256)
    (h2 : b2 < 256) (h3 : b3 < 256) :
    fget32be w [b0, b1, b2, b3] = some (twosComp 32
      ((b0 : ℤ) * 2 ^ 24 + (b1 : ℤ) * 2 ^ 16 + (b2 : ℤ) * 2 ^ 8 + (b3 : ℤ))) ∧
    fget32le w [b0, b1, b2, b3] = some (twosComp 32
      ((b3 : ℤ) * 2 ^ 24 + (b2 : ℤ) * 2 ^ 16 + (b1 : ℤ) * 2 ^ 8 + (b0 : ℤ))) ∧
    -(2 ^ 31) ≤ twosComp 32 ((b0 : ℤ) * 2 ^ 24 + (b1 : ℤ) * 2 ^ 16 + (b2 : ℤ) * 2 ^ 8 + (b3 : ℤ)) ∧
    twosComp 32 ((b0 : ℤ) * 2 ^ 24 + (b1 : ℤ) * 2 ^ 16 + (b2 : ℤ) * 2 ^ 8 + (b3 : ℤ))
      ≤ 2 ^ 31 - 1 ∧
    fget32le w [b0, b1, b2, b3] = fget32be w [b0, b1, b2, b3].reverse := by
  refine ⟨fget32be_full w b0 b1 b2 b3 hw h0 h1 h2 h3, fget32le_full w b0 b1 b2 b3 hw h0 h1 h2 h3,
    ?_, ?_, ?_⟩
  · unfold twosComp; norm_num; split_ifs <;> omega
  · unfold twosComp; norm_num; split_ifs <;> omega
  · rw [fget32le_full w b0 b1 b2 b3 hw h0 h1 h2 h3]
    simp only [List.reverse_cons, List.reverse_nil, List.nil_append, List.cons_append]
    rw [fget32be_full w b3 b2 b1 b0 hw h3 h2 h1 h0]

/-- Witness of C13: a 32-bit `int`, the octets `80 00 00 01`. -/
theorem fget32_value_witness :
    (32 ≤ 32 ∧ 0x80 < 256 ∧ 0x00 < 256 ∧ 0x01 < 256) ∧
    fget32be 32 [0x80, 0x00, 0x00, 0x01] = some (twosComp 32
      (((0x80 : ℕ) : ℤ) * 2 ^ 24 + ((0x00 : ℕ) : ℤ) * 2 ^ 16 + ((0x00 : ℕ) : ℤ) * 2 ^ 8
        + ((0x01 : ℕ) : ℤ))) ∧
    fget32le 32 [0x80, 0x00, 0x00, 0x01] = fget32be 32 [0x80, 0x00, 0x00, 0x01].reverse :=
  ⟨by decide,
    (fget32_value 32 0x80 0x00 0x00 0x01 (by decide) (by decide) (by decide) (by decide)
      (by decide)).1,
    (fget32_value 32 0x80 0x00 0x00 0x01 (by decide) (by decide) (by decide) (by decide)
      (by decide)).2.2.2.2⟩

/-- C14 (truncated integer input, sentinel -1), evaluated on the host's 32-bit
`int`. The 16-bit reader returns the formula with `-1` for each missing octet:
`fget16be` on `[00]` is -1 and on the empty stream -65793. For `fget32be` on the
empty stream the formula has the value -4311810305, which a 32-bit `int` cannot
hold: the product `(-257) * 256 * 256 * 256` overflows, so the reader does not
return the value of the formula (an `int` that wraps gives -16843009); the same
expression computed in 64 bits gives the value of the formula. Likewise
`fget32le` on `[01,02,03]`, where the formula has the value -4311547391. -/
theorem fget32_truncated_overflows :
    fget16be 32 [0x00] = some (-1) ∧
    fget16be 32 [] = some ((Int.xor (-1) 128 - 128) * 256 + (-1)) ∧
    fget16be 32 [] = some (-65793) ∧
    (Int.xor (-1) 128 - 128) * 256 * 256 * 256 + (-1) * 256 * 256 + (-1) * 256 + (-1)
      = -4311810305 ∧
    intOp 32 ((Int.xor (-1) 128 - 128) * 256 * 256 * 256) = none ∧
    fget32be 32 [] = none ∧
    fget32be 32 [] ≠ some (-4311810305) ∧
    wrapInt (-4311810305) = -16843009 ∧
    fget32be 64 [] = some (-4311810305) ∧
    (Int.xor (-1) 128 - 128) * 256 * 256 * 256 + 0x03 * 256 * 256 + 0x02 * 256 + 0x01
      = -4311547391 ∧
    fget32le 32 [0x01, 0x02, 0x03] = none ∧
    wrapInt (-4311547391) = -16580095 ∧
    fget32le 64 [0x01, 0x02, 0x03] = some (-4311547391) := by
  decide

/-- C17 (host-width independence of the 32-bit readers), evaluated on a host
whose `int` has 16 bits: on the octets `00 01 00 00` the product
`c3 * 256 * 256 = 65536` is not a value of `int`, so `fget32be` (and `fget32le`
on the reversed octets) overflows; with a 32-bit `int` it returns 65536. -/
theorem fget32_overflows_16bit_int :
    intOp 16 (((1 : ℤ) * 256) * 256) = none ∧
    fget32be 16 [0x00, 0x01, 0x00, 0x00] = none ∧
    fget32le 16 [0x00, 0x00, 0x01, 0x00] = none ∧
    fget32be 32 [0x00, 0x01, 0x00, 0x00] = some 65536 := by
  decide

/-- C18 (encoder output shape). For every `double` `x` and every `float` `y`
(zero of either sign, finite, infinite or NaN), with no failing write,
`fwriteieee754` emits exactly 8 octets and `fwriteieee754f` exactly 4, and the
octets emitted in little-endian order are the reverse of those emitted for the
same value in big-endian order. -/
theorem encoder_output_shape (x y : Fl) (fuel : ℕ) (hx : IsDouble x) (hy : IsFloat y)
    (hf : 1074 < fuel) :
    (∃ bytes : List ℕ, bytes.length = 8 ∧
      fwriteieee754 fuel x emptySink true
        = some (0, { out := bytes, err := false, fails := [] }) ∧
      fwriteieee754 fuel x emptySink false
        = some (0, { out := bytes.reverse, err := false, fails := [] })) ∧
    (∃ bytes : List ℕ, bytes.length = 4 ∧
      fwriteieee754f fuel y emptySink true
        = some (0, { out := bytes, err := false, fails := [] }) ∧
      fwriteieee754f fuel y emptySink false
        = some (0, { out := bytes.reverse, err := false, fails := [] })) := by
  constructor
  · obtain ⟨⟨hi, lo⟩, hp⟩ := pack64_total x hx fuel hf
    refine ⟨be64 (hi % 2 ^ 32 * 2 ^ 32 + lo % 2 ^ 32), be64_length _, ?_, ?_⟩
    · unfold fwriteieee754
      rw [hp]
      simp only [emptySink, writedata64_nofail, Bool.false_eq_true, if_false, if_true,
        List.nil_append]
    · unfold fwriteieee754
      rw [hp]
      simp only [emptySink, writedata64_nofail, Bool.false_eq_true, if_false,
        List.nil_append]
  · obtain ⟨buff, hp⟩ := pack32_total y hy fuel hf
    refine ⟨be32 (buff % 2 ^ 32), be32_length _, ?_, ?_⟩
    · unfold fwriteieee754f
      rw [hp]
      simp only [emptySink, writedata32_nofail, Bool.false_eq_true, if_false, if_true,
        List.nil_append]
    · unfold fwriteieee754f
      rw [hp]
      simp only [emptySink, writedata32_nofail, Bool.false_eq_true, if_false,
        List.nil_append]

/-- Witness of C18: the subnormal `double` `-3 * 2^(-1074)` and the `float`
`-∞`. -/
theorem encoder_output_shape_witness :
    (IsDouble (Fl.fin (value64 1 0 3)) ∧ IsFloat (Fl.inf true) ∧ 1074 < 1100) ∧
    ∃ bytes : List ℕ, bytes.length = 8 ∧
      fwriteieee754 1100 (Fl.fin (value64 1 0 3)) emptySink true
        = some (0, { out := bytes, err := false, fails := [] }) ∧
      fwriteieee754 1100 (Fl.fin (value64 1 0 3)) emptySink false
        = some (0, { out := bytes.reverse, err := false, fails := [] }) :=
  ⟨⟨Or.inr (Or.inr (Or.inr (Or.inr ⟨1, 0, 3, by decide, by decide, by decide, rfl⟩))),
      Or.inr (Or.inr (Or.inl rfl)), by decide⟩,
    (encoder_output_shape (Fl.fin (value64 1 0 3)) (Fl.inf true) 1100
      (Or.inr (Or.inr (Or.inr (Or.inr ⟨1, 0, 3, by decide, by decide, by decide, rfl⟩))))
      (Or.inr (Or.inr (Or.inl rfl))) (by decide)).1⟩

/-- C19 (termination of the codec loops). With fuel 53 (24) the decoder returns
a value on every 8-octet (4-octet) input in both byte orders; it returns without
fuel, that is without entering the doubling loop, unless the exponent field is
0 and the significand field is not 0, and on such a fraction `m / 2^52`
(`m / 2^23`) the loop stops after `k ≤ 52` (`k ≤ 23`) passes. With fuel above
1074 the encoders return on every `double` (`float`), whatever the sink and the
byte order; on the zeros, the infinities and NaN they return without fuel, that
is before the normalisation loops; and on the magnitude of every other value,
which is positive, the halving and the doubling loop both return, leaving
`1 ≤ fnorm < 2` and `fnorm * 2^shift = |x|`. -/
theorem codec_termination (fuel : ℕ) (hf : 1074 < fuel) :
    (∀ (b : List ℕ) (o : Bool), b.length = 8 → ∃ v, freadieee754 53 b o = some v) ∧
    (∀ (b : List ℕ) (o : Bool), b.length = 4 → ∃ v, freadieee754f 24 b o = some v) ∧
    (∀ s e m : ℕ, s < 2 → e < 2048 → m < 2 ^ 52 → ¬ (e = 0 ∧ m ≠ 0) →
      ∃ v, freadieee754 0 (be64 (word64 s e m)) true = some v) ∧
    (∀ s e m : ℕ, s < 2 → e < 256 → m < 2 ^ 23 → ¬ (e = 0 ∧ m ≠ 0) →
      ∃ v, freadieee754f 0 (be32 (word32 s e m)) true = some v) ∧
    (∀ (m : ℕ) (sh : ℤ), 1 ≤ m → m < 2 ^ 52 → ∃ (k : ℕ) (f : ℚ), k ≤ 52 ∧
      doubleLoop (k + 1) (Fl.fin ((m : ℚ) / 2 ^ 52)) sh = some (Fl.fin f, sh - (k : ℤ))) ∧
    (∀ (m : ℕ) (sh : ℤ), 1 ≤ m → m < 2 ^ 23 → ∃ (k : ℕ) (f : ℚ), k ≤ 23 ∧
      doubleLoop (k + 1) (Fl.fin ((m : ℚ) / 2 ^ 23)) sh = some (Fl.fin f, sh - (k : ℤ))) ∧
    (∀ (x : Fl) (fp : Sink) (o : Bool), IsDouble x → ∃ r, fwriteieee754 fuel x fp o = some r) ∧
    (∀ (x : Fl) (fp : Sink) (o : Bool), IsFloat x → ∃ r, fwriteieee754f fuel x fp o = some r) ∧
    (∀ x : Fl,
      x = Fl.fin 0 ∨ x = Fl.nzero ∨ x = Fl.inf false ∨ x = Fl.inf true ∨ x = Fl.nan →
      (∃ r, pack64 0 x = some r) ∧ (∃ r, pack32 0 x = some r)) ∧
    (∀ s e m : ℕ, e ≤ 2046 → m < 2 ^ 52 → e ≠ 0 ∨ m ≠ 0 →
      0 < |value64 s e m| ∧
      ∃ (f1 : Fl) (sh1 : ℤ) (f : ℚ) (sh : ℤ),
        halveLoop fuel (Fl.fin |value64 s e m|) 0 = some (f1, sh1) ∧
        doubleLoop fuel f1 sh1 = some (Fl.fin f, sh) ∧
        1 ≤ f ∧ f < 2 ∧ f * (2 : ℚ) ^ sh = |value64 s e m|) ∧
    (∀ s e m : ℕ, e ≤ 254 → m < 2 ^ 23 → e ≠ 0 ∨ m ≠ 0 →
      0 < |value32 s e m| ∧
      ∃ (f1 : Fl) (sh1 : ℤ) (f : ℚ) (sh : ℤ),
        halveLoop fuel (Fl.fin |value32 s e m|) 0 = some (f1, sh1) ∧
        doubleLoop fuel f1 sh1 = some (Fl.fin f, sh) ∧
        1 ≤ f ∧ f < 2 ∧ f * (2 : ℚ) ^ sh = |value32 s e m|) := by
  refine ⟨fun b o h => freadieee754_total_order 53 (by decide) b o h,
    fun b o h => freadieee754f_total_order 24 (by decide) b o h,
    fun s e m hs he hm h => freadieee754_no_loop s e m hs he hm h,
    fun s e m hs he hm h => freadieee754f_no_loop s e m hs he hm h,
    fun m sh h1 h2 => doubleLoop_fraction m 52 sh le_rfl h1 h2,
    fun m sh h1 h2 => doubleLoop_fraction m 23 sh (by decide) h1 h2,
    ?_, ?_, pack_special, ?_, ?_⟩
  · intro x fp o hx
    obtain ⟨hl, hp⟩ := pack64_total x hx fuel hf
    unfold fwriteieee754
    rw [hp]
    exact ⟨_, rfl⟩
  · intro x fp o hx
    obtain ⟨buff, hp⟩ := pack32_total x hx fuel hf
    unfold fwriteieee754f
    rw [hp]
    exact ⟨_, rfl⟩
  · intro s e m he hm hnz
    obtain ⟨n, L, c, hL1, hL2, hL, h1, h2, hv⟩ := value64_dyadic s e m he hm hnz
    have hpos := dyadic_pos n L c hL1
    rw [hv, abs_signed s _ hpos.le]
    exact ⟨hpos, normalise_loops n L c hL1 hL2 hL h1 h2 fuel hf⟩
  · intro s e m he hm hnz
    obtain ⟨n, L, c, hL1, hL2, hL, h1, h2, hv⟩ := value32_dyadic s e m he hm hnz
    have hpos := dyadic_pos n L c hL1
    rw [hv, abs_signed s _ hpos.le]
    exact ⟨hpos, normalise_loops n L c hL1 hL2 (by omega) (by omega) (by omega) fuel hf⟩

/-- Witness of C19: with fuel 1075 `fwriteieee754` returns on the subnormal
`double` `3 * 2^(-1074)` in little-endian order. -/
theorem codec_termination_witness :
    1074 < 1075 ∧
    (∃ r, fwriteieee754 1075 (Fl.fin (value64 0 0 3)) emptySink false = some r) ∧
    (∃ v, freadieee754 53 [0x00, 0x00, 0x00, 0x00, 0x00, 0x00, 0x00, 0x03] true = some v) :=
  ⟨by decide,
    (codec_termination 1075 (by decide)).2.2.2.2.2.2.1 (Fl.fin (value64 0 0 3)) emptySink false
      (Or.inr (Or.inr (Or.inr (Or.inr ⟨0, 0, 3, by decide, by decide, by decide, rfl⟩)))),
    (codec_termination 1075 (by decide)).1 [0x00, 0x00, 0x00, 0x00, 0x00, 0x00, 0x00, 0x03]
      true rfl⟩

/-- C20 (re-encoding stability, 64-bit). For every 8-octet sequence whose
exponent field is not all-ones (every 8-octet sequence is the octets of
`word64 s e m` for its sign bit `s`, exponent field `e` and significand field
`m`), and for both byte orders, `freadieee754` returns a value `x`, and
`fwriteieee754` on `x` in the same byte order succeeds and emits exactly the
sequence that was read, unless that sequence is the negative-zero pattern
`80 00 00 00 00 00 00 00` (`s = 1`, `e = 0`, `m = 0`), for which it emits eight
zero octets. -/
theorem reencode_stable (s e m fuel : ℕ) (bigendian : Bool) (hs : s < 2) (he : e ≤ 2046)
    (hm : m < 2 ^ 52) (hf : 1074 < fuel) :
    ∃ x, freadieee754 fuel
        (if bigendian then be64 (word64 s e m) else (be64 (word64 s e m)).reverse) bigendian
        = some x ∧
      (¬ (s = 1 ∧ e = 0 ∧ m = 0) →
        fwriteieee754 fuel x emptySink bigendian
          = some (0, { out := if bigendian then be64 (word64 s e m)
                         else (be64 (word64 s e m)).reverse,
                       err := false, fails := [] })) ∧
      (s = 1 ∧ e = 0 ∧ m = 0 →
        be64 (word64 s e m) = [0x80, 0, 0, 0, 0, 0, 0, 0] ∧
        fwriteieee754 fuel x emptySink bigendian
          = some (0, { out := [0, 0, 0, 0, 0, 0, 0, 0], err := false, fails := [] })) := by
  refine ⟨Fl.fin (value64 s e m), ?_, ?_, ?_⟩
  · rw [freadieee754_order]
    exact freadieee754_value64 s e m fuel hs (by omega) hm (by omega)
  · intro hneg
    by_cases hnz : e ≠ 0 ∨ m ≠ 0
    · exact fwriteieee754_value64 s e m fuel bigendian hs (by omega) hm hnz hf
    · have he0 : e = 0 := by omega
      have hm0 : m = 0 := by omega
      have hs0 : s = 0 := by omega
      subst he0 hm0 hs0
      rw [value64_zero, fwriteieee754_zero _ (Or.inl rfl)]
      cases bigendian <;> decide
  · rintro ⟨rfl, rfl, rfl⟩
    refine ⟨by decide, ?_⟩
    rw [value64_zero, fwriteieee754_zero _ (Or.inl rfl)]
    decide

/-- Witness of C20: the little-endian octets of the subnormal word with sign
bit 1 and significand field 5. -/
theorem reencode_stable_witness :
    (1 < 2 ∧ 0 ≤ 2046 ∧ 5 < 2 ^ 52 ∧ 1074 < 1100) ∧
    ∃ x, freadieee754 1100
        (if false then be64 (word64 1 0 5) else (be64 (word64 1 0 5)).reverse) false
        = some x ∧
      (¬ (1 = 1 ∧ 0 = 0 ∧ 5 = 0) →
        fwriteieee754 1100 x emptySink false
          = some (0, { out := if false then be64 (word64 1 0 5)
                         else (be64 (word64 1 0 5)).reverse,
                       err := false, fails := [] })) ∧
      (1 = 1 ∧ 0 = 0 ∧ 5 = 0 →
        be64 (word64 1 0 5) = [0x80, 0, 0, 0, 0, 0, 0, 0] ∧
        fwriteieee754 1100 x emptySink false
          = some (0, { out := [0, 0, 0, 0, 0, 0, 0, 0], err := false, fails := [] })) :=
  ⟨by decide, reencode_stable 1 0 5 1100 false (by decide) (by decide) (by decide) (by decide)⟩

end Ieee754
